import Mathlib

/-!
# MetaQuotesTestTask: the log reader

A shallow embedding of `LogReader.cpp` (the pattern matcher `StateMachine`, the
chunked byte source `FileWrapper` and the line scanner `CLogReader::GetNextLine`)
together with theorems about it.

Conventions of the embedding

* A `char` is a natural number (its byte value); `'?'` is 63, `'*'` is 42,
  `'\r'` is 13 and `'\n'` is 10.  Only equality of bytes is ever used by the code.
* The node chain hanging off `m_sentinelState.next` is a `List SingleState`; a
  `SingleState*` is the position of the node in that list, `none` is `nullptr`, and
  `curState->next` of the node at position `q` is position `q + 1` (or `nullptr`
  for the last node).
* An array allocated with `new T[n]` is a list of length `n`.  Reading or writing
  outside of it, or dereferencing `nullptr`, is undefined behaviour in C++; the
  embedding makes it an explicit `Fault`.
* `new (std::nothrow)` is taken to succeed.
-/

namespace LogReader

/-- The byte value of the question mark. -/
def QUESTION : Nat := 63
/-- The byte value of the asterisk. -/
def ASTERISK : Nat := 42
/-- The byte value of carriage return. -/
def CR : Nat := 13
/-- The byte value of line feed. -/
def LF : Nat := 10

/-- Undefined behaviour made explicit: an access outside an allocated array. -/
inductive Fault where
  /-- A write to `buffer[index]` of an array allocated with `allocated` elements. -/
  | bufferOverrun (index allocated : Nat)
  /-- A read of `buffer[index]` outside the array, or through a null pointer. -/
  | invalidRead (index : Nat)
  deriving DecidableEq, Repr

/-- The matcher status, `StateMachine::SymbolProcessStatus`. -/
inductive SymbolProcessStatus where
  | SuccessSkipTheRest
  | MatchFailed
  | KeepGoing
  deriving DecidableEq, Repr

/-- One node of the compiled filter, `StateMachine::SingleState` (the `next` link is
the position of the node in the chain). -/
structure SingleState where
  symbol : Nat
  isPersistent : Bool
  deriving DecidableEq, Repr

/-- The list of currently active states, `StateMachine::StatePack`: an allocated array
of node pointers and the number of live entries. -/
structure StatePack where
  buffer : List (Option Nat)
  count : Nat
  deriving DecidableEq, Repr

/-- The matcher, `class StateMachine`. -/
structure StateMachine where
  /-- The nodes owned by `m_sentinelState`, in chain order. -/
  chain : List SingleState
  m_stateDoubleBuffer : StatePack × StatePack
  m_currentStepStates : Nat
  m_currentStatus : SymbolProcessStatus
  m_fragileSuccess : Bool
  deriving DecidableEq, Repr

/-- The pack `m_stateDoubleBuffer[i]`. -/
def StateMachine.pack (m : StateMachine) (i : Nat) : StatePack :=
  if i = 0 then m.m_stateDoubleBuffer.1 else m.m_stateDoubleBuffer.2

/-- Assignment to `m_stateDoubleBuffer[i]`. -/
def StateMachine.setPack (m : StateMachine) (i : Nat) (p : StatePack) : StateMachine :=
  if i = 0 then { m with m_stateDoubleBuffer := (p, m.m_stateDoubleBuffer.2) }
  else { m with m_stateDoubleBuffer := (m.m_stateDoubleBuffer.1, p) }

/-- The loop of `StateMachine::build` over the characters of the filter, up to the
terminating zero: the chain built so far, `asteriskWildcardPending` and
`simultaneousStateCount` (an `int` in the source, which does not overflow for a filter
of fewer than 2^30 characters). -/
def scanFilter : List Nat → List SingleState → Bool → Nat → List SingleState × Bool × Nat
  | [], chain, pending, n => (chain, pending, n)
  | c :: rest, chain, pending, n =>
    if c = 0 then (chain, pending, n)
    else if c = QUESTION then scanFilter rest (chain ++ [⟨0, false⟩]) pending n
    else if c = ASTERISK then scanFilter rest chain true n
    else scanFilter rest (chain ++ [⟨c, pending⟩]) false (if pending then n + 2 else n)

/-- The chain after the optional skip-the-rest node has been appended. -/
def closeChain (chain : List SingleState) (pending : Bool) : List SingleState :=
  if pending then chain ++ [⟨0, true⟩] else chain

/-- The pointer `m_sentinelState.next`. -/
def firstNode (chain : List SingleState) : Option Nat :=
  if chain.isEmpty then none else some 0

/-- Compilation of a filter, `StateMachine::build` (through
`StateMachineFactory::create`): `none` is the null machine. -/
def build (filter : List Nat) : Option StateMachine :=
  let r := scanFilter filter [] false 0
  let chain := closeChain r.1 r.2.1
  if chain.isEmpty then none
  else
    let simultaneousStateCount := if r.2.2 = 0 then 1 else r.2.2
    some
      { chain := chain
        m_stateDoubleBuffer :=
          (⟨(List.replicate simultaneousStateCount none).set 0 (firstNode chain), 1⟩,
           ⟨List.replicate simultaneousStateCount none, 0⟩)
        m_currentStepStates := 0
        m_currentStatus := .KeepGoing
        m_fragileSuccess := false }

/-- The read `pack.buffer[i]` followed by a dereference of the pointer read. -/
def StatePack.read (chain : List SingleState) (p : StatePack) (i : Nat) :
    Except Fault (Nat × SingleState) :=
  match p.buffer[i]? with
  | some (some q) =>
    match chain[q]? with
    | some s => .ok (q, s)
    | none => .error (.invalidRead i)
  | _ => .error (.invalidRead i)

/-- The write `pack.buffer[pack.count++] = q`. -/
def StatePack.push (p : StatePack) (q : Nat) : Except Fault StatePack :=
  if p.count < p.buffer.length then .ok ⟨p.buffer.set p.count (some q), p.count + 1⟩
  else .error (.bufferOverrun p.count p.buffer.length)

/-- The test `pack.count == 0 || pack.buffer[pack.count - 1] != curState`. -/
def StatePack.lastIsNot (p : StatePack) (q : Nat) : Bool :=
  p.count = 0 || p.buffer[p.count - 1]? ≠ some (some q)

/-- The pointer `curState->next` of the node at position `q`. -/
def nextOf (chain : List SingleState) (q : Nat) : Option Nat :=
  if q + 1 < chain.length then some (q + 1) else none

/-- The second half of the loop body of `processSymbol`: the transition on a
matching symbol. -/
def advanceState (chain : List SingleState) (symbol q : Nat) (s : SingleState)
    (next : StatePack) (fragile : Bool) : Except Fault (StatePack × Bool) :=
  if s.symbol = 0 ∨ s.symbol = symbol then
    match nextOf chain q with
    | some q' =>
      match next.push q' with
      | .ok next' => .ok (next', fragile)
      | .error e => .error e
    | none => .ok (next, true)
  else .ok (next, fragile)

/-- The loop body of `processSymbol` for the active node `s` at position `q`;
`none` is the early return with `SuccessSkipTheRest`. -/
def processState (chain : List SingleState) (symbol q : Nat) (s : SingleState)
    (next : StatePack) (fragile : Bool) : Except Fault (Option (StatePack × Bool)) :=
  if s.isPersistent then
    if s.symbol = 0 then .ok none
    else if next.lastIsNot q then
      match next.push q with
      | .ok next' =>
        match advanceState chain symbol q s next' fragile with
        | .ok r => .ok (some r)
        | .error e => .error e
      | .error e => .error e
    else
      match advanceState chain symbol q s next fragile with
      | .ok r => .ok (some r)
      | .error e => .error e
  else
    match advanceState chain symbol q s next fragile with
    | .ok r => .ok (some r)
    | .error e => .error e

/-- The loop `for (i = ...; i < curStepStates.count; ++i)` of `processSymbol`, with
`k` iterations left; the result is the next pack, the tentative-success flag and
whether the loop was left through the skip-the-rest return. -/
def processLoop (chain : List SingleState) (symbol : Nat) (cur : StatePack) :
    Nat → Nat → StatePack → Bool → Except Fault (StatePack × Bool × Bool)
  | 0, _, next, fragile => .ok (next, fragile, false)
  | k + 1, i, next, fragile =>
    match cur.read chain i with
    | .error e => .error e
    | .ok (q, s) =>
      match processState chain symbol q s next fragile with
      | .error e => .error e
      | .ok none => .ok (next, fragile, true)
      | .ok (some (next', fragile')) => processLoop chain symbol cur k (i + 1) next' fragile'

/-- One step of the matcher, `StateMachine::processSymbol`. -/
def processSymbol (m : StateMachine) (symbol : Nat) :
    Except Fault (SymbolProcessStatus × StateMachine) :=
  let curStepStates := m.pack m.m_currentStepStates
  if m.m_currentStatus ≠ .KeepGoing then .ok (m.m_currentStatus, m)
  else if curStepStates.count = 0 then
    .ok (.MatchFailed, { m with m_currentStatus := .MatchFailed })
  else
    let nextStepStates := m.pack (1 - m.m_currentStepStates)
    match processLoop m.chain symbol curStepStates curStepStates.count 0 nextStepStates false with
    | .error e => .error e
    | .ok (next, fragile, true) =>
      .ok (.SuccessSkipTheRest,
        { (m.setPack (1 - m.m_currentStepStates) next) with
            m_fragileSuccess := fragile
            m_currentStatus := .SuccessSkipTheRest })
    | .ok (next, fragile, false) =>
      let m1 := m.setPack (1 - m.m_currentStepStates) next
      let m2 := m1.setPack m.m_currentStepStates { curStepStates with count := 0 }
      .ok (.KeepGoing,
        { m2 with
            m_fragileSuccess := fragile
            m_currentStepStates := 1 - m.m_currentStepStates })

/-- The method `StateMachine::reset`. -/
def reset (m : StateMachine) : StateMachine :=
  { m with
    m_currentStepStates := 0
    m_stateDoubleBuffer :=
      (⟨m.m_stateDoubleBuffer.1.buffer.set 0 (firstNode m.chain), 1⟩,
       { m.m_stateDoubleBuffer.2 with count := 0 })
    m_currentStatus := .KeepGoing
    m_fragileSuccess := false }

/-- The method `StateMachine::isMatchSuccessful`. -/
def isMatchSuccessful (m : StateMachine) : Except Fault Bool :=
  if m.m_currentStatus = .SuccessSkipTheRest ∨
      (m.m_currentStatus = .KeepGoing ∧ m.m_fragileSuccess = true) then .ok true
  else
    let curStepStates := m.pack m.m_currentStepStates
    if curStepStates.count = 0 then .ok false
    else
      match curStepStates.read m.chain (curStepStates.count - 1) with
      | .ok (_, lastCurStep) => .ok (lastCurStep.isPersistent && lastCurStep.symbol = 0)
      | .error e => .error e

/-- Feeding the bytes of a line, in order, through `processSymbol`. -/
def feed (m : StateMachine) : List Nat → Except Fault StateMachine
  | [] => .ok m
  | c :: rest =>
    match processSymbol m c with
    | .ok (_, m') => feed m' rest
    | .error e => .error e

/-- The matcher applied to one line: `reset`, `processSymbol` on every byte, then
`isMatchSuccessful`. -/
def matchLine (m : StateMachine) (line : List Nat) : Except Fault Bool :=
  match feed (reset m) line with
  | .ok m' => isMatchSuccessful m'
  | .error e => .error e

/-- The verdict of the matcher compiled from `filter` on `line`; `none` when the
filter does not compile. -/
def filterVerdict (filter line : List Nat) : Option (Except Fault Bool) :=
  (build filter).map (fun m => matchLine m line)

/-- Whether some suffix of the line is accepted by `k`: the line with a possibly empty
run of bytes taken off its front. -/
def starMatch (k : List Nat → Bool) : List Nat → Bool
  | [] => k []
  | c :: cs => k (c :: cs) || starMatch k cs

/-- Glob semantics of a filter on a line, as the specification words it: `?` is exactly
one byte, `*` is any possibly empty run of bytes, any other byte is itself. -/
def globMatch : List Nat → List Nat → Bool
  | [], w => w.isEmpty
  | p :: ps, w =>
    if p = ASTERISK then starMatch (globMatch ps) w
    else
      match w with
      | [] => false
      | c :: cs => (decide (p = QUESTION) || decide (p = c)) && globMatch ps cs

/-- The status of a read, `FileWrapper::SymbolReadStatus`. -/
inductive SymbolReadStatus where
  | Success
  | EndOfLine
  | EndOfFile
  | Failure
  deriving DecidableEq, Repr

/-- The result of mapping a chunk, `FileWrapper::ChunkMapState`. -/
inductive ChunkMapState where
  | Success
  | Failure
  | EndOfFile
  deriving DecidableEq, Repr

/-- The byte source, `class FileWrapper`.  The operating system is modelled by the
bytes of the file (`content`) and by the allocation granularity (`chunkSize`, the
value of `getMemoryChunkSize()`); `CreateFile`, `CreateFileMapping`, `MapViewOfFile`
and `UnmapViewOfFile` are taken to succeed.  The pointers into the mapped view are
kept as offsets into the file (the view of the chunk at offset `o` maps the bytes from
`o` on), `nullptr` being offset 0 of an unmapped view. -/
structure FileWrapper where
  content : List Nat
  chunkSize : Nat
  m_fileSize : Nat
  m_curChunkOffset : Nat
  m_curChunkBaseAddress : Option Nat
  m_curMemoryPos : Nat
  m_curMemoryEndPos : Nat
  m_currentStatus : SymbolReadStatus
  deriving DecidableEq, Repr

/-- The method `FileWrapper::unmapCurrentChunk`. -/
def unmapCurrentChunk (fw : FileWrapper) : Bool × FileWrapper :=
  match fw.m_curChunkBaseAddress with
  | some _ =>
    (true, { fw with m_curChunkBaseAddress := none, m_curMemoryPos := 0, m_curMemoryEndPos := 0 })
  | none => (true, fw)

/-- The method `FileWrapper::mapNextChunk`. -/
def mapNextChunk (fw : FileWrapper) : ChunkMapState × FileWrapper :=
  if fw.m_curChunkBaseAddress.isSome then (.Failure, fw)
  else if fw.m_curChunkOffset ≥ fw.m_fileSize then (.EndOfFile, fw)
  else
    let chunkSize :=
      if fw.m_fileSize - fw.m_curChunkOffset > fw.chunkSize then fw.chunkSize
      else fw.m_fileSize - fw.m_curChunkOffset
    (.Success,
      { fw with
        m_curChunkBaseAddress := some fw.m_curChunkOffset
        m_curMemoryPos := fw.m_curChunkOffset
        m_curMemoryEndPos := fw.m_curChunkOffset + chunkSize
        m_curChunkOffset := fw.m_curChunkOffset + fw.chunkSize })

/-- The method `FileWrapper::switchToNextChunk`. -/
def switchToNextChunk (fw : FileWrapper) : ChunkMapState × FileWrapper :=
  let r := unmapCurrentChunk fw
  if r.1 = false then (.Failure, r.2) else mapNextChunk r.2

/-- The method `FileWrapper::openFile` on a file with the given bytes; `none` when it
returns false (the file is empty). -/
def openFile (content : List Nat) (chunkSize : Nat) : Option FileWrapper :=
  let fw : FileWrapper :=
    { content := content
      chunkSize := chunkSize
      m_fileSize := content.length
      m_curChunkOffset := 0
      m_curChunkBaseAddress := none
      m_curMemoryPos := 0
      m_curMemoryEndPos := 0
      m_currentStatus := .Success }
  if fw.m_fileSize = 0 then none
  else
    let r := mapNextChunk fw
    if r.1 = .Success then some r.2 else none

/-- An upper bound on the number of loop iterations and nested calls a read can still
make: the bytes left in the view plus two for every byte not yet mapped. -/
def FileWrapper.budget (fw : FileWrapper) : Nat :=
  (fw.m_curMemoryEndPos - fw.m_curMemoryPos) + 2 * (fw.m_fileSize - fw.m_curChunkOffset) + 1

/-- The method `FileWrapper::readNextSymbol`, every loop iteration and every nested call
taking one unit of fuel; the result is the status returned, the byte stored through
`symbolAddress` (if one was stored) and the source afterwards.  `none` means the fuel
ran out. -/
def readNextSymbolAux : Nat → FileWrapper → Option (SymbolReadStatus × Option Nat × FileWrapper)
  | 0, _ => none
  | fuel + 1, fw =>
    if fw.m_currentStatus ≠ .Success then some (fw.m_currentStatus, none, fw)
    else if fw.m_curMemoryPos < fw.m_curMemoryEndPos then
      let curSymbol := fw.content.getD fw.m_curMemoryPos 0
      let fw1 := { fw with m_curMemoryPos := fw.m_curMemoryPos + 1 }
      if curSymbol ≠ CR then some (.Success, some curSymbol, fw1)
      else
        match readNextSymbolAux fuel fw1 with
        | none => none
        | some (s, testChar, fw2) =>
          if s ≠ .Success ∨ testChar.getD 0 ≠ LF then
            some (.Failure, none, { fw2 with m_currentStatus := .Failure })
          else some (.EndOfLine, none, fw2)
    else
      match switchToNextChunk fw with
      | (.Failure, fw1) => some (.Failure, none, { fw1 with m_currentStatus := .Failure })
      | (.EndOfFile, fw1) => some (.EndOfFile, none, { fw1 with m_currentStatus := .EndOfFile })
      | (.Success, fw1) => readNextSymbolAux fuel fw1

/-- The method `FileWrapper::readNextSymbol`. -/
def readNextSymbol (fw : FileWrapper) : Option (SymbolReadStatus × Option Nat × FileWrapper) :=
  readNextSymbolAux (fw.budget + 1) fw

/-- The method `FileWrapper::skipCurrentLine`, with fuel as in `readNextSymbolAux`. -/
def skipCurrentLineAux : Nat → FileWrapper → Option (SymbolReadStatus × FileWrapper)
  | 0, _ => none
  | fuel + 1, fw =>
    if fw.m_currentStatus ≠ .Success then some (fw.m_currentStatus, fw)
    else if fw.m_curMemoryPos < fw.m_curMemoryEndPos then
      let curSymbol := fw.content.getD fw.m_curMemoryPos 0
      let fw1 := { fw with m_curMemoryPos := fw.m_curMemoryPos + 1 }
      if curSymbol ≠ CR then skipCurrentLineAux fuel fw1
      else
        match readNextSymbolAux fuel fw1 with
        | none => none
        | some (s, testChar, fw2) =>
          if s ≠ .Success ∨ testChar.getD 0 ≠ LF then
            some (.Failure, { fw2 with m_currentStatus := .Failure })
          else some (.Success, fw2)
    else
      match switchToNextChunk fw with
      | (.Failure, fw1) => some (.Failure, { fw1 with m_currentStatus := .Failure })
      | (.EndOfFile, fw1) => some (.EndOfFile, { fw1 with m_currentStatus := .EndOfFile })
      | (.Success, fw1) => skipCurrentLineAux fuel fw1

/-- The method `FileWrapper::skipCurrentLine`. -/
def skipCurrentLine (fw : FileWrapper) : Option (SymbolReadStatus × FileWrapper) :=
  skipCurrentLineAux (fw.budget + 1) fw

/-- The scanner, `class CLogReader`; `none` is a null member pointer. -/
structure CLogReader where
  m_stateMachine : Option StateMachine
  m_fileWrapper : Option FileWrapper
  deriving DecidableEq, Repr

/-- The method `CLogReader::Open` on a file with the given bytes. -/
def CLogReader.Open (r : CLogReader) (content : List Nat) (chunkSize : Nat) :
    Bool × CLogReader :=
  let fw := openFile content chunkSize
  (fw.isSome, { r with m_fileWrapper := fw })

/-- The method `CLogReader::SetFilter`. -/
def CLogReader.SetFilter (r : CLogReader) (filter : List Nat) : Bool × CLogReader :=
  let sm := build filter
  (sm.isSome, { r with m_stateMachine := sm })

/-- The write `*curBufferPos = c` into the buffer of the caller. -/
def storeByte (buf : List Nat) (pos c : Nat) : Except Fault (List Nat) :=
  if pos < buf.length then .ok (buf.set pos c) else .error (.bufferOverrun pos buf.length)

/-- How the inner loop of `GetNextLine` was left. -/
structure LineScan where
  /-- Whether the loop executed `return false` on a read failure. -/
  failed : Bool
  readStatus : SymbolReadStatus
  buf : List Nat
  machine : StateMachine
  file : FileWrapper
  deriving DecidableEq, Repr

/-- The loop `for (; curBufferPos < bufEnd; ++curBufferPos)` of `GetNextLine`, with
`k` buffer positions left from `pos` on.  The outer `none` means a read ran out of
fuel. -/
def scanLine : Nat → Nat → SymbolReadStatus → SymbolProcessStatus → List Nat →
    StateMachine → FileWrapper → Option (Except Fault LineScan)
  | 0, _, readStatus, _, buf, sm, fw => some (.ok ⟨false, readStatus, buf, sm, fw⟩)
  | k + 1, pos, _, processStatus, buf, sm, fw =>
    match readNextSymbol fw with
    | none => none
    | some (readStatus, symbol, fw1) =>
      match (match symbol with
             | some c => storeByte buf pos c
             | none => .ok buf) with
      | .error e => some (.error e)
      | .ok buf1 =>
        if readStatus = .Failure then some (.ok ⟨true, readStatus, buf1, sm, fw1⟩)
        else if readStatus = .EndOfLine ∨ readStatus = .EndOfFile then
          match storeByte buf1 pos 0 with
          | .error e => some (.error e)
          | .ok buf2 => some (.ok ⟨false, readStatus, buf2, sm, fw1⟩)
        else
          match (if processStatus = .KeepGoing then processSymbol sm (buf1.getD pos 0)
                 else .ok (processStatus, sm)) with
          | .error e => some (.error e)
          | .ok (processStatus1, sm1) =>
            if processStatus1 = .MatchFailed then some (.ok ⟨false, readStatus, buf1, sm1, fw1⟩)
            else scanLine k (pos + 1) readStatus processStatus1 buf1 sm1 fw1

/-- The loop `while (readStatus == SymbolReadStatus::Success)` of `GetNextLine`, one
unit of fuel per candidate line; the result is the value returned, the buffer of the
caller, the matcher and the source. -/
def getNextLineLoop (bufsize : Nat) : Nat → List Nat → StateMachine → FileWrapper →
    Option (Except Fault (Bool × List Nat × StateMachine × FileWrapper))
  | 0, _, _, _ => none
  | fuel + 1, buf, sm, fw =>
    match scanLine bufsize 0 .Success .KeepGoing buf (reset sm) fw with
    | none => none
    | some (.error e) => some (.error e)
    | some (.ok r) =>
      if r.failed then some (.ok (false, r.buf, r.machine, r.file))
      else
        match isMatchSuccessful r.machine with
        | .error e => some (.error e)
        | .ok true => some (.ok (true, r.buf, r.machine, r.file))
        | .ok false =>
          if r.readStatus = .EndOfFile then some (.ok (false, r.buf, r.machine, r.file))
          else if r.readStatus ≠ .EndOfLine then
            match skipCurrentLine r.file with
            | none => none
            | some (readStatus, fw1) =>
              if readStatus = .Success then getNextLineLoop bufsize fuel r.buf r.machine fw1
              else some (.ok (false, r.buf, r.machine, fw1))
          else getNextLineLoop bufsize fuel r.buf r.machine r.file

/-- The method `CLogReader::GetNextLine` on the buffer `buf` of the caller (never
null): the value returned, the buffer and the reader afterwards.  The outer `none`
means that the fuel ran out. -/
def CLogReader.GetNextLine (r : CLogReader) (buf : List Nat) (bufsize : Int) :
    Option (Except Fault (Bool × List Nat × CLogReader)) :=
  match r.m_stateMachine, r.m_fileWrapper with
  | some sm, some fw =>
    if bufsize ≤ 0 then some (.ok (false, buf, r))
    else
      match getNextLineLoop bufsize.toNat (fw.budget + 1) buf sm fw with
      | none => none
      | some (.error e) => some (.error e)
      | some (.ok (b, buf1, sm1, fw1)) =>
        some (.ok (b, buf1, { m_stateMachine := some sm1, m_fileWrapper := some fw1 }))
  | _, _ => some (.ok (false, buf, r))


/-- The reader as `wmain` sets it up: `Open` on the file, then `SetFilter`. -/
def openReader (content : List Nat) (chunkSize : Nat) (filter : List Nat) : CLogReader :=
  (((⟨none, none⟩ : CLogReader).Open content chunkSize).2.SetFilter filter).2

/-- The values returned and the buffers left by `n` successive calls of `GetNextLine`
on the same buffer, as in the loop of `wmain`; the list ends early at a fault. -/
def successiveCalls (bufsize : Int) : Nat → CLogReader → List Nat → List (Bool × List Nat)
  | 0, _, _ => []
  | n + 1, r, buf =>
    match r.GetNextLine buf bufsize with
    | some (.ok (b, buf1, r1)) => (b, buf1) :: successiveCalls bufsize n r1 buf1
    | _ => []

/-!
## The matcher on unbounded lists

The definitions below are not part of the program.  They restate the loop of
`processSymbol` on plain lists of node positions, without a capacity, and are what the
program is compared with: `Tracks` ties a `StateMachine` to such a list, and `idealFits`
says whether the lists of a run stay within the allocated length of the buffers.
-/

/-- The function `advanceState` on an unbounded list of active nodes. -/
def idealAdvance (chain : List SingleState) (symbol q : Nat) (s : SingleState)
    (next : List Nat) (fragile : Bool) : List Nat × Bool :=
  if s.symbol = 0 ∨ s.symbol = symbol then
    match nextOf chain q with
    | some q' => (next ++ [q'], fragile)
    | none => (next, true)
  else (next, fragile)

/-- The function `processState` on an unbounded list of active nodes; `none` is the
skip-the-rest return. -/
def idealState (chain : List SingleState) (symbol q : Nat) (s : SingleState)
    (next : List Nat) (fragile : Bool) : Option (List Nat × Bool) :=
  if s.isPersistent then
    if s.symbol = 0 then none
    else if next.getLast? ≠ some q then some (idealAdvance chain symbol q s (next ++ [q]) fragile)
    else some (idealAdvance chain symbol q s next fragile)
  else some (idealAdvance chain symbol q s next fragile)

/-- The function `processLoop` on unbounded lists: the nodes still to visit, the next
list and the flag; the result is the next list, the flag and whether the loop was left
through the skip-the-rest return. -/
def idealLoop (chain : List SingleState) (symbol : Nat) :
    List Nat → List Nat → Bool → List Nat × Bool × Bool
  | [], next, fragile => (next, fragile, false)
  | q :: rest, next, fragile =>
    match chain[q]? with
    | none => (next, fragile, false)
    | some s =>
      match idealState chain symbol q s next fragile with
      | none => (next, fragile, true)
      | some (next', fragile') => idealLoop chain symbol rest next' fragile'

/-- The live entries of the pack `p`, allocated with `cap` entries, are the positions
`L`; what lies behind them is left over from earlier steps. -/
def Rep (cap : Nat) (p : StatePack) (L : List Nat) : Prop :=
  p.buffer.length = cap ∧ p.count = L.length ∧ ∃ junk, p.buffer = L.map some ++ junk

/-- The outcome `r` of a transition on a pack of `cap` entries agrees with the outcome
`ideal` on unbounded lists: the same result when the list fits, an overrun when not. -/
def Agrees (cap : Nat) (r : Except Fault (StatePack × Bool)) (ideal : List Nat × Bool) : Prop :=
  (ideal.1.length ≤ cap → ∃ p, r = .ok (p, ideal.2) ∧ Rep cap p ideal.1) ∧
  (cap < ideal.1.length → r = .error (.bufferOverrun cap cap))

/-- The state of a matching session with the buffers read as lists. -/
inductive Ideal where
  /-- Status `KeepGoing` with the active nodes `L` and the tentative-success flag. -/
  | active (L : List Nat) (fragile : Bool)
  /-- Status `SuccessSkipTheRest`. -/
  | skipped
  /-- Status `MatchFailed`. -/
  | failed
  deriving DecidableEq, Repr

/-- Whether the node at position `q` is persistent without a symbol. -/
def isSkipNode (chain : List SingleState) (q : Nat) : Bool :=
  match chain[q]? with
  | some s => s.isPersistent && s.symbol = 0
  | none => false

/-- The function `processSymbol` on `Ideal` states. -/
def idealStep (chain : List SingleState) : Ideal → Nat → Ideal
  | .active [] _, _ => .failed
  | .active (q :: L) _, c =>
    let r := idealLoop chain c (q :: L) [] false
    if r.2.2 then .skipped else .active r.1 r.2.1
  | .skipped, _ => .skipped
  | .failed, _ => .failed

/-- The function `isMatchSuccessful` on `Ideal` states. -/
def idealAccepts (chain : List SingleState) : Ideal → Bool
  | .active L fragile =>
    fragile || (match L.getLast? with
      | some q => isSkipNode chain q
      | none => false)
  | .skipped => true
  | .failed => false

/-- The function `feed` on `Ideal` states. -/
def idealFeed (chain : List SingleState) : Ideal → List Nat → Ideal
  | st, [] => st
  | st, c :: w => idealFeed chain (idealStep chain st c) w

/-- Whether every list written while the bytes `w` are fed from the state `st` has at
most `cap` entries. -/
def idealFits (chain : List SingleState) (cap : Nat) : Ideal → List Nat → Bool
  | _, [] => true
  | .active [] _, _ :: _ => true
  | .active (q :: L) fr, c :: w =>
    decide ((idealLoop chain c (q :: L) [] false).1.length ≤ cap) &&
      idealFits chain cap (idealStep chain (.active (q :: L) fr) c) w
  | .skipped, _ :: _ => true
  | .failed, _ :: _ => true

/-- The machine `m` is in the state described by `st`. -/
def Tracks (chain : List SingleState) (cap : Nat) (m : StateMachine) : Ideal → Prop
  | .active L fr =>
    m.chain = chain ∧ m.m_currentStepStates ≤ 1 ∧ m.m_currentStatus = .KeepGoing ∧
      m.m_fragileSuccess = fr ∧ Rep cap (m.pack m.m_currentStepStates) L ∧
      Rep cap (m.pack (1 - m.m_currentStepStates)) [] ∧ ∀ q ∈ L, q < chain.length
  | .skipped => m.chain = chain ∧ m.m_currentStatus = .SuccessSkipTheRest
  | .failed =>
    m.chain = chain ∧ m.m_currentStatus = .MatchFailed ∧ (m.pack m.m_currentStepStates).count = 0

/-- Both packs of `m` were allocated with `cap` entries and the chain is not empty. -/
def Sized (cap : Nat) (m : StateMachine) : Prop :=
  m.m_stateDoubleBuffer.1.buffer.length = cap ∧ m.m_stateDoubleBuffer.2.buffer.length = cap ∧
    0 < cap ∧ m.chain ≠ []

/-- What a chain of nodes accepts: a persistent node with a symbol stands for any run of
bytes followed by that symbol, a persistent node without a symbol for any run of bytes,
a node without a symbol for any one byte and every other node for its own symbol. -/
def chainMatch : List SingleState → List Nat → Bool
  | [], [] => true
  | [], _ :: _ => false
  | s :: _, [] => s.isPersistent && decide (s.symbol = 0)
  | s :: rest, c :: w =>
    if s.isPersistent then
      if s.symbol = 0 then true
      else (decide (s.symbol = c) && chainMatch rest w) || chainMatch (s :: rest) w
    else decide (s.symbol = 0 ∨ s.symbol = c) && chainMatch rest w

/-- Only the last node of the chain may be a persistent node without a symbol. -/
def SkipNodeLast (chain : List SingleState) : Prop :=
  ∀ q, isSkipNode chain q = true → q + 1 = chain.length

/-- The chain `StateMachine::build` appends for the rest of a filter, given the pending
flag; `scanFilter` followed by `closeChain` without the accumulators. -/
def compile : List Nat → Bool → List SingleState
  | [], pending => closeChain [] pending
  | c :: rest, pending =>
    if c = 0 then closeChain [] pending
    else if c = QUESTION then ⟨0, false⟩ :: compile rest pending
    else if c = ASTERISK then compile rest true
    else ⟨c, pending⟩ :: compile rest false

/-- The statuses returned by `processSymbol` on the bytes of a line, fed in order, and
the session afterwards. -/
def feedStatuses (m : StateMachine) :
    List Nat → Except Fault (List SymbolProcessStatus × StateMachine)
  | [] => .ok ([], m)
  | c :: rest =>
    match processSymbol m c with
    | .ok (s, m1) =>
      match feedStatuses m1 rest with
      | .ok (ss, m2) => .ok (s :: ss, m2)
      | .error e => .error e
    | .error e => .error e

/-- The answer of `isMatchSuccessful` after the bytes of a line have been fed, without a
`reset` before them. -/
def verdictAfter (m : StateMachine) (line : List Nat) : Except Fault Bool :=
  match feed m line with
  | .ok m1 => isMatchSuccessful m1
  | .error e => .error e

/-- The session after a history of candidate lines, each one preceded by `reset`, as
`GetNextLine` drives the matcher. -/
def replay (m : StateMachine) : List (List Nat) → Except Fault StateMachine
  | [] => .ok m
  | line :: rest =>
    match feed (reset m) line with
    | .ok m1 => replay m1 rest
    | .error e => .error e

/-- The status of a session in the state `st`. -/
def Ideal.status : Ideal → SymbolProcessStatus
  | .active _ _ => .KeepGoing
  | .skipped => .SuccessSkipTheRest
  | .failed => .MatchFailed

/-- The function `feedStatuses` on `Ideal` states. -/
def idealStatuses (chain : List SingleState) : Ideal → List Nat → List SymbolProcessStatus
  | _, [] => []
  | st, c :: w => (idealStep chain st c).status :: idealStatuses chain (idealStep chain st c) w

/-- The active nodes of the state are listed in strictly increasing position and lie
within the chain. -/
def Ideal.Ordered (chain : List SingleState) : Ideal → Prop
  | .active L _ => L.Pairwise (· < ·) ∧ ∀ q ∈ L, q < chain.length
  | .skipped => True
  | .failed => True

/-- The session compiled from the filter `a*b`, as `build` leaves it. -/
def sessionAStarB : StateMachine :=
  ⟨[⟨97, false⟩, ⟨98, true⟩], (⟨[some 0, none], 1⟩, ⟨[none, none], 0⟩), 0, .KeepGoing, false⟩

/-- The session compiled from the filter `*a*`, as `build` leaves it. -/
def sessionStarAStar : StateMachine :=
  ⟨[⟨97, true⟩, ⟨0, true⟩], (⟨[some 0, none], 1⟩, ⟨[none, none], 0⟩), 0, .KeepGoing, false⟩

/-- The session of the filter `*a*` after `reset` and the byte `a`: both nodes are
active. -/
def sessionStarAStarAfterA : StateMachine :=
  ⟨[⟨97, true⟩, ⟨0, true⟩], (⟨[some 0, none], 0⟩, ⟨[some 0, some 1], 2⟩), 1, .KeepGoing, false⟩

/-!
## The byte source seen from its caller

The definitions below are not part of the program, except `readLoop`, which is the loop
the comment in `skipCurrentLine` speaks of.  They describe a source by the bytes it has
not read yet, and say what a read and a skip do to those bytes.
-/

/-- The bytes of the file from the cursor on. -/
def FileWrapper.unread (fw : FileWrapper) : List Nat :=
  fw.content.drop fw.m_curMemoryPos

/-- The states a source goes through after `openFile`: the chunk size is positive, the
size is that of the file, the status stored is never `EndOfLine`, and while the status is
`Success` a view is mapped, the cursor lies within it, the view ends where the chunk or
the file ends, and the next chunk starts one chunk size after the mapped one. -/
def FileWrapper.WellFormed (fw : FileWrapper) : Prop :=
  0 < fw.chunkSize ∧ fw.m_fileSize = fw.content.length ∧
    fw.m_currentStatus ≠ .EndOfLine ∧
    (fw.m_currentStatus = .Success →
      ∃ b, fw.m_curChunkBaseAddress = some b ∧ fw.m_curMemoryPos ≤ fw.m_curMemoryEndPos ∧
        fw.m_curMemoryEndPos = min (b + fw.chunkSize) fw.m_fileSize ∧
        fw.m_curChunkOffset = b + fw.chunkSize)

/-- What a read makes of the unread bytes: the status returned, the byte delivered and
the bytes left unread. -/
def readSpec : List Nat → SymbolReadStatus × Option Nat × List Nat
  | [] => (.EndOfFile, none, [])
  | c :: rest =>
    if c ≠ CR then (.Success, some c, rest)
    else
      match rest with
      | d :: rest' => if d = LF then (.EndOfLine, none, rest') else (.Failure, none, [])
      | [] => (.Failure, none, [])

/-- What a skip makes of the unread bytes: the status returned and the bytes left
unread. -/
def skipSpec : List Nat → SymbolReadStatus × List Nat
  | [] => (.EndOfFile, [])
  | c :: rest =>
    if c ≠ CR then skipSpec rest
    else
      match rest with
      | d :: rest' => if d = LF then (.Success, rest') else (.Failure, [])
      | [] => (.Failure, [])

/-- The status a source stores after a call that returned `s`: `EndOfLine` is not
stored. -/
def storedAfter (s : SymbolReadStatus) : SymbolReadStatus :=
  if s = .EndOfLine then .Success else s

/-- The loop `while (readNextSymbol(&c) == Success) {}`, one unit of fuel per read: the
status the loop stops on and the source afterwards. -/
def readLoopAux : Nat → FileWrapper → Option (SymbolReadStatus × FileWrapper)
  | 0, _ => none
  | fuel + 1, fw =>
    match readNextSymbol fw with
    | none => none
    | some (s, _, fw1) => if s = .Success then readLoopAux fuel fw1 else some (s, fw1)

/-- The loop `while (readNextSymbol(&c) == Success) {}`. -/
def readLoop (fw : FileWrapper) : Option (SymbolReadStatus × FileWrapper) :=
  readLoopAux (fw.budget + 1) fw

/-- A call on the source. -/
inductive SourceCall where
  | readNextSymbol
  | skipCurrentLine
  deriving DecidableEq, Repr

/-- The status returned by a call, the byte delivered and the source afterwards. -/
def SourceCall.run : SourceCall → FileWrapper →
    Option (SymbolReadStatus × Option Nat × FileWrapper)
  | .readNextSymbol, fw => LogReader.readNextSymbol fw
  | .skipCurrentLine, fw =>
    match LogReader.skipCurrentLine fw with
    | some (s, fw1) => some (s, none, fw1)
    | none => none

/-- The statuses returned and the bytes delivered by a sequence of calls, and the source
afterwards. -/
def runCalls : List SourceCall → FileWrapper →
    Option (List (SymbolReadStatus × Option Nat) × FileWrapper)
  | [], fw => some ([], fw)
  | call :: rest, fw =>
    match call.run fw with
    | none => none
    | some (s, b, fw1) =>
      match runCalls rest fw1 with
      | none => none
      | some (out, fw2) => some ((s, b) :: out, fw2)

theorem Rep.length_le {cap : Nat} {p : StatePack} {L : List Nat} (h : Rep cap p L) :
    L.length ≤ cap := by
  obtain ⟨h1, _, junk, h3⟩ := h
  have := congrArg List.length h3
  simp at this
  omega

theorem push_ok {cap : Nat} {p : StatePack} {L : List Nat} (h : Rep cap p L) (q : Nat)
    (hlt : L.length < cap) : ∃ p', p.push q = .ok p' ∧ Rep cap p' (L ++ [q]) := by
  obtain ⟨h1, h2, junk, h3⟩ := h
  have hl := congrArg List.length h3
  simp at hl
  cases junk with
  | nil => simp at hl; omega
  | cons j js =>
    refine ⟨⟨p.buffer.set p.count (some q), p.count + 1⟩, ?_, ?_⟩
    · simp [StatePack.push, h1, h2, hlt]
    · refine ⟨by simp [h1], by simp [h2], js, ?_⟩
      simp only [h3, h2]
      rw [List.set_append_right _ _ (by simp)]
      simp

theorem push_fault {cap : Nat} {p : StatePack} {L : List Nat} (h : Rep cap p L) (q : Nat)
    (hge : cap ≤ L.length) : p.push q = .error (.bufferOverrun cap cap) := by
  have hle := h.length_le
  obtain ⟨h1, h2, -⟩ := h
  have : L.length = cap := by omega
  simp [StatePack.push, h1, h2, this]

theorem lastIsNot_eq {cap : Nat} {p : StatePack} {L : List Nat} (h : Rep cap p L) (q : Nat) :
    p.lastIsNot q = decide (L.getLast? ≠ some q) := by
  obtain ⟨h1, h2, junk, h3⟩ := h
  unfold StatePack.lastIsNot
  rcases List.eq_nil_or_concat L with rfl | ⟨L', x, rfl⟩
  · simp [h2]
  · have hc : p.count = L'.length + 1 := by simp [h2]
    have hg : p.buffer[L'.length]? = some (some x) := by
      rw [h3, List.concat_eq_append, List.map_append, List.append_assoc,
        List.getElem?_append_right (by simp)]
      simp
    simp [hc, hg]

theorem read_eq {cap : Nat} {chain : List SingleState} {p : StatePack} {L : List Nat}
    (h : Rep cap p L) (i : Nat) (hi : i < L.length) (s : SingleState)
    (hs : chain[L[i]]? = some s) : p.read chain i = .ok (L[i], s) := by
  obtain ⟨h1, h2, junk, h3⟩ := h
  have : p.buffer[i]? = some (some L[i]) := by
    rw [h3, List.getElem?_append_left (by simpa using hi)]
    simp [hi]
  simp [StatePack.read, this, hs]

theorem idealAdvance_length_ge (chain : List SingleState) (c q : Nat) (s : SingleState)
    (L : List Nat) (fr : Bool) : L.length ≤ (idealAdvance chain c q s L fr).1.length := by
  unfold idealAdvance
  split
  · split <;> simp
  · simp

theorem idealState_length_ge (chain : List SingleState) (c q : Nat) (s : SingleState)
    (L : List Nat) (fr : Bool) (r : List Nat × Bool)
    (h : idealState chain c q s L fr = some r) : L.length ≤ r.1.length := by
  unfold idealState at h
  split at h
  · split at h
    · simp at h
    · split at h
      · have := idealAdvance_length_ge chain c q s (L ++ [q]) fr
        simp at h this
        rw [← h]; omega
      · have := idealAdvance_length_ge chain c q s L fr
        simp at h
        rw [← h]; exact this
  · have := idealAdvance_length_ge chain c q s L fr
    simp at h
    rw [← h]; exact this

theorem idealLoop_length_ge (chain : List SingleState) (c : Nat) (cur : List Nat) :
    ∀ (L : List Nat) (fr : Bool), L.length ≤ (idealLoop chain c cur L fr).1.length := by
  induction cur with
  | nil => intro L fr; simp [idealLoop]
  | cons q rest ih =>
    intro L fr
    unfold idealLoop
    split
    · simp
    · split
      · simp
      · rename_i s _ _ L' fr' hst
        have h1 := idealState_length_ge chain c q s L fr (L', fr') hst
        have h2 := ih L' fr'
        simp at h1
        omega

theorem advanceState_agrees {cap : Nat} {next : StatePack} {L : List Nat} (h : Rep cap next L)
    (chain : List SingleState) (c q : Nat) (s : SingleState) (fr : Bool) :
    Agrees cap (advanceState chain c q s next fr) (idealAdvance chain c q s L fr) := by
  have hle := h.length_le
  unfold advanceState idealAdvance
  by_cases hm : s.symbol = 0 ∨ s.symbol = c
  · simp only [hm, if_true]
    cases hn : nextOf chain q with
    | none =>
      refine ⟨fun _ => ⟨next, rfl, h⟩, fun hlt => ?_⟩
      simp at hlt; omega
    | some q' =>
      constructor
      · intro hfit
        simp at hfit
        obtain ⟨p', hp, hr⟩ := push_ok h q' (by omega)
        exact ⟨p', by simp [hp], hr⟩
      · intro hlt
        simp at hlt
        simp [push_fault h q' (by omega)]
  · simp only [hm, if_false]
    refine ⟨fun _ => ⟨next, rfl, h⟩, fun hlt => ?_⟩
    simp at hlt; omega

theorem processState_skip (next : StatePack) (L : List Nat)
    (chain : List SingleState) (c q : Nat) (s : SingleState) (fr : Bool)
    (hi : idealState chain c q s L fr = none) :
    processState chain c q s next fr = .ok none := by
  unfold idealState at hi
  unfold processState
  split at hi
  · rename_i hp
    split at hi
    · rename_i hz
      simp [hp, hz]
    · split at hi <;> simp at hi
  · simp at hi

theorem processState_agrees {cap : Nat} {next : StatePack} {L : List Nat} (h : Rep cap next L)
    (chain : List SingleState) (c q : Nat) (s : SingleState) (fr : Bool) (r : List Nat × Bool)
    (hi : idealState chain c q s L fr = some r) :
    (r.1.length ≤ cap → ∃ p, processState chain c q s next fr = .ok (some (p, r.2)) ∧ Rep cap p r.1) ∧
    (cap < r.1.length → processState chain c q s next fr = .error (.bufferOverrun cap cap)) := by
  have hle := h.length_le
  unfold idealState at hi
  unfold processState
  have key : ∀ (next' : StatePack) (L' : List Nat), Rep cap next' L' →
      idealAdvance chain c q s L' fr = r →
      (r.1.length ≤ cap → ∃ p, (match advanceState chain c q s next' fr with
          | .ok r => (.ok (some r) : Except Fault (Option (StatePack × Bool)))
          | .error e => .error e) = .ok (some (p, r.2)) ∧ Rep cap p r.1) ∧
      (cap < r.1.length → (match advanceState chain c q s next' fr with
          | .ok r => (.ok (some r) : Except Fault (Option (StatePack × Bool)))
          | .error e => .error e) = .error (.bufferOverrun cap cap)) := by
    intro next' L' hrep heq
    have ha := advanceState_agrees hrep chain c q s fr
    rw [heq] at ha
    constructor
    · intro hfit
      obtain ⟨p, hp, hr⟩ := ha.1 hfit
      exact ⟨p, by rw [hp], hr⟩
    · intro hlt
      rw [ha.2 hlt]
  by_cases hp : s.isPersistent = true
  · simp only [hp, if_true] at hi ⊢
    by_cases hz : s.symbol = 0
    · simp [hz] at hi
    · simp only [hz, if_false] at hi ⊢
      rw [lastIsNot_eq h q]
      by_cases hl : L.getLast? ≠ some q
      · rw [if_pos hl] at hi
        rw [if_pos (decide_eq_true hl)]
        simp only [Option.some.injEq] at hi
        by_cases hfit : L.length < cap
        · obtain ⟨p', hp', hr'⟩ := push_ok h q hfit
          simp only [hp']
          exact key p' (L ++ [q]) hr' hi
        · have hge := idealAdvance_length_ge chain c q s (L ++ [q]) fr
          rw [hi] at hge
          simp at hge
          constructor
          · intro; omega
          · intro _
            simp [push_fault h q (by omega)]
      · rw [if_neg hl] at hi
        rw [if_neg (by simpa using hl)]
        simp only [Option.some.injEq] at hi
        exact key next L h hi
  · rw [if_neg hp] at hi
    rw [if_neg hp]
    simp only [Option.some.injEq] at hi
    exact key next L h hi

theorem processLoop_agrees {capc cap : Nat} {cur : StatePack} {Lc : List Nat}
    (hcur : Rep capc cur Lc) (chain : List SingleState)
    (hvalid : ∀ q ∈ Lc, q < chain.length) (c : Nat) :
    ∀ (k i : Nat) (next : StatePack) (Ln : List Nat) (fr : Bool),
      k + i = Lc.length → Rep cap next Ln →
      ((idealLoop chain c (Lc.drop i) Ln fr).1.length ≤ cap →
        ∃ p, processLoop chain c cur k i next fr =
            .ok (p, (idealLoop chain c (Lc.drop i) Ln fr).2.1,
              (idealLoop chain c (Lc.drop i) Ln fr).2.2) ∧
          Rep cap p (idealLoop chain c (Lc.drop i) Ln fr).1) ∧
      (cap < (idealLoop chain c (Lc.drop i) Ln fr).1.length →
        processLoop chain c cur k i next fr = .error (.bufferOverrun cap cap)) := by
  intro k
  induction k with
  | zero =>
    intro i next Ln fr hk hrep
    have hle := hrep.length_le
    have hd : Lc.drop i = [] := List.drop_eq_nil_of_le (by omega)
    rw [hd]
    simp only [idealLoop, processLoop]
    exact ⟨fun _ => ⟨next, rfl, hrep⟩, fun hlt => by omega⟩
  | succ k ih =>
    intro i next Ln fr hk hrep
    have hle := hrep.length_le
    have hi : i < Lc.length := by omega
    have hd : Lc.drop i = Lc[i] :: Lc.drop (i + 1) := List.drop_eq_getElem_cons hi
    have hq : Lc[i] < chain.length := hvalid _ (List.getElem_mem hi)
    have hs : chain[Lc[i]]? = some chain[Lc[i]] := List.getElem?_eq_getElem hq
    rw [hd]
    unfold idealLoop processLoop
    rw [read_eq hcur i hi _ hs]
    simp only [hs]
    cases hst : idealState chain c Lc[i] chain[Lc[i]] Ln fr with
    | none =>
      rw [processState_skip next Ln chain c _ _ fr hst]
      exact ⟨fun _ => ⟨next, rfl, hrep⟩, fun hlt => by simp at hlt; omega⟩
    | some r =>
      obtain ⟨L', fr'⟩ := r
      have hag := processState_agrees hrep chain c _ _ fr _ hst
      simp only at hag ⊢
      by_cases hfit : L'.length ≤ cap
      · obtain ⟨p, hp, hr⟩ := hag.1 hfit
        rw [hp]
        exact ih (i + 1) p L' fr' (by omega) hr
      · have hge := idealLoop_length_ge chain c (Lc.drop (i + 1)) L' fr'
        rw [hag.2 (by omega)]
        exact ⟨fun h => by omega, fun _ => rfl⟩

theorem idealAdvance_valid (chain : List SingleState) (c q : Nat) (s : SingleState)
    (L : List Nat) (fr : Bool) (hL : ∀ x ∈ L, x < chain.length) :
    ∀ x ∈ (idealAdvance chain c q s L fr).1, x < chain.length := by
  unfold idealAdvance
  split
  · cases hn : nextOf chain q with
    | none => simpa using hL
    | some q' =>
      unfold nextOf at hn
      split at hn
      · simp at hn
        subst hn
        intro x hx
        simp at hx
        rcases hx with hx | rfl
        · exact hL x hx
        · assumption
      · simp at hn
  · simpa using hL

theorem idealState_valid (chain : List SingleState) (c q : Nat) (s : SingleState)
    (L : List Nat) (fr : Bool) (hq : q < chain.length) (hL : ∀ x ∈ L, x < chain.length)
    (r : List Nat × Bool) (h : idealState chain c q s L fr = some r) :
    ∀ x ∈ r.1, x < chain.length := by
  have hLq : ∀ x ∈ L ++ [q], x < chain.length := by
    intro x hx
    simp at hx
    rcases hx with hx | rfl
    · exact hL x hx
    · exact hq
  unfold idealState at h
  split at h
  · split at h
    · simp at h
    · split at h
      · simp only [Option.some.injEq] at h
        rw [← h]; exact idealAdvance_valid chain c q s _ fr hLq
      · simp only [Option.some.injEq] at h
        rw [← h]; exact idealAdvance_valid chain c q s _ fr hL
  · simp only [Option.some.injEq] at h
    rw [← h]; exact idealAdvance_valid chain c q s _ fr hL

theorem idealLoop_valid (chain : List SingleState) (c : Nat) (cur : List Nat) :
    ∀ (L : List Nat) (fr : Bool), (∀ x ∈ cur, x < chain.length) →
      (∀ x ∈ L, x < chain.length) →
      ∀ x ∈ (idealLoop chain c cur L fr).1, x < chain.length := by
  induction cur with
  | nil => intro L fr _ hL; simpa [idealLoop] using hL
  | cons q rest ih =>
    intro L fr hcur hL
    unfold idealLoop
    split
    · exact hL
    · split
      · exact hL
      · rename_i s _ _ L' fr' hst
        exact ih L' fr' (fun x hx => hcur x (List.mem_cons_of_mem _ hx))
          (idealState_valid chain c q s L fr (hcur q (List.mem_cons_self _ _)) hL _ hst)

theorem processSymbol_tracks {chain : List SingleState} {cap : Nat} {m : StateMachine}
    {st : Ideal} (h : Tracks chain cap m st) (c : Nat) :
    (idealFits chain cap st [c] = true →
      ∃ m', processSymbol m c = .ok (m'.m_currentStatus, m') ∧
        Tracks chain cap m' (idealStep chain st c)) ∧
    (idealFits chain cap st [c] = false →
      processSymbol m c = .error (.bufferOverrun cap cap)) := by
  cases st with
  | skipped =>
    obtain ⟨h1, h2⟩ := h
    refine ⟨fun _ => ⟨m, ?_, ?_⟩, fun hf => by simp [idealFits] at hf⟩
    · simp [processSymbol, h2]
    · exact ⟨h1, h2⟩
  | failed =>
    obtain ⟨h1, h2, h3⟩ := h
    refine ⟨fun _ => ⟨m, ?_, ?_⟩, fun hf => by simp [idealFits] at hf⟩
    · simp [processSymbol, h2]
    · exact ⟨h1, h2, h3⟩
  | active L fr =>
    obtain ⟨h1, h2, h3, h4, h5, h6, h7⟩ := h
    subst h1
    cases L with
    | nil =>
      have hcount : (m.pack m.m_currentStepStates).count = 0 := by simpa using h5.2.1
      refine ⟨fun _ => ⟨{ m with m_currentStatus := .MatchFailed }, ?_, ?_⟩,
        fun hf => by simp [idealFits] at hf⟩
      · simp [processSymbol, h3, hcount]
      · exact ⟨rfl, rfl, hcount⟩
    | cons q L =>
      have hcount : (m.pack m.m_currentStepStates).count = L.length + 1 := h5.2.1
      have hne : ¬ (m.pack m.m_currentStepStates).count = 0 := by simp [hcount]
      have hag := processLoop_agrees h5 m.chain h7 c (q :: L).length 0
        (m.pack (1 - m.m_currentStepStates)) [] false (by simp) h6
      simp only [List.drop_zero, List.length_cons] at hag
      have hval := idealLoop_valid m.chain c (q :: L) [] false h7 (by simp)
      have hcur : m.m_currentStepStates = 0 ∨ m.m_currentStepStates = 1 := by omega
      have hunf : processSymbol m c =
          match processLoop m.chain c (m.pack m.m_currentStepStates) (L.length + 1) 0
            (m.pack (1 - m.m_currentStepStates)) false with
          | .error e => .error e
          | .ok (next, fragile, true) =>
            .ok (.SuccessSkipTheRest,
              { (m.setPack (1 - m.m_currentStepStates) next) with
                  m_fragileSuccess := fragile
                  m_currentStatus := .SuccessSkipTheRest })
          | .ok (next, fragile, false) =>
            .ok (.KeepGoing,
              { ((m.setPack (1 - m.m_currentStepStates) next).setPack m.m_currentStepStates
                  { m.pack m.m_currentStepStates with count := 0 }) with
                  m_fragileSuccess := fragile
                  m_currentStepStates := 1 - m.m_currentStepStates }) := by
        unfold processSymbol
        simp only [h3, ne_eq, not_true_eq_false, if_false, hne]
        rw [hcount]
      rw [hunf]
      constructor
      · intro hfit
        simp only [idealFits, Bool.and_true, decide_eq_true_eq] at hfit
        obtain ⟨p, hp, hr⟩ := hag.1 hfit
        simp only [idealStep]
        rw [hp]
        cases hskip : (idealLoop m.chain c (q :: L) [] false).2.2 with
        | true =>
          refine ⟨{ (m.setPack (1 - m.m_currentStepStates) p) with
            m_fragileSuccess := (idealLoop m.chain c (q :: L) [] false).2.1
            m_currentStatus := .SuccessSkipTheRest }, rfl, ?_⟩
          refine ⟨?_, rfl⟩
          rcases hcur with hc | hc <;> simp [StateMachine.setPack, hc]
        | false =>
          have hrep0 : Rep cap { m.pack m.m_currentStepStates with count := 0 } [] :=
            ⟨h5.1, rfl, (m.pack m.m_currentStepStates).buffer, by simp⟩
          refine ⟨{ ((m.setPack (1 - m.m_currentStepStates) p).setPack m.m_currentStepStates
              { m.pack m.m_currentStepStates with count := 0 }) with
            m_fragileSuccess := (idealLoop m.chain c (q :: L) [] false).2.1
            m_currentStepStates := 1 - m.m_currentStepStates }, ?_, ?_⟩
          · simp only [Prod.mk.injEq, and_true]
            rcases hcur with hc | hc <;> simp [StateMachine.setPack, hc, h3]
          · simp only [if_false, Bool.false_eq_true]
            refine ⟨?_, ?_, ?_, rfl, ?_, ?_, hval⟩
            · rcases hcur with hc | hc <;> simp [StateMachine.setPack, hc]
            · simp only; omega
            · rcases hcur with hc | hc <;> simp [StateMachine.setPack, hc, h3]
            · rcases hcur with hc | hc <;>
                simpa [StateMachine.setPack, StateMachine.pack, hc] using hr
            · rcases hcur with hc | hc <;>
                simpa [StateMachine.setPack, StateMachine.pack, hc] using hrep0
      · intro hfit
        simp only [idealFits, Bool.and_true, decide_eq_false_iff_not, not_le] at hfit
        rw [hag.2 hfit]

theorem idealFits_inert (chain : List SingleState) (cap : Nat) (w : List Nat) :
    idealFits chain cap .skipped w = true ∧ idealFits chain cap .failed w = true := by
  cases w <;> simp [idealFits]

theorem idealFits_cons (chain : List SingleState) (cap : Nat) (st : Ideal) (c : Nat)
    (w : List Nat) :
    idealFits chain cap st (c :: w) =
      (idealFits chain cap st [c] && idealFits chain cap (idealStep chain st c) w) := by
  cases st with
  | skipped => simp [idealFits, idealStep, (idealFits_inert chain cap w).1]
  | failed => simp [idealFits, idealStep, (idealFits_inert chain cap w).2]
  | active L fr =>
    cases L with
    | nil => simp [idealFits, idealStep, (idealFits_inert chain cap w).2]
    | cons q L => simp [idealFits]

theorem feed_tracks {chain : List SingleState} {cap : Nat} (w : List Nat) :
    ∀ {m : StateMachine} {st : Ideal}, Tracks chain cap m st →
      (idealFits chain cap st w = true →
        ∃ m', feed m w = .ok m' ∧ Tracks chain cap m' (idealFeed chain st w)) ∧
      (idealFits chain cap st w = false → feed m w = .error (.bufferOverrun cap cap)) := by
  induction w with
  | nil =>
    intro m st h
    exact ⟨fun _ => ⟨m, rfl, h⟩, fun hf => by simp [idealFits] at hf⟩
  | cons c w ih =>
    intro m st h
    have hstep := processSymbol_tracks h c
    rw [idealFits_cons]
    cases h1 : idealFits chain cap st [c] with
    | false =>
      refine ⟨fun hf => by simp at hf, fun _ => ?_⟩
      simp [feed, hstep.2 h1]
    | true =>
      obtain ⟨m1, hm1, ht1⟩ := hstep.1 h1
      have ih1 := ih ht1
      simp only [Bool.true_and, feed, hm1, idealFeed]
      exact ih1

theorem isMatchSuccessful_tracks {chain : List SingleState} {cap : Nat} {m : StateMachine}
    {st : Ideal} (h : Tracks chain cap m st) :
    isMatchSuccessful m = .ok (idealAccepts chain st) := by
  cases st with
  | skipped =>
    obtain ⟨_, h2⟩ := h
    simp [isMatchSuccessful, h2, idealAccepts]
  | failed =>
    obtain ⟨_, h2, h3⟩ := h
    simp [isMatchSuccessful, h2, h3, idealAccepts]
  | active L fr =>
    obtain ⟨h1, h2, h3, h4, h5, h6, h7⟩ := h
    subst h1
    cases fr with
    | true => simp [isMatchSuccessful, h3, h4, idealAccepts]
    | false =>
      rcases List.eq_nil_or_concat L with rfl | ⟨L', x, rfl⟩
      · have hcount : (m.pack m.m_currentStepStates).count = 0 := by simpa using h5.2.1
        simp [isMatchSuccessful, h3, h4, hcount, idealAccepts]
      · have hcount : (m.pack m.m_currentStepStates).count = L'.length + 1 := by
          simpa using h5.2.1
        have hx : x < m.chain.length := h7 x (by simp)
        have hb : L'.length < (L'.concat x).length := by simp
        have hxx : (L'.concat x)[L'.length] = x := by simp
        have hs : m.chain[(L'.concat x)[L'.length]]? = some m.chain[x] := by
          rw [hxx]
          exact List.getElem?_eq_getElem hx
        have hread := read_eq h5 L'.length hb _ hs
        rw [hxx] at hread
        simp [isMatchSuccessful, h3, h4, hcount, hread, idealAccepts, isSkipNode,
          List.getElem?_eq_getElem hx]

theorem reset_tracks {cap : Nat} {m : StateMachine} (h : Sized cap m) :
    Tracks m.chain cap (reset m) (.active [0] false) := by
  obtain ⟨h1, h2, h3, h4⟩ := h
  have hf : firstNode m.chain = some 0 := by
    cases hc : m.chain with
    | nil => exact absurd hc h4
    | cons a l => simp [firstNode]
  have hlen : 0 < m.chain.length := List.length_pos.mpr h4
  refine ⟨rfl, by simp [reset], rfl, rfl, ?_, ?_, ?_⟩
  · refine ⟨by simp [reset, StateMachine.pack, h1], by simp [reset, StateMachine.pack], ?_⟩
    cases hb : m.m_stateDoubleBuffer.1.buffer with
    | nil => simp [hb] at h1; omega
    | cons a l => exact ⟨l, by simp [reset, StateMachine.pack, hb, hf]⟩
  · exact ⟨by simp [reset, StateMachine.pack, h2], by simp [reset, StateMachine.pack],
      m.m_stateDoubleBuffer.2.buffer, by simp [reset, StateMachine.pack]⟩
  · intro q hq
    simp at hq
    subst hq
    simpa [reset] using hlen

/-- The exact behaviour of the matcher on one line, in terms of the unbounded lists. -/
theorem matchLine_eq {cap : Nat} {m : StateMachine} (h : Sized cap m) (line : List Nat) :
    matchLine m line =
      if idealFits m.chain cap (.active [0] false) line then
        .ok (idealAccepts m.chain (idealFeed m.chain (.active [0] false) line))
      else .error (.bufferOverrun cap cap) := by
  have ht := feed_tracks line (reset_tracks h)
  unfold matchLine
  cases hfit : idealFits m.chain cap (.active [0] false) line with
  | true =>
    obtain ⟨m', hm', ht'⟩ := ht.1 hfit
    simp [hm', isMatchSuccessful_tracks ht']
  | false =>
    simp [ht.2 hfit]

theorem idealAdvance_mem (chain : List SingleState) (c q : Nat) (s : SingleState)
    (L : List Nat) (fr : Bool) (x : Nat) :
    x ∈ (idealAdvance chain c q s L fr).1 ↔
      x ∈ L ∨ ((s.symbol = 0 ∨ s.symbol = c) ∧ q + 1 < chain.length ∧ x = q + 1) := by
  unfold idealAdvance nextOf
  by_cases hm : s.symbol = 0 ∨ s.symbol = c
  · by_cases hn : q + 1 < chain.length
    · simp [hm, hn]
    · simp [hm, hn]
  · simp [hm]

theorem idealAdvance_flag (chain : List SingleState) (c q : Nat) (s : SingleState)
    (L : List Nat) (fr : Bool) :
    (idealAdvance chain c q s L fr).2 = true ↔
      fr = true ∨ ((s.symbol = 0 ∨ s.symbol = c) ∧ chain.length ≤ q + 1) := by
  unfold idealAdvance nextOf
  by_cases hm : s.symbol = 0 ∨ s.symbol = c
  · by_cases hn : q + 1 < chain.length
    · simp [hm, hn]
    · simp [hm, hn]; omega
  · simp [hm]

theorem idealState_none_iff (chain : List SingleState) (c q : Nat) (s : SingleState)
    (L : List Nat) (fr : Bool) :
    idealState chain c q s L fr = none ↔ (s.isPersistent = true ∧ s.symbol = 0) := by
  unfold idealState
  by_cases hp : s.isPersistent = true
  · by_cases hz : s.symbol = 0
    · simp [hp, hz]
    · simp only [hp, hz, if_true, if_false, and_false, iff_false]
      split <;> simp
  · simp [hp]

theorem idealState_mem (chain : List SingleState) (c q : Nat) (s : SingleState)
    (L : List Nat) (fr : Bool) (r : List Nat × Bool)
    (h : idealState chain c q s L fr = some r) (x : Nat) :
    x ∈ r.1 ↔ x ∈ L ∨ (s.isPersistent = true ∧ x = q) ∨
      ((s.symbol = 0 ∨ s.symbol = c) ∧ q + 1 < chain.length ∧ x = q + 1) := by
  unfold idealState at h
  by_cases hp : s.isPersistent = true
  · rw [if_pos hp] at h
    by_cases hz : s.symbol = 0
    · simp [hz] at h
    · rw [if_neg hz] at h
      by_cases hl : L.getLast? ≠ some q
      · rw [if_pos hl] at h
        simp only [Option.some.injEq] at h
        rw [← h, idealAdvance_mem]
        simp [hp, or_assoc]
      · rw [if_neg hl] at h
        simp only [Option.some.injEq] at h
        rw [← h, idealAdvance_mem]
        have hq : q ∈ L := by
          have : L.getLast? = some q := by simpa using hl
          exact List.mem_of_getLast?_eq_some this
        constructor
        · rintro (h1 | h1)
          · exact Or.inl h1
          · exact Or.inr (Or.inr h1)
        · rintro (h1 | ⟨_, rfl⟩ | h1)
          · exact Or.inl h1
          · exact Or.inl hq
          · exact Or.inr h1
  · rw [if_neg hp] at h
    simp only [Option.some.injEq] at h
    rw [← h, idealAdvance_mem]
    simp [hp]

theorem idealState_flag (chain : List SingleState) (c q : Nat) (s : SingleState)
    (L : List Nat) (fr : Bool) (r : List Nat × Bool)
    (h : idealState chain c q s L fr = some r) :
    r.2 = true ↔ fr = true ∨ ((s.symbol = 0 ∨ s.symbol = c) ∧ chain.length ≤ q + 1) := by
  unfold idealState at h
  split at h
  · split at h
    · simp at h
    · split at h <;>
      · simp only [Option.some.injEq] at h
        rw [← h, idealAdvance_flag]
  · simp only [Option.some.injEq] at h
    rw [← h, idealAdvance_flag]

theorem isSkipNode_iff (chain : List SingleState) (q : Nat) (s : SingleState)
    (hs : chain[q]? = some s) :
    isSkipNode chain q = true ↔ (s.isPersistent = true ∧ s.symbol = 0) := by
  simp [isSkipNode, hs]

theorem idealLoop_skip_iff (chain : List SingleState) (c : Nat) (cur : List Nat) :
    ∀ (L : List Nat) (fr : Bool), (∀ q ∈ cur, q < chain.length) →
      ((idealLoop chain c cur L fr).2.2 = true ↔ ∃ q ∈ cur, isSkipNode chain q = true) := by
  induction cur with
  | nil => intro L fr _; simp [idealLoop]
  | cons q rest ih =>
    intro L fr hv
    have hq : q < chain.length := hv q (List.mem_cons_self _ _)
    have hs : chain[q]? = some chain[q] := List.getElem?_eq_getElem hq
    have hrest : ∀ x ∈ rest, x < chain.length := fun x hx => hv x (List.mem_cons_of_mem _ hx)
    unfold idealLoop
    simp only [hs]
    cases hst : idealState chain c q chain[q] L fr with
    | none =>
      have := (idealState_none_iff chain c q chain[q] L fr).1 hst
      simp [(isSkipNode_iff chain q _ hs).2 this]
    | some r =>
      have hno : ¬ isSkipNode chain q = true := by
        rw [isSkipNode_iff chain q _ hs, ← idealState_none_iff chain c q chain[q] L fr, hst]
        simp
      simp [ih r.1 r.2 hrest, hno]

theorem idealLoop_mem (chain : List SingleState) (c : Nat) (cur : List Nat) (x : Nat) :
    ∀ (L : List Nat) (fr : Bool), (∀ q ∈ cur, q < chain.length) →
      (idealLoop chain c cur L fr).2.2 = false →
      (x ∈ (idealLoop chain c cur L fr).1 ↔
        x ∈ L ∨ ∃ q ∈ cur, ∃ s, chain[q]? = some s ∧ ((s.isPersistent = true ∧ x = q) ∨
          ((s.symbol = 0 ∨ s.symbol = c) ∧ q + 1 < chain.length ∧ x = q + 1))) := by
  induction cur with
  | nil => intro L fr _ _; simp [idealLoop]
  | cons q rest ih =>
    intro L fr hv
    have hq : q < chain.length := hv q (List.mem_cons_self _ _)
    have hs : chain[q]? = some chain[q] := List.getElem?_eq_getElem hq
    have hrest : ∀ x ∈ rest, x < chain.length := fun x hx => hv x (List.mem_cons_of_mem _ hx)
    unfold idealLoop
    simp only [hs]
    cases hst : idealState chain c q chain[q] L fr with
    | none => simp
    | some r =>
      intro hns
      simp only at hns ⊢
      rw [ih r.1 r.2 hrest hns, idealState_mem chain c q _ L fr r hst]
      simp [hs, or_assoc]

theorem idealLoop_flag (chain : List SingleState) (c : Nat) (cur : List Nat) :
    ∀ (L : List Nat) (fr : Bool), (∀ q ∈ cur, q < chain.length) →
      (idealLoop chain c cur L fr).2.2 = false →
      ((idealLoop chain c cur L fr).2.1 = true ↔
        fr = true ∨ ∃ q ∈ cur, ∃ s, chain[q]? = some s ∧
          (s.symbol = 0 ∨ s.symbol = c) ∧ chain.length ≤ q + 1) := by
  induction cur with
  | nil => intro L fr _ _; simp [idealLoop]
  | cons q rest ih =>
    intro L fr hv
    have hq : q < chain.length := hv q (List.mem_cons_self _ _)
    have hs : chain[q]? = some chain[q] := List.getElem?_eq_getElem hq
    have hrest : ∀ x ∈ rest, x < chain.length := fun x hx => hv x (List.mem_cons_of_mem _ hx)
    unfold idealLoop
    simp only [hs]
    cases hst : idealState chain c q chain[q] L fr with
    | none => simp
    | some r =>
      intro hns
      simp only at hns ⊢
      rw [ih r.1 r.2 hrest hns, idealState_flag chain c q _ L fr r hst]
      simp [hs, or_assoc]

theorem lt_of_getLast?_ne {L : List Nat} {q : Nat} (hs : L.Pairwise (· < ·))
    (hle : ∀ x ∈ L, x ≤ q) (hl : L.getLast? ≠ some q) : ∀ x ∈ L, x < q := by
  rcases List.eq_nil_or_concat L with rfl | ⟨L', z, rfl⟩
  · simp
  · rw [List.concat_eq_append] at hs hle hl ⊢
    have hz : z ≤ q := hle z (by simp)
    have hzq : z ≠ q := by
      intro h
      apply hl
      simp [h]
    have hbefore := (List.pairwise_append.1 hs).2.2
    intro x hx
    simp at hx
    rcases hx with hx | rfl
    · have := hbefore x hx z (by simp)
      omega
    · omega

theorem pairwise_snoc {L : List Nat} {q : Nat} (hs : L.Pairwise (· < ·))
    (hlt : ∀ x ∈ L, x < q) : (L ++ [q]).Pairwise (· < ·) := by
  rw [List.pairwise_append]
  refine ⟨hs, by simp, ?_⟩
  intro a ha b hb
  simp at hb
  subst hb
  exact hlt a ha

theorem idealAdvance_sorted (chain : List SingleState) (c q : Nat) (s : SingleState)
    (L : List Nat) (fr : Bool) (hs : L.Pairwise (· < ·)) (hle : ∀ x ∈ L, x ≤ q) :
    (idealAdvance chain c q s L fr).1.Pairwise (· < ·) ∧
      ∀ x ∈ (idealAdvance chain c q s L fr).1, x ≤ q + 1 := by
  unfold idealAdvance nextOf
  have hle1 : ∀ x ∈ L, x ≤ q + 1 := fun x hx => Nat.le_succ_of_le (hle x hx)
  by_cases hm : s.symbol = 0 ∨ s.symbol = c
  · by_cases hn : q + 1 < chain.length
    · simp only [hm, hn, if_true]
      refine ⟨pairwise_snoc hs (fun x hx => Nat.lt_succ_of_le (hle x hx)), ?_⟩
      intro x hx
      simp at hx
      rcases hx with hx | rfl
      · exact hle1 x hx
      · exact Nat.le_refl _
    · simp only [hm, hn, if_true, if_false]
      exact ⟨hs, hle1⟩
  · simp only [hm, if_false]
    exact ⟨hs, hle1⟩

theorem idealState_sorted (chain : List SingleState) (c q : Nat) (s : SingleState)
    (L : List Nat) (fr : Bool) (hs : L.Pairwise (· < ·)) (hle : ∀ x ∈ L, x ≤ q)
    (r : List Nat × Bool) (h : idealState chain c q s L fr = some r) :
    r.1.Pairwise (· < ·) ∧ ∀ x ∈ r.1, x ≤ q + 1 := by
  unfold idealState at h
  split at h
  · split at h
    · simp at h
    · split at h
      · rename_i hl
        simp only [Option.some.injEq] at h
        rw [← h]
        have hlt := lt_of_getLast?_ne hs hle hl
        refine idealAdvance_sorted chain c q s _ fr (pairwise_snoc hs hlt) ?_
        intro x hx
        simp at hx
        rcases hx with hx | rfl
        · exact hle x hx
        · exact Nat.le_refl _
      · simp only [Option.some.injEq] at h
        rw [← h]
        exact idealAdvance_sorted chain c q s _ fr hs hle
  · simp only [Option.some.injEq] at h
    rw [← h]
    exact idealAdvance_sorted chain c q s _ fr hs hle

theorem idealLoop_sorted (chain : List SingleState) (c : Nat) (cur : List Nat) :
    ∀ (L : List Nat) (fr : Bool), cur.Pairwise (· < ·) → L.Pairwise (· < ·) →
      (∀ x ∈ L, ∀ y ∈ cur, x ≤ y) → (idealLoop chain c cur L fr).1.Pairwise (· < ·) := by
  induction cur with
  | nil => intro L fr _ hs _; simpa [idealLoop] using hs
  | cons q rest ih =>
    intro L fr hcur hs hle
    unfold idealLoop
    split
    · exact hs
    · split
      · exact hs
      · rename_i s _ _ L' fr' hst
        have hq := idealState_sorted chain c q s L fr hs
          (fun x hx => hle x hx q (List.mem_cons_self _ _)) _ hst
        rw [List.pairwise_cons] at hcur
        refine ih L' fr' hcur.2 hq.1 ?_
        intro x hx y hy
        have h1 := hq.2 x hx
        have h2 := hcur.1 y hy
        omega

theorem idealFeed_inert (chain : List SingleState) (w : List Nat) :
    idealFeed chain .failed w = .failed ∧ idealFeed chain .skipped w = .skipped := by
  induction w with
  | nil => exact ⟨rfl, rfl⟩
  | cons c w ih => simpa [idealFeed, idealStep] using ih

theorem chainMatch_nil_left (w : List Nat) : chainMatch [] w = true ↔ w = [] := by
  cases w <;> simp [chainMatch]

theorem chainMatch_drop_nil (chain : List SingleState) (q : Nat) (hq : q < chain.length) :
    chainMatch (chain.drop q) [] = isSkipNode chain q := by
  rw [List.drop_eq_getElem_cons hq]
  simp [chainMatch, isSkipNode, List.getElem?_eq_getElem hq]

theorem chainMatch_drop_cons (chain : List SingleState) (q : Nat) (hq : q < chain.length)
    (c : Nat) (w : List Nat) :
    chainMatch (chain.drop q) (c :: w) = true ↔
      isSkipNode chain q = true ∨
      (chain[q].isPersistent = true ∧ chainMatch (chain.drop q) w = true) ∨
      ((chain[q].symbol = 0 ∨ chain[q].symbol = c) ∧
        chainMatch (chain.drop (q + 1)) w = true) := by
  have hd : chain.drop q = chain[q] :: chain.drop (q + 1) := List.drop_eq_getElem_cons hq
  rw [hd]
  simp only [chainMatch, isSkipNode, List.getElem?_eq_getElem hq]
  by_cases hp : chain[q].isPersistent = true
  · by_cases hz : chain[q].symbol = 0
    · simp [hp, hz]
    · simp [hp, hz]
      tauto
  · simp [hp]

theorem skip_mem_iff_last (chain : List SingleState) (hwf : SkipNodeLast chain)
    (L : List Nat) (hs : L.Pairwise (· < ·)) (hv : ∀ q ∈ L, q < chain.length) :
    (∃ q ∈ L, isSkipNode chain q = true) ↔
      (match L.getLast? with
        | some q => isSkipNode chain q
        | none => false) = true := by
  rcases List.eq_nil_or_concat L with rfl | ⟨L', z, rfl⟩
  · simp
  · rw [List.concat_eq_append] at hs hv ⊢
    have hbefore := (List.pairwise_append.1 hs).2.2
    have hz : z < chain.length := hv z (by simp)
    have hlast : (L' ++ [z]).getLast? = some z := by simp
    rw [hlast]
    simp only
    constructor
    · rintro ⟨q, hq, hsk⟩
      simp at hq
      rcases hq with hq | rfl
      · have h1 := hbefore q hq z (by simp)
        have h2 := hwf q hsk
        omega
      · exact hsk
    · intro hsk
      exact ⟨z, by simp, hsk⟩

theorem accepts_iff (chain : List SingleState) (hwf : SkipNodeLast chain) (w : List Nat) :
    ∀ (L : List Nat) (fr : Bool), L.Pairwise (· < ·) → (∀ q ∈ L, q < chain.length) →
      (idealAccepts chain (idealFeed chain (.active L fr) w) = true ↔
        (w = [] ∧ fr = true) ∨ ∃ q ∈ L, chainMatch (chain.drop q) w = true) := by
  induction w with
  | nil =>
    intro L fr hs hv
    have h1 : (∃ q ∈ L, chainMatch (chain.drop q) [] = true) ↔
        ∃ q ∈ L, isSkipNode chain q = true := by
      constructor
      · rintro ⟨q, hq, h⟩
        exact ⟨q, hq, by rwa [chainMatch_drop_nil chain q (hv q hq)] at h⟩
      · rintro ⟨q, hq, h⟩
        exact ⟨q, hq, by rwa [chainMatch_drop_nil chain q (hv q hq)]⟩
    rw [h1, skip_mem_iff_last chain hwf L hs hv]
    simp [idealFeed, idealAccepts]
  | cons c w ih =>
    intro L fr hs hv
    cases L with
    | nil => simp [idealFeed, idealStep, (idealFeed_inert chain w).1, idealAccepts]
    | cons q0 L0 =>
      simp only [idealFeed, idealStep]
      cases hskip : (idealLoop chain c (q0 :: L0) [] false).2.2 with
      | true =>
        simp only [if_true, (idealFeed_inert chain w).2, idealAccepts, true_iff]
        obtain ⟨q, hq, hsk⟩ := (idealLoop_skip_iff chain c _ [] false hv).1 hskip
        exact Or.inr ⟨q, hq, (chainMatch_drop_cons chain q (hv q hq) c w).2 (Or.inl hsk)⟩
      | false =>
        have hnoskip : ∀ q ∈ q0 :: L0, ¬ isSkipNode chain q = true := by
          intro q hq hsk
          have := (idealLoop_skip_iff chain c _ [] false hv).2 ⟨q, hq, hsk⟩
          rw [hskip] at this
          exact Bool.false_ne_true this
        have hsorted := idealLoop_sorted chain c (q0 :: L0) [] false hs (by simp) (by simp)
        have hvalid := idealLoop_valid chain c (q0 :: L0) [] false hv (by simp)
        simp only [Bool.false_eq_true, if_false]
        rw [ih _ _ hsorted hvalid, idealLoop_flag chain c _ [] false hv hskip]
        simp only [Bool.false_eq_true, false_or, reduceCtorEq, false_and]
        constructor
        · rintro (⟨rfl, q, hq, s, hs', hm, hn⟩ | ⟨q', hq', hcm⟩)
          · have hqv := hv q hq
            rw [List.getElem?_eq_getElem hqv] at hs'
            simp only [Option.some.injEq] at hs'
            subst hs'
            refine ⟨q, hq, (chainMatch_drop_cons chain q hqv c []).2 (Or.inr (Or.inr ⟨hm, ?_⟩))⟩
            rw [List.drop_eq_nil_of_le hn]
            rfl
          · rw [idealLoop_mem chain c _ q' [] false hv hskip] at hq'
            simp only [List.not_mem_nil, false_or] at hq'
            obtain ⟨q, hq, s, hs', hcase⟩ := hq'
            have hqv := hv q hq
            rw [List.getElem?_eq_getElem hqv] at hs'
            simp only [Option.some.injEq] at hs'
            subst hs'
            refine ⟨q, hq, (chainMatch_drop_cons chain q hqv c w).2 (Or.inr ?_)⟩
            rcases hcase with ⟨hp, rfl⟩ | ⟨hm, _, rfl⟩
            · exact Or.inl ⟨hp, hcm⟩
            · exact Or.inr ⟨hm, hcm⟩
        · rintro ⟨q, hq, hcm⟩
          have hqv := hv q hq
          rcases (chainMatch_drop_cons chain q hqv c w).1 hcm with hsk | ⟨hp, h⟩ | ⟨hm, h⟩
          · exact absurd hsk (hnoskip q hq)
          · refine Or.inr ⟨q, ?_, h⟩
            rw [idealLoop_mem chain c _ q [] false hv hskip]
            exact Or.inr ⟨q, hq, chain[q], List.getElem?_eq_getElem hqv, Or.inl ⟨hp, rfl⟩⟩
          · by_cases hn : q + 1 < chain.length
            · refine Or.inr ⟨q + 1, ?_, h⟩
              rw [idealLoop_mem chain c _ (q + 1) [] false hv hskip]
              exact Or.inr ⟨q, hq, chain[q], List.getElem?_eq_getElem hqv,
                Or.inr ⟨hm, hn, rfl⟩⟩
            · rw [List.drop_eq_nil_of_le (by omega), chainMatch_nil_left] at h
              exact Or.inl ⟨h, q, hq, chain[q], List.getElem?_eq_getElem hqv, hm, by omega⟩

theorem scanFilter_compile (filter : List Nat) :
    ∀ (chain : List SingleState) (pending : Bool) (n : Nat),
      closeChain (scanFilter filter chain pending n).1 (scanFilter filter chain pending n).2.1 =
        chain ++ compile filter pending := by
  induction filter with
  | nil =>
    intro chain pending n
    cases pending <;> simp [scanFilter, compile, closeChain]
  | cons c rest ih =>
    intro chain pending n
    unfold scanFilter compile
    by_cases h0 : c = 0
    · cases pending <;> simp [h0, closeChain]
    · by_cases hq : c = QUESTION
      · simp only [if_neg h0, if_pos hq]
        rw [ih]
        simp
      · by_cases ha : c = ASTERISK
        · simp only [if_neg h0, if_neg hq, if_pos ha]
          rw [ih]
        · simp only [if_neg h0, if_neg hq, if_neg ha]
          rw [ih]
          simp

theorem build_chain (filter : List Nat) (m : StateMachine) (h : build filter = some m) :
    m.chain = compile filter false := by
  unfold build at h
  simp only at h
  split at h
  · simp at h
  · simp only [Option.some.injEq] at h
    rw [← h]
    simpa using scanFilter_compile filter [] false 0

theorem build_sized (filter : List Nat) (m : StateMachine) (h : build filter = some m) :
    Sized m.m_stateDoubleBuffer.1.buffer.length m := by
  unfold build at h
  simp only at h
  split at h
  · simp at h
  · rename_i hne
    simp only [Option.some.injEq] at h
    rw [← h]
    refine ⟨rfl, by simp, ?_, ?_⟩
    · simp only [List.length_set, List.length_replicate]
      split <;> omega
    · intro hnil
      simp only at hnil
      simp [hnil] at hne

theorem compile_ne_nil (filter : List Nat) (h0 : ∀ c ∈ filter, c ≠ 0) (hne : filter ≠ []) :
    ∀ pending, compile filter pending ≠ [] := by
  induction filter with
  | nil => exact absurd rfl hne
  | cons c rest ih =>
    intro pending
    have hc : c ≠ 0 := h0 c (List.mem_cons_self _ _)
    unfold compile
    by_cases hq : c = QUESTION
    · simp [if_neg hc, if_pos hq]
    · by_cases ha : c = ASTERISK
      · simp only [if_neg hc, if_neg hq, if_pos ha]
        cases rest with
        | nil => simp [compile, closeChain]
        | cons d rest' =>
          exact ih (fun x hx => h0 x (List.mem_cons_of_mem _ hx)) (by simp) true
      · simp [if_neg hc, if_neg hq, if_neg ha]

theorem build_isSome (filter : List Nat) (h0 : ∀ c ∈ filter, c ≠ 0) (hne : filter ≠ []) :
    ∃ m, build filter = some m := by
  have hc := compile_ne_nil filter h0 hne false
  have hs := scanFilter_compile filter [] false 0
  simp only [List.nil_append] at hs
  unfold build
  simp only [hs]
  cases hcomp : compile filter false with
  | nil => exact absurd hcomp hc
  | cons a l => simp

theorem skipNodeLast_cons (x : SingleState) (rest : List SingleState)
    (hx : ¬ (x.isPersistent = true ∧ x.symbol = 0)) (h : SkipNodeLast rest) :
    SkipNodeLast (x :: rest) := by
  intro q hq
  cases q with
  | zero =>
    simp [isSkipNode] at hq
    exact absurd hq hx
  | succ q' =>
    have : isSkipNode rest q' = true := by simpa [isSkipNode] using hq
    have := h q' this
    simp
    omega

theorem skipNodeLast_closeChain (pending : Bool) : SkipNodeLast (closeChain [] pending) := by
  intro q hq
  cases pending with
  | false => simp [closeChain, isSkipNode] at hq
  | true =>
    cases q with
    | zero => simp [closeChain]
    | succ q' => simp [closeChain, isSkipNode] at hq

theorem skipNodeLast_compile (filter : List Nat) :
    ∀ pending, SkipNodeLast (compile filter pending) := by
  induction filter with
  | nil => intro pending; exact skipNodeLast_closeChain pending
  | cons c rest ih =>
    intro pending
    unfold compile
    by_cases h0 : c = 0
    · rw [if_pos h0]; exact skipNodeLast_closeChain pending
    · rw [if_neg h0]
      by_cases hq : c = QUESTION
      · rw [if_pos hq]
        exact skipNodeLast_cons _ _ (by simp) (ih pending)
      · rw [if_neg hq]
        by_cases ha : c = ASTERISK
        · rw [if_pos ha]; exact ih true
        · rw [if_neg ha]
          exact skipNodeLast_cons _ _ (by simp [h0]) (ih false)

theorem starMatch_of_nil (k : List Nat → Bool) (hk : k [] = true) (w : List Nat) :
    starMatch k w = true := by
  induction w with
  | nil => simpa [starMatch] using hk
  | cons c w ih => simp [starMatch, ih]

theorem starMatch_idem (k : List Nat → Bool) (w : List Nat) :
    starMatch (starMatch k) w = starMatch k w := by
  induction w with
  | nil => simp [starMatch]
  | cons c w ih => simp [starMatch, ih]

theorem globMatch_asterisk (p w : List Nat) :
    globMatch (ASTERISK :: p) w = starMatch (globMatch p) w := by
  simp [globMatch]

theorem globMatch_question_nil (p : List Nat) : globMatch (QUESTION :: p) [] = false := by
  simp [globMatch, QUESTION, ASTERISK]

theorem globMatch_question_cons (p : List Nat) (c : Nat) (w : List Nat) :
    globMatch (QUESTION :: p) (c :: w) = globMatch p w := by
  simp [globMatch, QUESTION, ASTERISK]

theorem starMatch_question (p w : List Nat) :
    starMatch (globMatch (QUESTION :: p)) w = globMatch (QUESTION :: ASTERISK :: p) w := by
  induction w with
  | nil => simp [starMatch, globMatch_question_nil]
  | cons c w ih =>
    rw [starMatch, ih, globMatch_question_cons, globMatch_question_cons, globMatch_asterisk]
    cases w with
    | nil => simp [starMatch, globMatch_question_nil]
    | cons d w' =>
      rw [globMatch_question_cons, globMatch_asterisk]
      simp [starMatch]

theorem globMatch_literal_nil (c : Nat) (p : List Nat) (ha : c ≠ ASTERISK) :
    globMatch (c :: p) [] = false := by
  simp [globMatch, ha]

theorem globMatch_literal_cons (c : Nat) (p : List Nat) (ha : c ≠ ASTERISK)
    (hq : c ≠ QUESTION) (d : Nat) (w : List Nat) :
    globMatch (c :: p) (d :: w) = (decide (c = d) && globMatch p w) := by
  simp [globMatch, ha, hq]

theorem chainMatch_persistent_literal (c : Nat) (h0 : c ≠ 0) (ha : c ≠ ASTERISK)
    (hq : c ≠ QUESTION) (X : List SingleState) (p : List Nat)
    (hX : ∀ w, chainMatch X w = globMatch p w) (w : List Nat) :
    chainMatch (⟨c, true⟩ :: X) w = starMatch (globMatch (c :: p)) w := by
  induction w with
  | nil => simp [chainMatch, starMatch, globMatch_literal_nil c p ha, h0]
  | cons d w ih =>
    simp [chainMatch, starMatch, globMatch_literal_cons c p ha hq, h0, ih, hX]

theorem chainMatch_compile (filter : List Nat) (h0 : ∀ c ∈ filter, c ≠ 0) :
    ∀ (pending : Bool) (w : List Nat),
      chainMatch (compile filter pending) w =
        globMatch (if pending then ASTERISK :: filter else filter) w := by
  induction filter with
  | nil =>
    intro pending w
    cases pending with
    | false => cases w <;> simp [compile, closeChain, chainMatch, globMatch]
    | true =>
      have h1 : chainMatch [⟨0, true⟩] w = true := by cases w <;> simp [chainMatch]
      simp only [compile, closeChain, if_true, List.nil_append, h1, globMatch_asterisk]
      exact (starMatch_of_nil _ (by simp [globMatch]) w).symm
  | cons c rest ih =>
    intro pending w
    have hc : c ≠ 0 := h0 c (List.mem_cons_self _ _)
    have ih' := ih (fun x hx => h0 x (List.mem_cons_of_mem _ hx))
    unfold compile
    rw [if_neg hc]
    by_cases hq : c = QUESTION
    · rw [if_pos hq]
      subst hq
      have hstep : ∀ w, chainMatch (⟨0, false⟩ :: compile rest pending) w =
          globMatch (QUESTION :: (if pending then ASTERISK :: rest else rest)) w := by
        intro w
        cases w with
        | nil => simp [chainMatch, globMatch_question_nil]
        | cons d w' => simp [chainMatch, globMatch_question_cons, ih']
      rw [hstep]
      cases pending with
      | false => simp
      | true =>
        simp only [if_true]
        rw [globMatch_asterisk, starMatch_question]
    · rw [if_neg hq]
      by_cases ha : c = ASTERISK
      · rw [if_pos ha]
        subst ha
        rw [ih' true w]
        cases pending with
        | false => simp
        | true =>
          simp only [if_true]
          have hfun : globMatch (ASTERISK :: rest) = starMatch (globMatch rest) :=
            funext (globMatch_asterisk rest)
          rw [globMatch_asterisk, globMatch_asterisk, hfun, starMatch_idem]
      · rw [if_neg ha]
        cases pending with
        | false =>
          simp only [Bool.false_eq_true, if_false]
          cases w with
          | nil => simp [chainMatch, globMatch_literal_nil c rest ha]
          | cons d w' =>
            simp [chainMatch, globMatch_literal_cons c rest ha hq, hc, ih']
        | true =>
          simp only [if_true]
          rw [globMatch_asterisk]
          exact chainMatch_persistent_literal c hc ha hq _ rest
            (fun w => by simpa using ih' false w) w

theorem idealAccepts_initial (chain : List SingleState) (hwf : SkipNodeLast chain)
    (hne : chain ≠ []) (w : List Nat) :
    idealAccepts chain (idealFeed chain (.active [0] false) w) = chainMatch chain w := by
  have h := accepts_iff chain hwf w [0] false (by simp)
    (by intro q hq; simp at hq; subst hq; exact List.length_pos.mpr hne)
  rw [Bool.eq_iff_iff, h]
  simp

/-- The verdict of a compiled filter on a line: the glob verdict, unless a write falls
outside an active-state buffer on the way. -/
theorem matchLine_verdict (filter : List Nat) (h0 : ∀ c ∈ filter, c ≠ 0) (m : StateMachine)
    (hb : build filter = some m) (line : List Nat) :
    matchLine m line =
      if idealFits m.chain m.m_stateDoubleBuffer.1.buffer.length (.active [0] false) line then
        .ok (globMatch filter line)
      else
        .error (.bufferOverrun m.m_stateDoubleBuffer.1.buffer.length
          m.m_stateDoubleBuffer.1.buffer.length) := by
  have hs := build_sized filter m hb
  have hc := build_chain filter m hb
  rw [matchLine_eq hs line]
  have hacc := idealAccepts_initial m.chain (hc ▸ skipNodeLast_compile filter false) hs.2.2.2 line
  rw [hacc, hc, chainMatch_compile filter h0 false line]
  simp

/-- The matcher either gives the glob verdict or writes outside an active-state
buffer. -/
theorem matchLine_glob_or_overrun (filter : List Nat) (h0 : ∀ c ∈ filter, c ≠ 0)
    (m : StateMachine) (hb : build filter = some m) (line : List Nat) :
    matchLine m line = .ok (globMatch filter line) ∨
      matchLine m line = .error (.bufferOverrun m.m_stateDoubleBuffer.1.buffer.length
        m.m_stateDoubleBuffer.1.buffer.length) := by
  rw [matchLine_verdict filter h0 m hb line]
  split
  · exact Or.inl rfl
  · exact Or.inr rfl

theorem sorted_length_le {L : List Nat} {n : Nat} (hs : L.Pairwise (· < ·))
    (hv : ∀ x ∈ L, x < n) : L.length ≤ n := by
  have hnd : L.Nodup := hs.imp (fun h => Nat.ne_of_lt h)
  have hsub : L.toFinset ⊆ Finset.range n := by
    intro x hx
    simp at hx
    simpa using hv x hx
  have := Finset.card_le_card hsub
  rwa [List.toFinset_card_of_nodup hnd, Finset.card_range] at this

theorem idealFits_of_length_le (chain : List SingleState) (cap : Nat)
    (hcap : chain.length ≤ cap) (w : List Nat) :
    ∀ (L : List Nat) (fr : Bool), L.Pairwise (· < ·) → (∀ q ∈ L, q < chain.length) →
      idealFits chain cap (.active L fr) w = true := by
  induction w with
  | nil => intro L fr _ _; simp [idealFits]
  | cons c w ih =>
    intro L fr hs hv
    cases L with
    | nil => simp [idealFits]
    | cons q0 L0 =>
      have hsorted := idealLoop_sorted chain c (q0 :: L0) [] false hs (by simp) (by simp)
      have hvalid := idealLoop_valid chain c (q0 :: L0) [] false hv (by simp)
      have hlen := sorted_length_le hsorted hvalid
      simp only [idealFits, idealStep, Bool.and_eq_true, decide_eq_true_eq]
      refine ⟨by omega, ?_⟩
      split
      · exact (idealFits_inert chain cap w).1
      · exact ih _ _ hsorted hvalid

theorem idealLoop_single_length (chain : List SingleState) (c q : Nat)
    (hnp : ∀ s ∈ chain, s.isPersistent = false) :
    (idealLoop chain c [q] [] false).1.length ≤ 1 := by
  unfold idealLoop
  cases hs : chain[q]? with
  | none => simp
  | some s =>
    have hmem : s ∈ chain := List.getElem?_mem hs
    have hp := hnp s hmem
    simp only [idealState, hp, Bool.false_eq_true, if_false, idealLoop]
    unfold idealAdvance
    split
    · split <;> simp
    · simp

theorem idealFits_of_no_persistent (chain : List SingleState) (cap : Nat) (hcap : 1 ≤ cap)
    (hnp : ∀ s ∈ chain, s.isPersistent = false) (w : List Nat) :
    ∀ (L : List Nat) (fr : Bool), L.length ≤ 1 → idealFits chain cap (.active L fr) w = true := by
  induction w with
  | nil => intro L fr _; simp [idealFits]
  | cons c w ih =>
    intro L fr hL
    cases L with
    | nil => simp [idealFits]
    | cons q0 L0 =>
      have hnil : L0 = [] := by
        cases L0 with
        | nil => rfl
        | cons a l => simp at hL
      subst hnil
      have hlen := idealLoop_single_length chain c q0 hnp
      simp only [idealFits, idealStep, Bool.and_eq_true, decide_eq_true_eq]
      refine ⟨by omega, ?_⟩
      split
      · exact (idealFits_inert chain cap w).1
      · exact ih _ _ hlen

theorem compile_literal (filter : List Nat)
    (hlit : ∀ c ∈ filter, c ≠ 0 ∧ c ≠ QUESTION ∧ c ≠ ASTERISK) :
    compile filter false = filter.map (fun c => ⟨c, false⟩) := by
  induction filter with
  | nil => simp [compile, closeChain]
  | cons c rest ih =>
    obtain ⟨h0, hq, ha⟩ := hlit c (List.mem_cons_self _ _)
    unfold compile
    rw [if_neg h0, if_neg hq, if_neg ha, ih (fun x hx => hlit x (List.mem_cons_of_mem _ hx))]
    simp

theorem globMatch_literal (filter : List Nat)
    (hlit : ∀ c ∈ filter, c ≠ QUESTION ∧ c ≠ ASTERISK) :
    ∀ w, globMatch filter w = decide (w = filter) := by
  induction filter with
  | nil => intro w; cases w <;> simp [globMatch]
  | cons c rest ih =>
    intro w
    obtain ⟨hq, ha⟩ := hlit c (List.mem_cons_self _ _)
    have ih' := ih (fun x hx => hlit x (List.mem_cons_of_mem _ hx))
    cases w with
    | nil => simp [globMatch_literal_nil c rest ha]
    | cons d w' =>
      rw [globMatch_literal_cons c rest ha hq, ih']
      by_cases hcd : c = d
      · simp [hcd]
      · have : ¬ d = c := fun h => hcd h.symm
        simp [hcd, this]

theorem starMatch_last (b : Nat) (hq : b ≠ QUESTION) (ha : b ≠ ASTERISK) (w : List Nat) :
    starMatch (globMatch [b]) w = decide (w.getLast? = some b) := by
  have hlit : ∀ c ∈ [b], c ≠ QUESTION ∧ c ≠ ASTERISK := by
    intro c hc
    simp at hc
    subst hc
    exact ⟨hq, ha⟩
  induction w with
  | nil => simp [starMatch, globMatch_literal [b] hlit]
  | cons c w ih =>
    rw [starMatch, ih, globMatch_literal [b] hlit]
    cases w with
    | nil => simp
    | cons d w' => simp [List.getLast?_cons_cons]

theorem scanFilter_asterisk (ys : List Nat) (chain : List SingleState) (pending : Bool)
    (n : Nat) : scanFilter (ASTERISK :: ys) chain pending n = scanFilter ys chain true n := by
  simp [scanFilter, ASTERISK, QUESTION]

theorem scanFilter_asterisk_run (k : Nat) (ys : List Nat) (chain : List SingleState)
    (pending : Bool) (n : Nat) :
    scanFilter (List.replicate (k + 1) ASTERISK ++ ys) chain pending n =
      scanFilter ys chain true n := by
  induction k generalizing pending with
  | zero => simpa using scanFilter_asterisk ys chain pending n
  | succ k ih =>
    rw [List.replicate_succ, List.cons_append, scanFilter_asterisk, ih]

theorem scanFilter_append_congr (xs r1 r2 : List Nat)
    (h : ∀ chain pending n, scanFilter r1 chain pending n = scanFilter r2 chain pending n) :
    ∀ chain pending n,
      scanFilter (xs ++ r1) chain pending n = scanFilter (xs ++ r2) chain pending n := by
  induction xs with
  | nil => simpa using h
  | cons c rest ih =>
    intro chain pending n
    simp only [List.cons_append, scanFilter]
    split
    · rfl
    · split
      · exact ih _ _ _
      · split
        · exact ih _ _ _
        · exact ih _ _ _

theorem build_congr (f1 f2 : List Nat)
    (h : scanFilter f1 [] false 0 = scanFilter f2 [] false 0) : build f1 = build f2 := by
  unfold build
  rw [h]

theorem switchToNextChunk_cases (fw : FileWrapper) (hcs : 0 < fw.chunkSize)
    (hpos : ¬ fw.m_curMemoryPos < fw.m_curMemoryEndPos) :
    (∃ fw1, switchToNextChunk fw = (.EndOfFile, fw1) ∧ fw1.budget ≤ fw.budget ∧
        fw1.chunkSize = fw.chunkSize) ∨
    (∃ fw1, switchToNextChunk fw = (.Success, fw1) ∧ fw1.budget < fw.budget ∧
        fw1.chunkSize = fw.chunkSize ∧ fw1.m_currentStatus = fw.m_currentStatus) := by
  unfold switchToNextChunk unmapCurrentChunk mapNextChunk FileWrapper.budget
  cases hb : fw.m_curChunkBaseAddress with
  | none =>
    simp only [hb, Option.isSome_none, Bool.false_eq_true, if_false]
    by_cases hoff : fw.m_curChunkOffset ≥ fw.m_fileSize
    · left
      exact ⟨fw, by simp [hoff], Nat.le_refl _, rfl⟩
    · right
      simp only [hoff, if_false]
      refine ⟨_, rfl, ?_, rfl, rfl⟩
      simp only
      split <;> omega
  | some b =>
    by_cases hoff : fw.m_curChunkOffset ≥ fw.m_fileSize
    · left
      refine ⟨{ fw with
        m_curChunkBaseAddress := none
        m_curMemoryPos := 0
        m_curMemoryEndPos := 0 }, by simp [hoff], ?_, rfl⟩
      simp only
      omega
    · right
      refine ⟨{ fw with
        m_curChunkBaseAddress := some fw.m_curChunkOffset
        m_curMemoryPos := fw.m_curChunkOffset
        m_curMemoryEndPos := fw.m_curChunkOffset +
          (if fw.m_fileSize - fw.m_curChunkOffset > fw.chunkSize then fw.chunkSize
            else fw.m_fileSize - fw.m_curChunkOffset)
        m_curChunkOffset := fw.m_curChunkOffset + fw.chunkSize }, by simp [hoff], ?_, rfl, rfl⟩
      simp only
      split <;> omega

/-- A read never runs out of fuel: with a positive chunk size, fuel of at least the
budget of the source gives a result, and the budget does not grow. -/
theorem readNextSymbolAux_total :
    ∀ (fuel : Nat) (fw : FileWrapper), 0 < fw.chunkSize → fw.budget ≤ fuel →
      ∃ r, readNextSymbolAux fuel fw = some r ∧ r.2.2.budget ≤ fw.budget ∧
        r.2.2.chunkSize = fw.chunkSize := by
  intro fuel
  induction fuel with
  | zero =>
    intro fw _ hb
    simp [FileWrapper.budget] at hb
  | succ fuel ih =>
    intro fw hcs hb
    unfold readNextSymbolAux
    by_cases hst : fw.m_currentStatus ≠ .Success
    · rw [if_pos hst]
      exact ⟨_, rfl, Nat.le_refl _, rfl⟩
    · rw [if_neg hst]
      by_cases hpos : fw.m_curMemoryPos < fw.m_curMemoryEndPos
      · rw [if_pos hpos]
        have hb1 : ({ fw with m_curMemoryPos := fw.m_curMemoryPos + 1 } : FileWrapper).budget + 1 =
            fw.budget := by
          simp only [FileWrapper.budget]
          omega
        simp only
        split
        · exact ⟨_, rfl, by simp only; omega, rfl⟩
        · obtain ⟨r, hr, hrb, hrc⟩ := ih { fw with m_curMemoryPos := fw.m_curMemoryPos + 1 }
            hcs (by omega)
          rw [hr]
          obtain ⟨s, t, fw2⟩ := r
          simp only at hrb hrc ⊢
          split
          · refine ⟨_, rfl, ?_, hrc⟩
            simp only [FileWrapper.budget] at hrb ⊢
            omega
          · refine ⟨_, rfl, ?_, hrc⟩
            show fw2.budget ≤ fw.budget
            omega
      · rw [if_neg hpos]
        rcases switchToNextChunk_cases fw hcs hpos with ⟨fw1, h1, h2, h3⟩ | ⟨fw1, h1, h2, h3, _⟩
        · rw [h1]
          refine ⟨_, rfl, ?_, h3⟩
          simp only [FileWrapper.budget] at h2 ⊢
          omega
        · rw [h1]
          simp only
          obtain ⟨r, hr, hrb, hrc⟩ := ih fw1 (by omega) (by omega)
          exact ⟨r, hr, by omega, by omega⟩

/-- The method `readNextSymbol` always returns, whatever the state of the source. -/
theorem readNextSymbol_total (fw : FileWrapper) (hcs : 0 < fw.chunkSize) :
    ∃ r, readNextSymbol fw = some r :=
  let ⟨r, hr, _⟩ := readNextSymbolAux_total (fw.budget + 1) fw hcs (Nat.le_succ _)
  ⟨r, hr⟩

/-- A skip never runs out of fuel either. -/
theorem skipCurrentLineAux_total :
    ∀ (fuel : Nat) (fw : FileWrapper), 0 < fw.chunkSize → fw.budget ≤ fuel →
      ∃ r, skipCurrentLineAux fuel fw = some r ∧ r.2.budget ≤ fw.budget ∧
        r.2.chunkSize = fw.chunkSize := by
  intro fuel
  induction fuel with
  | zero =>
    intro fw _ hb
    simp [FileWrapper.budget] at hb
  | succ fuel ih =>
    intro fw hcs hb
    unfold skipCurrentLineAux
    by_cases hst : fw.m_currentStatus ≠ .Success
    · rw [if_pos hst]
      exact ⟨_, rfl, Nat.le_refl _, rfl⟩
    · rw [if_neg hst]
      by_cases hpos : fw.m_curMemoryPos < fw.m_curMemoryEndPos
      · rw [if_pos hpos]
        have hb1 : ({ fw with m_curMemoryPos := fw.m_curMemoryPos + 1 } : FileWrapper).budget + 1 =
            fw.budget := by
          simp only [FileWrapper.budget]
          omega
        simp only
        split
        · obtain ⟨r, hr, hrb, hrc⟩ := ih { fw with m_curMemoryPos := fw.m_curMemoryPos + 1 }
            hcs (by omega)
          exact ⟨r, hr, by omega, hrc⟩
        · obtain ⟨r, hr, hrb, hrc⟩ := readNextSymbolAux_total fuel
            { fw with m_curMemoryPos := fw.m_curMemoryPos + 1 } hcs (by omega)
          rw [hr]
          obtain ⟨s, t, fw2⟩ := r
          simp only at hrb hrc ⊢
          split
          · refine ⟨_, rfl, ?_, hrc⟩
            simp only [FileWrapper.budget] at hrb ⊢
            omega
          · refine ⟨_, rfl, ?_, hrc⟩
            show fw2.budget ≤ fw.budget
            omega
      · rw [if_neg hpos]
        rcases switchToNextChunk_cases fw hcs hpos with ⟨fw1, h1, h2, h3⟩ | ⟨fw1, h1, h2, h3, _⟩
        · rw [h1]
          refine ⟨_, rfl, ?_, h3⟩
          simp only [FileWrapper.budget] at h2 ⊢
          omega
        · rw [h1]
          simp only
          obtain ⟨r, hr, hrb, hrc⟩ := ih fw1 (by omega) (by omega)
          exact ⟨r, hr, by omega, by omega⟩

/-- The method `skipCurrentLine` always returns, whatever the state of the source. -/
theorem skipCurrentLine_total (fw : FileWrapper) (hcs : 0 < fw.chunkSize) :
    ∃ r, skipCurrentLine fw = some r :=
  let ⟨r, hr, _⟩ := skipCurrentLineAux_total (fw.budget + 1) fw hcs (Nat.le_succ _)
  ⟨r, hr⟩

/-- The machine compiled from the filter `*`. -/
theorem build_asterisk :
    build [ASTERISK] = some
      { chain := [⟨0, true⟩]
        m_stateDoubleBuffer := (⟨[some 0], 1⟩, ⟨[none], 0⟩)
        m_currentStepStates := 0
        m_currentStatus := .KeepGoing
        m_fragileSuccess := false } := by
  rfl

theorem feed_skipped (m : StateMachine) (h : m.m_currentStatus = .SuccessSkipTheRest)
    (w : List Nat) : feed m w = .ok m := by
  induction w with
  | nil => rfl
  | cons c w ih => simp [feed, processSymbol, h, ih]

/-- C6: a non-empty filter without `?` and `*` compiles, and the matcher (`reset`,
`processSymbol` on each byte, `isMatchSuccessful`) reports a match exactly on the line
that is byte for byte the filter; so proper prefixes of the filter, extensions of it and
the empty line do not match. -/
theorem C6_plain_filter_matches_identical_line (filter : List Nat) (hne : filter ≠ [])
    (hlit : ∀ c ∈ filter, c ≠ 0 ∧ c ≠ QUESTION ∧ c ≠ ASTERISK) :
    ∃ m, build filter = some m ∧ ∀ line, matchLine m line = .ok (decide (line = filter)) := by
  have h0 : ∀ c ∈ filter, c ≠ 0 := fun c hc => (hlit c hc).1
  obtain ⟨m, hb⟩ := build_isSome filter h0 hne
  refine ⟨m, hb, fun line => ?_⟩
  have hs := build_sized filter m hb
  have hc := build_chain filter m hb
  rw [compile_literal filter hlit] at hc
  have hnp : ∀ s ∈ m.chain, s.isPersistent = false := by
    intro s hs'
    rw [hc] at hs'
    simp at hs'
    obtain ⟨a, _, rfl⟩ := hs'
    rfl
  have hfit := idealFits_of_no_persistent m.chain _ hs.2.2.1 hnp line [0] false (by simp)
  rw [matchLine_verdict filter h0 m hb line, hfit,
    globMatch_literal filter (fun c hc => (hlit c hc).2) line]
  simp

/-- C6 at the filter `ab`. -/
theorem C6_plain_filter_witness :
    ([97, 98] ≠ [] ∧ ∀ c ∈ [97, 98], c ≠ 0 ∧ c ≠ QUESTION ∧ c ≠ ASTERISK) ∧
      ∃ m, build [97, 98] = some m ∧
        ∀ line, matchLine m line = .ok (decide (line = [97, 98])) :=
  ⟨⟨by decide, by decide⟩,
    C6_plain_filter_matches_identical_line [97, 98] (by decide) (by decide)⟩

/-- C7: for the filter `*` the first `processSymbol` call after `reset` returns
`SuccessSkipTheRest`, on every byte, and `isMatchSuccessful` is true whatever bytes
follow; so every non-empty line matches. -/
theorem C7_asterisk_matches_nonempty :
    ∃ m, build [ASTERISK] = some m ∧
      ∀ (c : Nat) (rest : List Nat),
        (∃ m1, processSymbol (reset m) c = .ok (.SuccessSkipTheRest, m1) ∧
          ∃ m2, feed m1 rest = .ok m2 ∧ isMatchSuccessful m2 = .ok true) ∧
        matchLine m (c :: rest) = .ok true := by
  refine ⟨_, build_asterisk, fun c rest => ?_⟩
  have h1 : processSymbol (reset
      { chain := [⟨0, true⟩]
        m_stateDoubleBuffer := (⟨[some 0], 1⟩, ⟨[none], 0⟩)
        m_currentStepStates := 0
        m_currentStatus := .KeepGoing
        m_fragileSuccess := false }) c =
      .ok (.SuccessSkipTheRest,
        { chain := [⟨0, true⟩]
          m_stateDoubleBuffer := (⟨[some 0], 1⟩, ⟨[none], 0⟩)
          m_currentStepStates := 0
          m_currentStatus := .SuccessSkipTheRest
          m_fragileSuccess := false }) := by
    rfl
  have h2 := feed_skipped
      { chain := [⟨0, true⟩]
        m_stateDoubleBuffer := (⟨[some 0], 1⟩, ⟨[none], 0⟩)
        m_currentStepStates := 0
        m_currentStatus := .SuccessSkipTheRest
        m_fragileSuccess := false } rfl rest
  refine ⟨⟨_, h1, _, h2, rfl⟩, ?_⟩
  simp only [matchLine, feed, h1, h2]
  rfl

/-- C8: for the filter `a*b` the matcher reports a match exactly on the lines of at
least two bytes that start with `a` and end with `b`; so `ab`, `aXb` and `aXXb` match
and `ba` and `a` do not. -/
theorem C8_a_star_b :
    ∃ m, build [97, ASTERISK, 98] = some m ∧
      (∀ line, matchLine m line =
        .ok (decide (2 ≤ line.length ∧ line.head? = some 97 ∧ line.getLast? = some 98))) ∧
      matchLine m [97, 98] = .ok true ∧ matchLine m [97, 88, 98] = .ok true ∧
      matchLine m [97, 88, 88, 98] = .ok true ∧ matchLine m [98, 97] = .ok false ∧
      matchLine m [97] = .ok false := by
  have h0 : ∀ c ∈ [97, ASTERISK, 98], c ≠ 0 := by decide
  obtain ⟨m, hb⟩ := build_isSome [97, ASTERISK, 98] h0 (by simp)
  have hs := build_sized _ m hb
  have hc := build_chain _ m hb
  have hcomp : compile [97, ASTERISK, 98] false = [⟨97, false⟩, ⟨98, true⟩] := by decide
  rw [hcomp] at hc
  have hcap : m.m_stateDoubleBuffer.1.buffer.length = 2 := by
    have hb' : build [97, ASTERISK, 98] = some
        { chain := [⟨97, false⟩, ⟨98, true⟩]
          m_stateDoubleBuffer := (⟨[some 0, none], 1⟩, ⟨[none, none], 0⟩)
          m_currentStepStates := 0
          m_currentStatus := .KeepGoing
          m_fragileSuccess := false } := by rfl
    rw [hb] at hb'
    simp only [Option.some.injEq] at hb'
    rw [hb']
    rfl
  have key : ∀ line, matchLine m line =
      .ok (decide (2 ≤ line.length ∧ line.head? = some 97 ∧ line.getLast? = some 98)) := by
    intro line
    have hfit := idealFits_of_length_le m.chain 2 (by simp [hc]) line [0] false (by simp)
      (by intro q hq; simp at hq; subst hq; simp [hc])
    rw [matchLine_verdict _ h0 m hb line, hcap, hfit]
    simp only [if_true]
    congr 1
    cases line with
    | nil => simp [globMatch, ASTERISK]
    | cons c w =>
      have hg : globMatch [97, ASTERISK, 98] (c :: w) =
          (decide (97 = c) && starMatch (globMatch [98]) w) := by
        simp [globMatch, ASTERISK, QUESTION]
      rw [hg, starMatch_last 98 (by decide) (by decide) w]
      cases w with
      | nil => simp
      | cons d w' =>
        simp only [List.getLast?_cons_cons, List.length_cons, List.head?_cons,
          Option.some.injEq]
        by_cases hc97 : c = 97
        · subst hc97; simp
        · have : ¬ 97 = c := fun h => hc97 h.symm
          simp [hc97, this]
  refine ⟨m, hb, key, ?_, ?_, ?_, ?_, ?_⟩ <;> rw [key] <;> simp

/-- C10: for the filter `?` the matcher reports a match exactly on the lines of one
byte, whatever the byte; the empty line and the lines of two or more bytes do not
match. -/
theorem C10_question_matches_single_byte :
    ∃ m, build [QUESTION] = some m ∧
      ∀ line, matchLine m line = .ok (decide (line.length = 1)) := by
  have h0 : ∀ c ∈ [QUESTION], c ≠ 0 := by decide
  obtain ⟨m, hb⟩ := build_isSome [QUESTION] h0 (by simp)
  have hs := build_sized _ m hb
  have hc := build_chain _ m hb
  have hcomp : compile [QUESTION] false = [⟨0, false⟩] := by decide
  rw [hcomp] at hc
  refine ⟨m, hb, fun line => ?_⟩
  have hfit := idealFits_of_no_persistent m.chain _ hs.2.2.1 (by simp [hc]) line [0] false
    (by simp)
  rw [matchLine_verdict _ h0 m hb line, hfit]
  simp only [if_true]
  congr 1
  cases line with
  | nil => simp [globMatch_question_nil]
  | cons c w =>
    rw [globMatch_question_cons]
    cases w <;> simp [globMatch]

/-- C9: replacing a run of consecutive `*` by a single `*` anywhere in a filter gives
the same result of `build` (the same node chain and the same buffers, allocated with the
same concurrency bound), hence the same verdict on every line; in particular `a**b`
and `a*b` have the same verdict on every line. -/
theorem C9_asterisk_runs_collapse (xs ys : List Nat) (k : Nat) :
    build (xs ++ (List.replicate (k + 1) ASTERISK ++ ys)) = build (xs ++ ASTERISK :: ys) ∧
    (∀ line, filterVerdict (xs ++ (List.replicate (k + 1) ASTERISK ++ ys)) line =
      filterVerdict (xs ++ ASTERISK :: ys) line) ∧
    (∀ line, filterVerdict [97, ASTERISK, ASTERISK, 98] line =
      filterVerdict [97, ASTERISK, 98] line) := by
  have hrun : ∀ (k : Nat) (xs ys : List Nat),
      build (xs ++ (List.replicate (k + 1) ASTERISK ++ ys)) = build (xs ++ ASTERISK :: ys) := by
    intro k xs ys
    apply build_congr
    apply scanFilter_append_congr
    intro chain pending n
    rw [scanFilter_asterisk_run, scanFilter_asterisk]
  refine ⟨hrun k xs ys, fun line => ?_, fun line => ?_⟩
  · unfold filterVerdict
    rw [hrun k xs ys]
  · unfold filterVerdict
    have := hrun 1 [97] [98]
    simp only [List.replicate, List.cons_append, List.nil_append] at this
    rw [this]

/-- C5 fails on the code: for the filter `*aab` both active-state buffers are allocated
with 2 entries; after `reset` and the byte `a` the current buffer holds 2 live entries,
and on the next byte `a` the third entry is written at index 2, outside the buffer. -/
theorem C5_active_buffer_overrun :
    ∃ m m1, build [ASTERISK, 97, 97, 98] = some m ∧
      m.m_stateDoubleBuffer.1.buffer.length = 2 ∧ m.m_stateDoubleBuffer.2.buffer.length = 2 ∧
      processSymbol (reset m) 97 = .ok (.KeepGoing, m1) ∧
      (m1.pack m1.m_currentStepStates).count = 2 ∧
      processSymbol m1 97 = .error (.bufferOverrun 2 2) :=
  ⟨_, _, rfl, rfl, rfl, rfl, rfl, rfl⟩

/-- C3 fails on the code: the line `aab` matches the filter `*aab` under glob semantics,
but the matcher writes outside its active-state buffer on the second byte and gives no
verdict. -/
theorem C3_verdict_lost_to_overrun :
    globMatch [ASTERISK, 97, 97, 98] [97, 97, 98] = true ∧
      filterVerdict [ASTERISK, 97, 97, 98] [97, 97, 98] =
        some (.error (.bufferOverrun 2 2)) :=
  ⟨rfl, rfl⟩

/-- C1 fails on the code: on a file whose only line is `aab`, with the filter `*aab` and
a buffer of 8 bytes, the first `GetNextLine` call writes outside the active-state buffer
of the matcher instead of delivering the line. -/
theorem C1_scan_lost_to_overrun :
    globMatch [ASTERISK, 97, 97, 98] [97, 97, 98] = true ∧
      (openReader [97, 97, 98] 65536 [ASTERISK, 97, 97, 98]).GetNextLine
        [0, 0, 0, 0, 0, 0, 0, 0] 8 = some (.error (.bufferOverrun 2 2)) :=
  ⟨rfl, rfl⟩

/-- C2 fails on the code: on the five-line file `a`, `b`, `c`, `d`, `e` with the filter
`*` and a buffer of 4 bytes, the first five calls deliver the five lines, and the sixth
and seventh calls return true again, with an empty line in the buffer. -/
theorem C2_asterisk_never_exhausts :
    successiveCalls 4 7
      (openReader [97, CR, LF, 98, CR, LF, 99, CR, LF, 100, CR, LF, 101] 65536 [ASTERISK])
      [7, 7, 7, 7] =
      [(true, [97, 0, 7, 7]), (true, [98, 0, 7, 7]), (true, [99, 0, 7, 7]),
       (true, [100, 0, 7, 7]), (true, [101, 0, 7, 7]), (true, [0, 0, 7, 7]),
       (true, [0, 0, 7, 7])] := by
  rfl

/-- C4 fails on the code: on a file whose only line is `ab`, with the filter `a`,
capacity 1 and a buffer of 2 bytes (one more than the capacity, as `wmain` allocates it),
`GetNextLine` returns true with the byte `a` in the buffer: no zero terminator is
written, and the only line of the file does not match the filter. -/
theorem C4_true_without_terminator :
    globMatch [97] [97, 98] = false ∧
      ∃ r, (openReader [97, 98] 65536 [97]).GetNextLine [7, 7] 1 =
        some (.ok (true, [97, 7], r)) :=
  ⟨rfl, _, rfl⟩

theorem compile_pending_ne_nil (filter : List Nat) : compile filter true ≠ [] := by
  induction filter with
  | nil => simp [compile, closeChain]
  | cons c rest ih =>
    unfold compile
    split
    · simp [closeChain]
    · split
      · simp
      · split
        · exact ih
        · simp

theorem compile_eq_nil_iff (filter : List Nat) :
    compile filter false = [] ↔ filter.takeWhile (fun c => decide (c ≠ 0)) = [] := by
  cases filter with
  | nil => simp [compile, closeChain]
  | cons c rest =>
    unfold compile
    by_cases h0 : c = 0
    · simp [h0, closeChain]
    · rw [if_neg h0]
      have ht : (c :: rest).takeWhile (fun c => decide (c ≠ 0)) ≠ [] := by
        simp [List.takeWhile, h0]
      simp only [ht, iff_false]
      split
      · simp
      · split
        · exact compile_pending_ne_nil rest
        · simp

theorem build_eq_none_iff (filter : List Nat) :
    build filter = none ↔ compile filter false = [] := by
  have hs := scanFilter_compile filter [] false 0
  simp only [List.nil_append] at hs
  unfold build
  simp only [hs]
  cases hc : compile filter false with
  | nil => simp
  | cons a l => simp

/-- C13: with allocation taken to succeed, `build` (and with it `SetFilter`) fails
exactly on the empty string, that is when no character stands before the terminating
zero; every other filter compiles to a chain that is not empty, in particular every
filter made of `*` characters only. -/
theorem C13_build_fails_iff_empty (filter : List Nat) :
    (build filter = none ↔ filter.takeWhile (fun c => decide (c ≠ 0)) = []) ∧
    (∀ r : CLogReader, (r.SetFilter filter).1 = false ↔
      filter.takeWhile (fun c => decide (c ≠ 0)) = []) ∧
    (∀ m, build filter = some m → m.chain ≠ []) ∧
    (∀ k, ∃ m, build (List.replicate (k + 1) ASTERISK) = some m ∧ m.chain ≠ []) := by
  have h1 : build filter = none ↔ filter.takeWhile (fun c => decide (c ≠ 0)) = [] := by
    rw [build_eq_none_iff, compile_eq_nil_iff]
  have h3 : ∀ f m, build f = some m → m.chain ≠ [] :=
    fun f m hb => (build_sized f m hb).2.2.2
  refine ⟨h1, fun r => ?_, h3 filter, fun k => ?_⟩
  · rw [← h1]
    cases hb : build filter <;> simp [CLogReader.SetFilter, hb]
  · cases hb : build (List.replicate (k + 1) ASTERISK) with
    | none =>
      rw [build_eq_none_iff, compile_eq_nil_iff] at hb
      simp [List.replicate_succ, List.takeWhile, ASTERISK] at hb
    | some m => exact ⟨m, rfl, h3 _ m hb⟩

/-- C15: once the status is `MatchFailed` or `SuccessSkipTheRest`, `processSymbol`
returns that status on every byte and leaves the session as it is (buffers, counts,
current index, status and flag), so the answer of `isMatchSuccessful` does not change. -/
theorem C15_terminal_status_is_inert (m : StateMachine) (symbol : Nat)
    (h : m.m_currentStatus = .MatchFailed ∨ m.m_currentStatus = .SuccessSkipTheRest) :
    processSymbol m symbol = .ok (m.m_currentStatus, m) ∧
      ∀ s m', processSymbol m symbol = .ok (s, m') →
        s = m.m_currentStatus ∧ m' = m ∧ isMatchSuccessful m' = isMatchSuccessful m := by
  have hp : processSymbol m symbol = .ok (m.m_currentStatus, m) := by
    rcases h with h | h <;> simp [processSymbol, h]
  refine ⟨hp, fun s m' hs => ?_⟩
  rw [hp] at hs
  simp only [Except.ok.injEq, Prod.mk.injEq] at hs
  obtain ⟨h1, h2⟩ := hs
  subst h1 h2
  exact ⟨rfl, rfl, rfl⟩

/-- C15 at the session of the filter `a` after the bytes `b`, `c`. -/
theorem C15_terminal_status_witness :
    ((⟨[⟨97, false⟩], (⟨[some 0], 0⟩, ⟨[none], 0⟩), 1, .MatchFailed, false⟩ :
        StateMachine).m_currentStatus = .MatchFailed ∨
      (⟨[⟨97, false⟩], (⟨[some 0], 0⟩, ⟨[none], 0⟩), 1, .MatchFailed, false⟩ :
        StateMachine).m_currentStatus = .SuccessSkipTheRest) ∧
    (processSymbol ⟨[⟨97, false⟩], (⟨[some 0], 0⟩, ⟨[none], 0⟩), 1, .MatchFailed, false⟩ 100 =
        .ok (.MatchFailed, ⟨[⟨97, false⟩], (⟨[some 0], 0⟩, ⟨[none], 0⟩), 1, .MatchFailed, false⟩) ∧
      ∀ s m', processSymbol
          ⟨[⟨97, false⟩], (⟨[some 0], 0⟩, ⟨[none], 0⟩), 1, .MatchFailed, false⟩ 100 = .ok (s, m') →
        s = .MatchFailed ∧
          m' = ⟨[⟨97, false⟩], (⟨[some 0], 0⟩, ⟨[none], 0⟩), 1, .MatchFailed, false⟩ ∧
          isMatchSuccessful m' = isMatchSuccessful
            ⟨[⟨97, false⟩], (⟨[some 0], 0⟩, ⟨[none], 0⟩), 1, .MatchFailed, false⟩) :=
  ⟨Or.inl rfl, C15_terminal_status_is_inert
    ⟨[⟨97, false⟩], (⟨[some 0], 0⟩, ⟨[none], 0⟩), 1, .MatchFailed, false⟩ 100 (Or.inl rfl)⟩

theorem compile_skip_count (filter : List Nat) :
    ∀ pending, (compile filter pending).countP
      (fun s => s.isPersistent && decide (s.symbol = 0)) ≤ 1 := by
  induction filter with
  | nil => intro pending; cases pending <;> simp [compile, closeChain]
  | cons c rest ih =>
    intro pending
    unfold compile
    by_cases h0 : c = 0
    · rw [if_pos h0]; cases pending <;> simp [closeChain]
    · rw [if_neg h0]
      split
      · simpa [List.countP_cons] using ih pending
      · split
        · exact ih true
        · simpa [List.countP_cons, h0] using ih false

theorem compile_node_kinds (filter : List Nat) :
    ∀ pending, ∀ s ∈ compile filter pending,
      (s.isPersistent = true ∧ s.symbol = 0) ∨ (s.isPersistent = false ∧ s.symbol = 0) ∨
        (s.symbol ≠ 0 ∧ s.symbol ≠ QUESTION ∧ s.symbol ≠ ASTERISK) := by
  induction filter with
  | nil =>
    intro pending s hs
    cases pending <;> simp [compile, closeChain] at hs
    subst hs
    exact Or.inl ⟨rfl, rfl⟩
  | cons c rest ih =>
    intro pending s hs
    unfold compile at hs
    by_cases h0 : c = 0
    · rw [if_pos h0] at hs
      cases pending <;> simp [closeChain] at hs
      subst hs
      exact Or.inl ⟨rfl, rfl⟩
    · rw [if_neg h0] at hs
      by_cases hq : c = QUESTION
      · rw [if_pos hq] at hs
        simp only [List.mem_cons] at hs
        rcases hs with rfl | hs
        · exact Or.inr (Or.inl ⟨rfl, rfl⟩)
        · exact ih pending s hs
      · rw [if_neg hq] at hs
        by_cases ha : c = ASTERISK
        · rw [if_pos ha] at hs
          exact ih true s hs
        · rw [if_neg ha] at hs
          simp only [List.mem_cons] at hs
          rcases hs with rfl | hs
          · exact Or.inr (Or.inr ⟨h0, hq, ha⟩)
          · exact ih false s hs

/-- C16: the chain of a filter that compiles holds at most one node that is persistent
without a symbol, such a node is the last node of the chain, and every node is of one of
three kinds: persistent without a symbol, not persistent without a symbol (the
wildcard of `?`), or a literal whose symbol is neither zero nor `?` nor `*`. -/
theorem C16_skip_node_only_last (filter : List Nat) (m : StateMachine)
    (h : build filter = some m) :
    m.chain.countP (fun s => s.isPersistent && decide (s.symbol = 0)) ≤ 1 ∧
    (∀ q s, m.chain[q]? = some s → s.isPersistent = true → s.symbol = 0 →
      q + 1 = m.chain.length) ∧
    (∀ s ∈ m.chain,
      (s.isPersistent = true ∧ s.symbol = 0) ∨ (s.isPersistent = false ∧ s.symbol = 0) ∨
        (s.symbol ≠ 0 ∧ s.symbol ≠ QUESTION ∧ s.symbol ≠ ASTERISK)) := by
  have hc := build_chain filter m h
  rw [hc]
  refine ⟨compile_skip_count filter false, fun q s hs hp hz => ?_,
    compile_node_kinds filter false⟩
  exact skipNodeLast_compile filter false q ((isSkipNode_iff _ q s hs).2 ⟨hp, hz⟩)

/-- C16 at the filter `a*`. -/
theorem C16_skip_node_witness :
    build [97, ASTERISK] = some
        ⟨[⟨97, false⟩, ⟨0, true⟩], (⟨[some 0], 1⟩, ⟨[none], 0⟩), 0, .KeepGoing, false⟩ ∧
    ([⟨97, false⟩, ⟨0, true⟩] : List SingleState).countP
        (fun s => s.isPersistent && decide (s.symbol = 0)) ≤ 1 ∧
    (∀ q s, ([⟨97, false⟩, ⟨0, true⟩] : List SingleState)[q]? = some s →
      s.isPersistent = true → s.symbol = 0 →
      q + 1 = ([⟨97, false⟩, ⟨0, true⟩] : List SingleState).length) ∧
    (∀ s ∈ ([⟨97, false⟩, ⟨0, true⟩] : List SingleState),
      (s.isPersistent = true ∧ s.symbol = 0) ∨ (s.isPersistent = false ∧ s.symbol = 0) ∨
        (s.symbol ≠ 0 ∧ s.symbol ≠ QUESTION ∧ s.symbol ≠ ASTERISK)) :=
  ⟨rfl, C16_skip_node_only_last [97, ASTERISK] _ rfl⟩

theorem scanFilter_count (filter : List Nat) :
    ∀ (chain : List SingleState) (pending : Bool) (n : Nat),
      (scanFilter filter chain pending n).2.2 =
        n + 2 * (compile filter pending).countP
          (fun s => s.isPersistent && decide (s.symbol ≠ 0)) := by
  induction filter with
  | nil =>
    intro chain pending n
    cases pending <;> simp [scanFilter, compile, closeChain]
  | cons c rest ih =>
    intro chain pending n
    unfold scanFilter compile
    by_cases h0 : c = 0
    · rw [if_pos h0, if_pos h0]
      cases pending <;> simp [closeChain]
    · rw [if_neg h0, if_neg h0]
      by_cases hq : c = QUESTION
      · rw [if_pos hq, if_pos hq, ih]
        simp [List.countP_cons]
      · rw [if_neg hq, if_neg hq]
        by_cases ha : c = ASTERISK
        · rw [if_pos ha, if_pos ha, ih]
        · rw [if_neg ha, if_neg ha, ih]
          cases pending
          · simp [List.countP_cons]
          · simp [List.countP_cons, h0]
            omega

/-- C17 fails as stated: the filter `*` compiles to one persistent node, so the claimed
bound is 2, and the buffers are allocated with 1 entry. -/
theorem C17_bound_skips_the_last_node :
    ∃ m, build [ASTERISK] = some m ∧
      m.m_stateDoubleBuffer.1.buffer.length = 1 ∧ m.m_stateDoubleBuffer.2.buffer.length = 1 ∧
      max 1 (2 * m.chain.countP (fun s => s.isPersistent)) = 2 :=
  ⟨_, rfl, rfl, rfl, rfl⟩

/-- C17 as amended: both active-state buffers of a filter that compiles are allocated
with max(1, 2 × p) entries, where p is the number of persistent nodes of the chain that
carry a symbol (the literals that follow a `*`); the persistent node without a symbol
that ends the chain of a filter ending in `*` is not counted. -/
theorem C17_bound_counts_persistent_literals (filter : List Nat) (m : StateMachine)
    (h : build filter = some m) :
    m.m_stateDoubleBuffer.1.buffer.length =
        max 1 (2 * m.chain.countP (fun s => s.isPersistent && decide (s.symbol ≠ 0))) ∧
    m.m_stateDoubleBuffer.2.buffer.length =
        max 1 (2 * m.chain.countP (fun s => s.isPersistent && decide (s.symbol ≠ 0))) := by
  have hc := build_chain filter m h
  have hn := scanFilter_count filter [] false 0
  rw [← hc] at hn
  unfold build at h
  simp only at h
  split at h
  · simp at h
  · simp only [Option.some.injEq] at h
    rw [← h] at hn ⊢
    simp only [List.length_set, List.length_replicate, Nat.zero_add] at hn ⊢
    rw [hn]
    constructor <;> split <;> omega

/-- C17 as amended, at the filter `*a*`. -/
theorem C17_bound_witness :
    build [ASTERISK, 97, ASTERISK] = some
        ⟨[⟨97, true⟩, ⟨0, true⟩], (⟨[some 0, none], 1⟩, ⟨[none, none], 0⟩), 0, .KeepGoing,
          false⟩ ∧
    ([some 0, none] : List (Option Nat)).length =
        max 1 (2 * ([⟨97, true⟩, ⟨0, true⟩] : List SingleState).countP
          (fun s => s.isPersistent && decide (s.symbol ≠ 0))) ∧
    ([none, none] : List (Option Nat)).length =
        max 1 (2 * ([⟨97, true⟩, ⟨0, true⟩] : List SingleState).countP
          (fun s => s.isPersistent && decide (s.symbol ≠ 0))) :=
  ⟨rfl, C17_bound_counts_persistent_literals [ASTERISK, 97, ASTERISK] _ rfl⟩

theorem push_length (p p' : StatePack) (q : Nat) (h : p.push q = .ok p') :
    p'.buffer.length = p.buffer.length := by
  unfold StatePack.push at h
  split at h
  · simp only [Except.ok.injEq] at h
    rw [← h]
    simp
  · simp at h

theorem advanceState_length (chain : List SingleState) (c q : Nat) (s : SingleState)
    (next : StatePack) (fr : Bool) (r : StatePack × Bool)
    (h : advanceState chain c q s next fr = .ok r) :
    r.1.buffer.length = next.buffer.length := by
  unfold advanceState at h
  split at h
  · split at h
    · split at h
      · rename_i next' hp
        simp only [Except.ok.injEq] at h
        rw [← h]
        exact push_length _ _ _ hp
      · simp at h
    · simp only [Except.ok.injEq] at h
      rw [← h]
  · simp only [Except.ok.injEq] at h
    rw [← h]

theorem processState_length (chain : List SingleState) (c q : Nat) (s : SingleState)
    (next : StatePack) (fr : Bool) (r : StatePack × Bool)
    (h : processState chain c q s next fr = .ok (some r)) :
    r.1.buffer.length = next.buffer.length := by
  unfold processState at h
  split at h
  · split at h
    · simp at h
    · split at h
      · split at h
        · rename_i next' hp
          split at h
          · rename_i r' ha
            simp only [Except.ok.injEq, Option.some.injEq] at h
            rw [← h, advanceState_length _ _ _ _ _ _ _ ha, push_length _ _ _ hp]
          · simp at h
        · simp at h
      · split at h
        · rename_i r' ha
          simp only [Except.ok.injEq, Option.some.injEq] at h
          rw [← h, advanceState_length _ _ _ _ _ _ _ ha]
        · simp at h
  · split at h
    · rename_i r' ha
      simp only [Except.ok.injEq, Option.some.injEq] at h
      rw [← h, advanceState_length _ _ _ _ _ _ _ ha]
    · simp at h

theorem processLoop_length (chain : List SingleState) (c : Nat) (cur : StatePack) :
    ∀ (k i : Nat) (next : StatePack) (fr : Bool) (r : StatePack × Bool × Bool),
      processLoop chain c cur k i next fr = .ok r → r.1.buffer.length = next.buffer.length := by
  intro k
  induction k with
  | zero =>
    intro i next fr r h
    simp only [processLoop, Except.ok.injEq] at h
    rw [← h]
  | succ k ih =>
    intro i next fr r h
    unfold processLoop at h
    split at h
    · simp at h
    · split at h
      · simp at h
      · simp only [Except.ok.injEq] at h
        rw [← h]
      · rename_i next' fr' hst
        rw [ih _ _ _ _ h, processState_length _ _ _ _ _ _ _ hst]

theorem processSymbol_sized (cap : Nat) (m m' : StateMachine) (c : Nat)
    (s : SymbolProcessStatus) (h : processSymbol m c = .ok (s, m')) (hs : Sized cap m) :
    Sized cap m' := by
  obtain ⟨h1, h2, h3, h4⟩ := hs
  unfold processSymbol at h
  simp only at h
  split at h
  · simp only [Except.ok.injEq, Prod.mk.injEq] at h
    rw [← h.2]
    exact ⟨h1, h2, h3, h4⟩
  · split at h
    · simp only [Except.ok.injEq, Prod.mk.injEq] at h
      rw [← h.2]
      exact ⟨h1, h2, h3, h4⟩
    · split at h
      · simp at h
      · rename_i next fr hl
        have hlen := processLoop_length _ _ _ _ _ _ _ _ hl
        simp only at hlen
        simp only [Except.ok.injEq, Prod.mk.injEq] at h
        rw [← h.2]
        by_cases hc : m.m_currentStepStates = 0
        · simp only [hc, StateMachine.pack] at hlen
          simp at hlen
          refine ⟨?_, ?_, h3, ?_⟩ <;> simp [StateMachine.setPack, hc, h1, h2, hlen, h4]
        · have hc1 : 1 - m.m_currentStepStates = 0 := by omega
          simp only [hc1, StateMachine.pack] at hlen
          simp at hlen
          refine ⟨?_, ?_, h3, ?_⟩ <;> simp [StateMachine.setPack, hc, hc1, h1, h2, hlen, h4]
      · rename_i next fr hl
        have hlen := processLoop_length _ _ _ _ _ _ _ _ hl
        simp only at hlen
        simp only [Except.ok.injEq, Prod.mk.injEq] at h
        rw [← h.2]
        by_cases hc : m.m_currentStepStates = 0
        · simp only [hc, StateMachine.pack] at hlen
          simp at hlen
          refine ⟨?_, ?_, h3, ?_⟩ <;>
            simp [StateMachine.setPack, StateMachine.pack, hc, h1, h2, hlen, h4]
        · have hc1 : 1 - m.m_currentStepStates = 0 := by omega
          simp only [hc1, StateMachine.pack] at hlen
          simp at hlen
          refine ⟨?_, ?_, h3, ?_⟩ <;>
            simp [StateMachine.setPack, StateMachine.pack, hc, hc1, h1, h2, hlen, h4]

theorem processSymbol_chain (m m' : StateMachine) (c : Nat) (s : SymbolProcessStatus)
    (h : processSymbol m c = .ok (s, m')) : m'.chain = m.chain := by
  unfold processSymbol at h
  simp only at h
  split at h
  · simp only [Except.ok.injEq, Prod.mk.injEq] at h
    rw [← h.2]
  · split at h
    · simp only [Except.ok.injEq, Prod.mk.injEq] at h
      rw [← h.2]
    · split at h
      · simp at h
      · simp only [Except.ok.injEq, Prod.mk.injEq] at h
        rw [← h.2]
        simp only [StateMachine.setPack]
        split <;> rfl
      · simp only [Except.ok.injEq, Prod.mk.injEq] at h
        rw [← h.2]
        simp only [StateMachine.setPack]
        split <;> split <;> rfl

theorem reset_sized (cap : Nat) (m : StateMachine) (hs : Sized cap m) :
    Sized cap (reset m) ∧ (reset m).chain = m.chain := by
  obtain ⟨h1, h2, h3, h4⟩ := hs
  exact ⟨⟨by simp [reset, h1], by simp [reset, h2], h3, by simpa [reset] using h4⟩, rfl⟩

theorem feed_sized (cap : Nat) (w : List Nat) :
    ∀ (m m' : StateMachine), feed m w = .ok m' → Sized cap m →
      Sized cap m' ∧ m'.chain = m.chain := by
  induction w with
  | nil =>
    intro m m' h hs
    simp only [feed, Except.ok.injEq] at h
    rw [← h]
    exact ⟨hs, rfl⟩
  | cons c w ih =>
    intro m m' h hs
    unfold feed at h
    split at h
    · rename_i s m1 hp
      have h1 := ih m1 m' h (processSymbol_sized cap m m1 c s hp hs)
      exact ⟨h1.1, h1.2.trans (processSymbol_chain m m1 c s hp)⟩
    · simp at h

theorem replay_sized (cap : Nat) (lines : List (List Nat)) :
    ∀ (m m' : StateMachine), replay m lines = .ok m' → Sized cap m →
      Sized cap m' ∧ m'.chain = m.chain := by
  induction lines with
  | nil =>
    intro m m' h hs
    simp only [replay, Except.ok.injEq] at h
    rw [← h]
    exact ⟨hs, rfl⟩
  | cons line rest ih =>
    intro m m' h hs
    unfold replay at h
    split at h
    · rename_i m1 hf
      have hr := reset_sized cap m hs
      have h1 := feed_sized cap line (reset m) m1 hf hr.1
      have h2 := ih m1 m' h h1.1
      exact ⟨h2.1, h2.2.trans (h1.2.trans hr.2)⟩
    · simp at h

theorem reset_build (filter : List Nat) (m : StateMachine) (h : build filter = some m) :
    reset m = m := by
  unfold build at h
  simp only at h
  split at h
  · simp at h
  · simp only [Option.some.injEq] at h
    rw [← h]
    simp [reset]

theorem tracks_status {chain : List SingleState} {cap : Nat} {m : StateMachine} {st : Ideal}
    (h : Tracks chain cap m st) : m.m_currentStatus = st.status := by
  cases st with
  | active L fr => exact h.2.2.1
  | skipped => exact h.2
  | failed => exact h.2.1

theorem feedStatuses_tracks {chain : List SingleState} {cap : Nat} (w : List Nat) :
    ∀ {m : StateMachine} {st : Ideal}, Tracks chain cap m st →
      (feedStatuses m w).map Prod.fst =
        if idealFits chain cap st w then .ok (idealStatuses chain st w)
        else .error (.bufferOverrun cap cap) := by
  induction w with
  | nil =>
    intro m st _
    simp [feedStatuses, idealFits, idealStatuses, Except.map]
  | cons c w ih =>
    intro m st h
    have hstep := processSymbol_tracks h c
    rw [idealFits_cons]
    cases h1 : idealFits chain cap st [c] with
    | false => simp [feedStatuses, hstep.2 h1, Except.map]
    | true =>
      obtain ⟨m1, hm1, ht1⟩ := hstep.1 h1
      have ih1 := ih ht1
      simp only [feedStatuses, hm1, Bool.true_and, idealStatuses]
      rw [tracks_status ht1]
      cases hf : feedStatuses m1 w with
      | error e =>
        rw [hf] at ih1
        split at ih1 <;> simp_all [Except.map]
      | ok r =>
        rw [hf] at ih1
        split at ih1 <;> simp_all [Except.map]

theorem verdictAfter_tracks {chain : List SingleState} {cap : Nat} {m : StateMachine}
    {st : Ideal} (h : Tracks chain cap m st) (w : List Nat) :
    verdictAfter m w =
      if idealFits chain cap st w then .ok (idealAccepts chain (idealFeed chain st w))
      else .error (.bufferOverrun cap cap) := by
  have ht := feed_tracks w h
  unfold verdictAfter
  cases hfit : idealFits chain cap st w with
  | true =>
    obtain ⟨m', hm', ht'⟩ := ht.1 hfit
    simp [hm', isMatchSuccessful_tracks ht']
  | false => simp [ht.2 hfit]

/-- After `reset`, a session behaves as the start of the unbounded lists says, whatever
was left in it. -/
theorem reset_behaviour (cap : Nat) (m1 m2 : StateMachine) (h1 : Sized cap m1)
    (h2 : Sized cap m2) (hc : m1.chain = m2.chain) (w : List Nat) :
    (feedStatuses (reset m1) w).map Prod.fst = (feedStatuses (reset m2) w).map Prod.fst ∧
      verdictAfter (reset m1) w = verdictAfter (reset m2) w := by
  have t1 := reset_tracks h1
  have t2 := reset_tracks h2
  rw [hc] at t1
  exact ⟨by rw [feedStatuses_tracks w t1, feedStatuses_tracks w t2],
    by rw [verdictAfter_tracks t1 w, verdictAfter_tracks t2 w]⟩

/-- After a history of `processSymbol` calls on a compiled session, or a history of
candidate lines each preceded by `reset`, that makes no store outside the buffers,
`reset` puts the session into a state from which every byte sequence gives the same
`processSymbol` statuses and the same answer of `isMatchSuccessful` as on the freshly
compiled session. -/
theorem reset_forgets_returned_history (filter : List Nat) (m : StateMachine)
    (h : build filter = some m) :
    (∀ history m', feed m history = .ok m' → ∀ w,
      (feedStatuses (reset m') w).map Prod.fst = (feedStatuses m w).map Prod.fst ∧
        verdictAfter (reset m') w = verdictAfter m w) ∧
    (∀ lines m', replay m lines = .ok m' → ∀ w,
      (feedStatuses (reset m') w).map Prod.fst = (feedStatuses m w).map Prod.fst ∧
        verdictAfter (reset m') w = verdictAfter m w) := by
  have hs := build_sized filter m h
  have hr := reset_build filter m h
  constructor
  · intro history m' hf w
    have h1 := feed_sized _ history m m' hf hs
    have := reset_behaviour _ m' m h1.1 hs h1.2 w
    rwa [hr] at this
  · intro lines m' hf w
    have h1 := replay_sized _ lines m m' hf hs
    have := reset_behaviour _ m' m h1.1 hs h1.2 w
    rwa [hr] at this

/-- The filter `a*b`, whose histories all stay within the buffers. -/
theorem reset_forgets_returned_history_at_a_star_b :
    build [97, ASTERISK, 98] = some sessionAStarB ∧
    ((∀ history m', feed sessionAStarB history = .ok m' → ∀ w,
      (feedStatuses (reset m') w).map Prod.fst = (feedStatuses sessionAStarB w).map Prod.fst ∧
        verdictAfter (reset m') w = verdictAfter sessionAStarB w) ∧
    (∀ lines m', replay sessionAStarB lines = .ok m' → ∀ w,
      (feedStatuses (reset m') w).map Prod.fst = (feedStatuses sessionAStarB w).map Prod.fst ∧
        verdictAfter (reset m') w = verdictAfter sessionAStarB w)) :=
  ⟨rfl, reset_forgets_returned_history [97, ASTERISK, 98] sessionAStarB rfl⟩

theorem idealStep_ordered (chain : List SingleState) (st : Ideal) (c : Nat)
    (h : st.Ordered chain) : (idealStep chain st c).Ordered chain := by
  cases st with
  | skipped => trivial
  | failed => trivial
  | active L fr =>
    cases L with
    | nil => trivial
    | cons q L =>
      simp only [idealStep]
      split
      · trivial
      · exact ⟨idealLoop_sorted chain c (q :: L) [] false h.1 (by simp) (by simp),
          idealLoop_valid chain c (q :: L) [] false h.2 (by simp)⟩

theorem idealFeed_ordered (chain : List SingleState) (w : List Nat) :
    ∀ st : Ideal, st.Ordered chain → (idealFeed chain st w).Ordered chain := by
  induction w with
  | nil => intro st h; exact h
  | cons c w ih => intro st h; exact ih _ (idealStep_ordered chain st c h)

theorem ordered_session {chain : List SingleState} {cap : Nat} {m : StateMachine} {st : Ideal}
    (ht : Tracks chain cap m st) (ho : st.Ordered chain) (hwf : SkipNodeLast chain)
    (hk : m.m_currentStatus = .KeepGoing) :
    ∃ L : List Nat, (m.pack m.m_currentStepStates).count = L.length ∧
      (m.pack m.m_currentStepStates).buffer.take L.length = L.map some ∧
      L.Pairwise (· < ·) ∧ L.Nodup ∧
      ∀ q ∈ L, isSkipNode m.chain q = true → L.getLast? = some q := by
  cases st with
  | skipped => rw [ht.2] at hk; exact absurd hk (by decide)
  | failed => rw [ht.2.1] at hk; exact absurd hk (by decide)
  | active L fr =>
    obtain ⟨h1, _, _, _, h5, _, _⟩ := ht
    obtain ⟨hs, hv⟩ := ho
    obtain ⟨_, hcount, junk, hbuf⟩ := h5
    refine ⟨L, hcount, ?_, hs, hs.imp (fun h => Nat.ne_of_lt h), ?_⟩
    · rw [hbuf]
      have : L.length = (L.map some).length := by simp
      rw [this, List.take_left]
    · intro q hq hsk
      rw [h1] at hsk
      have hn := hwf q hsk
      rcases List.eq_nil_or_concat L with rfl | ⟨L', z, rfl⟩
      · simp at hq
      · rw [List.concat_eq_append] at hs hv hq ⊢
        have hbefore := (List.pairwise_append.1 hs).2.2
        have hz : z < chain.length := hv z (by simp)
        simp only [List.mem_append, List.mem_singleton] at hq
        rcases hq with hq | rfl
        · have := hbefore q hq z (by simp)
          omega
        · simp

/-- Whenever the bytes fed to a compiled session (fresh, or after a history of candidate
lines and a `reset`) make no store outside the buffers and leave it with status
`KeepGoing`, the live entries of the current active-state buffer are node positions in
strictly increasing order, hence without duplicates, so a persistent node without a
symbol that is active is the last live entry, the one `isMatchSuccessful` reads. -/
theorem active_nodes_increase_within_buffers (filter : List Nat) (m : StateMachine)
    (h : build filter = some m) (lines : List (List Nat)) (m0 : StateMachine)
    (h0 : replay m lines = .ok m0) (w : List Nat) (m' : StateMachine)
    (hf : feed (reset m0) w = .ok m') (hk : m'.m_currentStatus = .KeepGoing) :
    ∃ L : List Nat, (m'.pack m'.m_currentStepStates).count = L.length ∧
      (m'.pack m'.m_currentStepStates).buffer.take L.length = L.map some ∧
      L.Pairwise (· < ·) ∧ L.Nodup ∧
      ∀ q ∈ L, isSkipNode m'.chain q = true → L.getLast? = some q := by
  have hs := build_sized filter m h
  have hc := build_chain filter m h
  have h1 := replay_sized _ lines m m0 h0 hs
  have t0 := reset_tracks h1.1
  have hwf : SkipNodeLast m0.chain := by
    rw [h1.2, hc]
    exact skipNodeLast_compile filter false
  have hne : 0 < m0.chain.length := List.length_pos.mpr h1.1.2.2.2
  have ho : (Ideal.active [0] false).Ordered m0.chain :=
    ⟨by simp, by intro q hq; simp at hq; subst hq; exact hne⟩
  have ht := feed_tracks w t0
  cases hfit : idealFits m0.chain m.m_stateDoubleBuffer.1.buffer.length
      (.active [0] false) w with
  | false =>
    rw [ht.2 hfit] at hf
    simp at hf
  | true =>
    obtain ⟨m2, hm2, ht2⟩ := ht.1 hfit
    rw [hm2] at hf
    simp only [Except.ok.injEq] at hf
    subst hf
    exact ordered_session ht2 (idealFeed_ordered _ w _ ho) hwf hk

/-- The filter `*a*` after the byte `a`, where both nodes are active. -/
theorem active_nodes_increase_at_star_a_star :
    (build [ASTERISK, 97, ASTERISK] = some sessionStarAStar ∧
      replay sessionStarAStar [] = .ok sessionStarAStar ∧
      feed (reset sessionStarAStar) [97] = .ok sessionStarAStarAfterA ∧
      sessionStarAStarAfterA.m_currentStatus = .KeepGoing) ∧
    ∃ L : List Nat,
      (sessionStarAStarAfterA.pack sessionStarAStarAfterA.m_currentStepStates).count =
        L.length ∧
      (sessionStarAStarAfterA.pack sessionStarAStarAfterA.m_currentStepStates).buffer.take
        L.length = L.map some ∧
      L.Pairwise (· < ·) ∧ L.Nodup ∧
      ∀ q ∈ L, isSkipNode sessionStarAStarAfterA.chain q = true → L.getLast? = some q :=
  ⟨⟨rfl, rfl, rfl, rfl⟩,
    active_nodes_increase_within_buffers [ASTERISK, 97, ASTERISK] sessionStarAStar rfl []
      sessionStarAStar rfl [97] sessionStarAStarAfterA rfl rfl⟩

theorem budget_advance (fw : FileWrapper) (hpos : fw.m_curMemoryPos < fw.m_curMemoryEndPos) :
    ({ fw with m_curMemoryPos := fw.m_curMemoryPos + 1 } : FileWrapper).budget + 1 =
      fw.budget := by
  simp only [FileWrapper.budget]
  omega

theorem switchToNextChunk_failure (fw : FileWrapper) (fw1 : FileWrapper) :
    switchToNextChunk fw ≠ (.Failure, fw1) := by
  unfold switchToNextChunk unmapCurrentChunk mapNextChunk
  cases hb : fw.m_curChunkBaseAddress with
  | none =>
    by_cases hoff : fw.m_curChunkOffset ≥ fw.m_fileSize <;> simp [hb, hoff]
  | some b =>
    by_cases hoff : fw.m_curChunkOffset ≥ fw.m_fileSize <;> simp [hoff]

/-- The result of a read does not depend on the fuel, once there is enough of it. -/
theorem readNextSymbolAux_fuel :
    ∀ (f1 f2 : Nat) (fw : FileWrapper), 0 < fw.chunkSize → fw.budget ≤ f1 → fw.budget ≤ f2 →
      readNextSymbolAux f1 fw = readNextSymbolAux f2 fw := by
  intro f1
  induction f1 with
  | zero =>
    intro f2 fw _ hb
    simp [FileWrapper.budget] at hb
  | succ n ih =>
    intro f2 fw hcs hb1 hb2
    cases f2 with
    | zero => simp [FileWrapper.budget] at hb2
    | succ k =>
      unfold readNextSymbolAux
      by_cases hst : fw.m_currentStatus ≠ .Success
      · rw [if_pos hst, if_pos hst]
      · rw [if_neg hst, if_neg hst]
        by_cases hpos : fw.m_curMemoryPos < fw.m_curMemoryEndPos
        · rw [if_pos hpos, if_pos hpos]
          have hadv := budget_advance fw hpos
          simp only
          rw [ih k { fw with m_curMemoryPos := fw.m_curMemoryPos + 1 } hcs (by omega) (by omega)]
        · rw [if_neg hpos, if_neg hpos]
          rcases switchToNextChunk_cases fw hcs hpos with ⟨fw1, h1, _, _⟩ | ⟨fw1, h1, h2, h3, _⟩
          · rw [h1]
          · rw [h1]
            simp only
            exact ih k fw1 (by omega) (by omega) (by omega)

/-- The result of a skip does not depend on the fuel, once there is enough of it. -/
theorem skipCurrentLineAux_fuel :
    ∀ (f1 f2 : Nat) (fw : FileWrapper), 0 < fw.chunkSize → fw.budget ≤ f1 → fw.budget ≤ f2 →
      skipCurrentLineAux f1 fw = skipCurrentLineAux f2 fw := by
  intro f1
  induction f1 with
  | zero =>
    intro f2 fw _ hb
    simp [FileWrapper.budget] at hb
  | succ n ih =>
    intro f2 fw hcs hb1 hb2
    cases f2 with
    | zero => simp [FileWrapper.budget] at hb2
    | succ k =>
      unfold skipCurrentLineAux
      by_cases hst : fw.m_currentStatus ≠ .Success
      · rw [if_pos hst, if_pos hst]
      · rw [if_neg hst, if_neg hst]
        by_cases hpos : fw.m_curMemoryPos < fw.m_curMemoryEndPos
        · rw [if_pos hpos, if_pos hpos]
          have hadv := budget_advance fw hpos
          simp only
          rw [ih k { fw with m_curMemoryPos := fw.m_curMemoryPos + 1 } hcs (by omega) (by omega),
            readNextSymbolAux_fuel n k { fw with m_curMemoryPos := fw.m_curMemoryPos + 1 } hcs
              (by omega) (by omega)]
        · rw [if_neg hpos, if_neg hpos]
          rcases switchToNextChunk_cases fw hcs hpos with ⟨fw1, h1, _, _⟩ | ⟨fw1, h1, h2, h3, _⟩
          · rw [h1]
          · rw [h1]
            simp only
            exact ih k fw1 (by omega) (by omega) (by omega)

theorem wellFormed_latched (fw : FileWrapper) (s : SymbolReadStatus) (hcs : 0 < fw.chunkSize)
    (hfs : fw.m_fileSize = fw.content.length) (hs : s = .Failure ∨ s = .EndOfFile) :
    ({ fw with m_currentStatus := s } : FileWrapper).WellFormed := by
  refine ⟨hcs, hfs, ?_, ?_⟩
  · rcases hs with rfl | rfl <;> simp
  · rcases hs with rfl | rfl <;> simp

theorem readSpec_after_cr (r : List Nat) :
    ((readSpec r).1 ≠ .Success ∨ (readSpec r).2.1.getD 0 ≠ LF) ↔ r.head? ≠ some LF := by
  cases r with
  | nil => simp [readSpec]
  | cons d r' =>
    by_cases hd : d = CR
    · subst hd
      have h1 : (readSpec (CR :: r')).1 ≠ .Success := by
        cases r' with
        | nil => simp [readSpec]
        | cons e r'' => by_cases he : e = LF <;> simp [readSpec, he]
      constructor
      · intro _
        simp [CR, LF]
      · intro _
        exact Or.inl h1
    · simp [readSpec, hd]

theorem readSpec_cr (r : List Nat) :
    readSpec (CR :: r) =
      if r.head? = some LF then (.EndOfLine, none, r.tail) else (.Failure, none, []) := by
  cases r with
  | nil => simp [readSpec]
  | cons d r' => by_cases hd : d = LF <;> simp [readSpec, hd]

theorem readSpec_byte (c : Nat) (r : List Nat) (hc : c ≠ CR) :
    readSpec (c :: r) = (.Success, some c, r) := by
  simp [readSpec, hc]

theorem readSpec_lf (r : List Nat) (h : r.head? = some LF) :
    readSpec r = (.Success, some LF, r.tail) := by
  cases r with
  | nil => simp at h
  | cons d r' =>
    simp only [List.head?_cons, Option.some.injEq] at h
    subst h
    simp [readSpec, LF, CR]

theorem switchToNextChunk_view (fw : FileWrapper) (hwf : fw.WellFormed)
    (hst : fw.m_currentStatus = .Success) (hpos : ¬ fw.m_curMemoryPos < fw.m_curMemoryEndPos) :
    (fw.unread = [] ∧ ∃ u, switchToNextChunk fw = (.EndOfFile, u) ∧ u.content = fw.content ∧
        u.chunkSize = fw.chunkSize ∧ u.m_fileSize = fw.m_fileSize) ∨
    (∃ fw1, switchToNextChunk fw = (.Success, fw1) ∧ fw1.WellFormed ∧
        fw1.m_currentStatus = .Success ∧ fw1.unread = fw.unread ∧
        fw1.content = fw.content ∧ fw1.budget < fw.budget) := by
  obtain ⟨hcs, hfs, hne, hmap⟩ := hwf
  obtain ⟨b, hbase, hle, hend, hoff⟩ := hmap hst
  have hpe : fw.m_curMemoryPos = fw.m_curMemoryEndPos := by omega
  by_cases hge : fw.m_curChunkOffset ≥ fw.m_fileSize
  · left
    constructor
    · unfold FileWrapper.unread
      apply List.drop_eq_nil_of_le
      rw [hpe, hend, ← hfs]
      omega
    · refine ⟨{ fw with
        m_curChunkBaseAddress := none
        m_curMemoryPos := 0
        m_curMemoryEndPos := 0 }, ?_, rfl, rfl, rfl⟩
      simp [switchToNextChunk, unmapCurrentChunk, mapNextChunk, hbase, hge]
  · right
    refine ⟨{ fw with
        m_curChunkBaseAddress := some fw.m_curChunkOffset
        m_curMemoryPos := fw.m_curChunkOffset
        m_curMemoryEndPos := fw.m_curChunkOffset +
          (if fw.m_fileSize - fw.m_curChunkOffset > fw.chunkSize then fw.chunkSize
            else fw.m_fileSize - fw.m_curChunkOffset)
        m_curChunkOffset := fw.m_curChunkOffset + fw.chunkSize }, ?_, ?_, hst, ?_, rfl, ?_⟩
    · simp [switchToNextChunk, unmapCurrentChunk, mapNextChunk, hbase, hge]
    · refine ⟨hcs, hfs, hne, fun _ => ⟨fw.m_curChunkOffset, rfl, ?_, ?_, rfl⟩⟩
      · simp only
        omega
      · simp only
        split <;> omega
    · unfold FileWrapper.unread
      simp only
      congr 1
      omega
    · simp only [FileWrapper.budget]
      split <;> omega

theorem unread_cons (fw : FileWrapper) (hwf : fw.WellFormed)
    (hst : fw.m_currentStatus = .Success) (hpos : fw.m_curMemoryPos < fw.m_curMemoryEndPos) :
    fw.unread = fw.content.getD fw.m_curMemoryPos 0 ::
      ({ fw with m_curMemoryPos := fw.m_curMemoryPos + 1 } : FileWrapper).unread := by
  obtain ⟨hcs, hfs, hne, hmap⟩ := hwf
  obtain ⟨b, hbase, hle, hend, hoff⟩ := hmap hst
  have hlen : fw.m_curMemoryPos < fw.content.length := by omega
  unfold FileWrapper.unread
  rw [List.drop_eq_getElem_cons hlen, List.getD_eq_getElem _ _ hlen]

theorem wellFormed_advance (fw : FileWrapper) (hwf : fw.WellFormed)
    (hst : fw.m_currentStatus = .Success) (hpos : fw.m_curMemoryPos < fw.m_curMemoryEndPos) :
    ({ fw with m_curMemoryPos := fw.m_curMemoryPos + 1 } : FileWrapper).WellFormed := by
  obtain ⟨hcs, hfs, hne, hmap⟩ := hwf
  obtain ⟨b, hbase, hle, hend, hoff⟩ := hmap hst
  exact ⟨hcs, hfs, hne, fun _ => ⟨b, hbase, hpos, hend, hoff⟩⟩

/-- A read on a well-formed source with status `Success` does to the unread bytes what
`readSpec` says, stores the status `storedAfter` says, and leaves a well-formed source. -/
theorem readNextSymbolAux_view :
    ∀ (fuel : Nat) (fw : FileWrapper), fw.WellFormed → fw.m_currentStatus = .Success →
      fw.budget ≤ fuel →
      ∃ fw', readNextSymbolAux fuel fw =
          some ((readSpec fw.unread).1, (readSpec fw.unread).2.1, fw') ∧
        fw'.WellFormed ∧ fw'.content = fw.content ∧
        fw'.m_currentStatus = storedAfter (readSpec fw.unread).1 ∧
        (fw'.m_currentStatus = .Success → fw'.unread = (readSpec fw.unread).2.2) := by
  intro fuel
  induction fuel with
  | zero =>
    intro fw _ _ hb
    simp [FileWrapper.budget] at hb
  | succ n ih =>
    intro fw hwf hst hb
    have hcs := hwf.1
    have hfs := hwf.2.1
    unfold readNextSymbolAux
    rw [if_neg (by simp [hst])]
    by_cases hpos : fw.m_curMemoryPos < fw.m_curMemoryEndPos
    · rw [if_pos hpos]
      have hun := unread_cons fw hwf hst hpos
      have hwf1 := wellFormed_advance fw hwf hst hpos
      have hadv := budget_advance fw hpos
      simp only
      by_cases hc : fw.content.getD fw.m_curMemoryPos 0 ≠ CR
      · rw [if_pos hc, hun, readSpec_byte _ _ hc]
        exact ⟨_, rfl, hwf1, rfl, by simp [storedAfter, hst], fun _ => rfl⟩
      · rw [if_neg hc]
        have hc' : fw.content.getD fw.m_curMemoryPos 0 = CR := by simpa using hc
        obtain ⟨fw2, h2, hwf2, hcont2, hst2, hun2⟩ :=
          ih { fw with m_curMemoryPos := fw.m_curMemoryPos + 1 } hwf1 hst (by omega)
        rw [h2, hun, hc', readSpec_cr]
        simp only
        by_cases hlf : ({ fw with m_curMemoryPos := fw.m_curMemoryPos + 1 } :
            FileWrapper).unread.head? = some LF
        · have hno := (readSpec_after_cr _).not.2 (not_not.2 hlf)
          rw [if_neg hno, if_pos hlf]
          have hr := readSpec_lf _ hlf
          rw [hr] at hst2 hun2
          have hs2 : fw2.m_currentStatus = .Success := by simpa [storedAfter] using hst2
          exact ⟨fw2, rfl, hwf2, hcont2, by simpa [storedAfter] using hs2, fun _ => hun2 hs2⟩
        · have hyes := (readSpec_after_cr _).2 hlf
          rw [if_pos hyes, if_neg hlf]
          refine ⟨_, rfl, wellFormed_latched fw2 .Failure hwf2.1 hwf2.2.1 (Or.inl rfl),
            hcont2, by simp [storedAfter], ?_⟩
          intro h
          simp at h
    · rw [if_neg hpos]
      rcases switchToNextChunk_view fw hwf hst hpos with
        ⟨hnil, u, hu, huc, hucs, hufs⟩ | ⟨fw1, h1, hwf1, hst1, hun1, hcont1, hb1⟩
      · rw [hu, hnil]
        refine ⟨_, by simp [readSpec], wellFormed_latched u .EndOfFile (by omega)
          (by rw [hufs, huc]; exact hfs) (Or.inr rfl), huc, by simp [readSpec, storedAfter], ?_⟩
        intro h
        simp at h
      · rw [h1]
        simp only
        obtain ⟨fw2, h2, hwf2, hcont2, hst2, hun2⟩ := ih fw1 hwf1 hst1 (by omega)
        rw [hun1] at h2 hst2 hun2
        exact ⟨fw2, h2, hwf2, hcont2.trans hcont1, hst2, hun2⟩

theorem skipSpec_cr (r : List Nat) :
    skipSpec (CR :: r) =
      if r.head? = some LF then (.Success, r.tail) else (.Failure, []) := by
  cases r with
  | nil => simp [skipSpec]
  | cons d r' => by_cases hd : d = LF <;> simp [skipSpec, hd]

theorem skipSpec_byte (c : Nat) (r : List Nat) (hc : c ≠ CR) :
    skipSpec (c :: r) = skipSpec r := by
  simp [skipSpec, hc]

/-- A skip on a well-formed source with status `Success` does to the unread bytes what
`skipSpec` says, stores the status it returns, and leaves a well-formed source. -/
theorem skipCurrentLineAux_view :
    ∀ (fuel : Nat) (fw : FileWrapper), fw.WellFormed → fw.m_currentStatus = .Success →
      fw.budget ≤ fuel →
      ∃ fw', skipCurrentLineAux fuel fw = some ((skipSpec fw.unread).1, fw') ∧
        fw'.WellFormed ∧ fw'.content = fw.content ∧
        fw'.m_currentStatus = (skipSpec fw.unread).1 ∧
        (fw'.m_currentStatus = .Success → fw'.unread = (skipSpec fw.unread).2) := by
  intro fuel
  induction fuel with
  | zero =>
    intro fw _ _ hb
    simp [FileWrapper.budget] at hb
  | succ n ih =>
    intro fw hwf hst hb
    have hcs := hwf.1
    have hfs := hwf.2.1
    unfold skipCurrentLineAux
    rw [if_neg (by simp [hst])]
    by_cases hpos : fw.m_curMemoryPos < fw.m_curMemoryEndPos
    · rw [if_pos hpos]
      have hun := unread_cons fw hwf hst hpos
      have hwf1 := wellFormed_advance fw hwf hst hpos
      have hadv := budget_advance fw hpos
      simp only
      by_cases hc : fw.content.getD fw.m_curMemoryPos 0 ≠ CR
      · rw [if_pos hc, hun, skipSpec_byte _ _ hc]
        exact ih { fw with m_curMemoryPos := fw.m_curMemoryPos + 1 } hwf1 hst (by omega)
      · rw [if_neg hc]
        have hc' : fw.content.getD fw.m_curMemoryPos 0 = CR := by simpa using hc
        obtain ⟨fw2, h2, hwf2, hcont2, hst2, hun2⟩ :=
          readNextSymbolAux_view n { fw with m_curMemoryPos := fw.m_curMemoryPos + 1 } hwf1 hst
            (by omega)
        rw [h2, hun, hc', skipSpec_cr]
        simp only
        by_cases hlf : ({ fw with m_curMemoryPos := fw.m_curMemoryPos + 1 } :
            FileWrapper).unread.head? = some LF
        · have hno := (readSpec_after_cr _).not.2 (not_not.2 hlf)
          rw [if_neg hno, if_pos hlf]
          have hr := readSpec_lf _ hlf
          rw [hr] at hst2 hun2
          have hs2 : fw2.m_currentStatus = .Success := by simpa [storedAfter] using hst2
          exact ⟨fw2, rfl, hwf2, hcont2, hs2, fun _ => hun2 hs2⟩
        · have hyes := (readSpec_after_cr _).2 hlf
          rw [if_pos hyes, if_neg hlf]
          refine ⟨_, rfl, wellFormed_latched fw2 .Failure hwf2.1 hwf2.2.1 (Or.inl rfl),
            hcont2, rfl, ?_⟩
          intro h
          simp at h
    · rw [if_neg hpos]
      rcases switchToNextChunk_view fw hwf hst hpos with
        ⟨hnil, u, hu, huc, hucs, hufs⟩ | ⟨fw1, h1, hwf1, hst1, hun1, hcont1, hb1⟩
      · rw [hu, hnil]
        refine ⟨_, by simp [skipSpec], wellFormed_latched u .EndOfFile (by omega)
          (by rw [hufs, huc]; exact hfs) (Or.inr rfl), huc, by simp [skipSpec], ?_⟩
        intro h
        simp at h
      · rw [h1]
        simp only
        obtain ⟨fw2, h2, hwf2, hcont2, hst2, hun2⟩ := ih fw1 hwf1 hst1 (by omega)
        rw [hun1] at h2 hst2 hun2
        exact ⟨fw2, h2, hwf2, hcont2.trans hcont1, hst2, hun2⟩

theorem openFile_wellFormed (content : List Nat) (chunkSize : Nat) (hcs : 0 < chunkSize)
    (hne : content ≠ []) :
    ∃ fw, openFile content chunkSize = some fw ∧ fw.WellFormed ∧
      fw.m_currentStatus = .Success ∧ fw.content = content ∧ fw.unread = content ∧
      fw.chunkSize = chunkSize := by
  have hlen : 0 < content.length := List.length_pos.mpr hne
  have hlen0 : content.length ≠ 0 := by omega
  have hle : ¬ content.length ≤ 0 := by omega
  refine ⟨{ content := content
            chunkSize := chunkSize
            m_fileSize := content.length
            m_curChunkOffset := 0 + chunkSize
            m_curChunkBaseAddress := some 0
            m_curMemoryPos := 0
            m_curMemoryEndPos := 0 + (if content.length - 0 > chunkSize then chunkSize
              else content.length - 0)
            m_currentStatus := .Success }, ?_, ?_, rfl, rfl, ?_, rfl⟩
  · simp [openFile, mapNextChunk, hlen0, hle]
  · refine ⟨hcs, rfl, by simp, fun _ => ⟨0, rfl, by simp, ?_, rfl⟩⟩
    simp only
    split <;> omega
  · simp [FileWrapper.unread]

theorem readNextSymbolAux_success :
    ∀ (fuel : Nat) (fw : FileWrapper) (b : Option Nat) (fw1 : FileWrapper),
      0 < fw.chunkSize → fw.budget ≤ fuel →
      readNextSymbolAux fuel fw = some (.Success, b, fw1) →
      fw1.budget < fw.budget ∧ fw1.chunkSize = fw.chunkSize ∧
        fw1.m_currentStatus = fw.m_currentStatus := by
  intro fuel
  induction fuel with
  | zero =>
    intro fw b fw1 _ hb
    simp [FileWrapper.budget] at hb
  | succ n ih =>
    intro fw b fw1 hcs hb h
    unfold readNextSymbolAux at h
    by_cases hst : fw.m_currentStatus ≠ .Success
    · rw [if_pos hst] at h
      simp only [Option.some.injEq, Prod.mk.injEq] at h
      exact absurd h.1 hst
    · rw [if_neg hst] at h
      by_cases hpos : fw.m_curMemoryPos < fw.m_curMemoryEndPos
      · rw [if_pos hpos] at h
        have hadv := budget_advance fw hpos
        simp only at h
        split at h
        · simp only [Option.some.injEq, Prod.mk.injEq] at h
          rw [← h.2.2]
          exact ⟨by omega, rfl, rfl⟩
        · split at h
          · simp at h
          · split at h <;> simp at h
      · rw [if_neg hpos] at h
        rcases switchToNextChunk_cases fw hcs hpos with ⟨u, h1, _, _⟩ | ⟨u, h1, h2, h3, h4⟩
        · rw [h1] at h
          simp at h
        · rw [h1] at h
          simp only at h
          have := ih u b fw1 (by omega) (by omega) h
          exact ⟨by omega, by omega, this.2.2.trans h4⟩

theorem readNextSymbol_eq_aux (fw : FileWrapper) (hcs : 0 < fw.chunkSize) (fuel : Nat)
    (hb : fw.budget ≤ fuel) : readNextSymbol fw = readNextSymbolAux fuel fw :=
  readNextSymbolAux_fuel (fw.budget + 1) fuel fw hcs (Nat.le_succ _) hb

theorem readLoopAux_fuel :
    ∀ (f1 f2 : Nat) (fw : FileWrapper), 0 < fw.chunkSize → fw.budget ≤ f1 → fw.budget ≤ f2 →
      readLoopAux f1 fw = readLoopAux f2 fw := by
  intro f1
  induction f1 with
  | zero =>
    intro f2 fw _ hb
    simp [FileWrapper.budget] at hb
  | succ n ih =>
    intro f2 fw hcs hb1 hb2
    cases f2 with
    | zero => simp [FileWrapper.budget] at hb2
    | succ k =>
      unfold readLoopAux
      cases hr : readNextSymbol fw with
      | none => rfl
      | some r =>
        obtain ⟨s, b, fw1⟩ := r
        simp only
        by_cases hs : s = .Success
        · subst hs
          have := readNextSymbolAux_success _ fw b fw1 hcs (Nat.le_succ _) hr
          rw [if_pos rfl, if_pos rfl]
          exact ih k fw1 (by omega) (by omega) (by omega)
        · rw [if_neg hs, if_neg hs]

theorem readNextSymbolAux_succ (n : Nat) (fw : FileWrapper) :
    readNextSymbolAux (n + 1) fw =
      if fw.m_currentStatus ≠ .Success then some (fw.m_currentStatus, none, fw)
      else if fw.m_curMemoryPos < fw.m_curMemoryEndPos then
        if fw.content.getD fw.m_curMemoryPos 0 ≠ CR then
          some (.Success, some (fw.content.getD fw.m_curMemoryPos 0),
            { fw with m_curMemoryPos := fw.m_curMemoryPos + 1 })
        else
          match readNextSymbolAux n { fw with m_curMemoryPos := fw.m_curMemoryPos + 1 } with
          | none => none
          | some (s, testChar, fw2) =>
            if s ≠ .Success ∨ testChar.getD 0 ≠ LF then
              some (.Failure, none, { fw2 with m_currentStatus := .Failure })
            else some (.EndOfLine, none, fw2)
      else
        match switchToNextChunk fw with
        | (.Failure, fw1) => some (.Failure, none, { fw1 with m_currentStatus := .Failure })
        | (.EndOfFile, fw1) => some (.EndOfFile, none, { fw1 with m_currentStatus := .EndOfFile })
        | (.Success, fw1) => readNextSymbolAux n fw1 := by
  rfl

theorem skipCurrentLineAux_succ (n : Nat) (fw : FileWrapper) :
    skipCurrentLineAux (n + 1) fw =
      if fw.m_currentStatus ≠ .Success then some (fw.m_currentStatus, fw)
      else if fw.m_curMemoryPos < fw.m_curMemoryEndPos then
        if fw.content.getD fw.m_curMemoryPos 0 ≠ CR then
          skipCurrentLineAux n { fw with m_curMemoryPos := fw.m_curMemoryPos + 1 }
        else
          match readNextSymbolAux n { fw with m_curMemoryPos := fw.m_curMemoryPos + 1 } with
          | none => none
          | some (s, testChar, fw2) =>
            if s ≠ .Success ∨ testChar.getD 0 ≠ LF then
              some (.Failure, { fw2 with m_currentStatus := .Failure })
            else some (.Success, fw2)
      else
        match switchToNextChunk fw with
        | (.Failure, fw1) => some (.Failure, { fw1 with m_currentStatus := .Failure })
        | (.EndOfFile, fw1) => some (.EndOfFile, { fw1 with m_currentStatus := .EndOfFile })
        | (.Success, fw1) => skipCurrentLineAux n fw1 := by
  rfl

theorem readLoopAux_succ (n : Nat) (fw : FileWrapper) :
    readLoopAux (n + 1) fw =
      match readNextSymbol fw with
      | none => none
      | some (s, _, fw1) => if s = .Success then readLoopAux n fw1 else some (s, fw1) := by
  rfl

/-- A skip is the read loop: the same source afterwards, and the status the loop stops
on, with `EndOfLine` turned into `Success`. -/
theorem skipCurrentLineAux_eq_readLoopAux :
    ∀ (fuel : Nat) (fw : FileWrapper), 0 < fw.chunkSize → fw.m_currentStatus ≠ .EndOfLine →
      fw.budget ≤ fuel →
      skipCurrentLineAux fuel fw =
        (readLoopAux fuel fw).map (fun r => (storedAfter r.1, r.2)) := by
  intro fuel
  induction fuel with
  | zero =>
    intro fw _ _ hb
    simp [FileWrapper.budget] at hb
  | succ n ih =>
    intro fw hcs hne hb
    rw [skipCurrentLineAux_succ, readLoopAux_succ, readNextSymbol_eq_aux fw hcs (n + 1) hb,
      readNextSymbolAux_succ]
    by_cases hst : fw.m_currentStatus ≠ .Success
    · rw [if_pos hst, if_pos hst]
      simp [hst, storedAfter, hne]
    · rw [if_neg hst, if_neg hst]
      by_cases hpos : fw.m_curMemoryPos < fw.m_curMemoryEndPos
      · rw [if_pos hpos, if_pos hpos]
        have hadv := budget_advance fw hpos
        by_cases hc : fw.content.getD fw.m_curMemoryPos 0 ≠ CR
        · rw [if_pos hc, if_pos hc]
          simp only [if_true]
          exact ih { fw with m_curMemoryPos := fw.m_curMemoryPos + 1 } hcs hne (by omega)
        · rw [if_neg hc, if_neg hc]
          cases readNextSymbolAux n { fw with m_curMemoryPos := fw.m_curMemoryPos + 1 } with
          | none => rfl
          | some r =>
            obtain ⟨s, t, fw2⟩ := r
            simp only
            split <;> simp [storedAfter]
      · rw [if_neg hpos, if_neg hpos]
        rcases switchToNextChunk_cases fw hcs hpos with ⟨u, h1, _, _⟩ | ⟨u, h1, h2, h3, h4⟩
        · rw [h1]
          simp [storedAfter]
        · rw [h1]
          simp only
          rw [ih u (by omega) (by rw [h4]; exact hne) (by omega)]
          have hun : 1 ≤ n := by
            have : 1 ≤ u.budget := by simp [FileWrapper.budget]
            omega
          obtain ⟨k, rfl⟩ : ∃ k, n = k + 1 := ⟨n - 1, by omega⟩
          rw [readLoopAux_succ k u, readNextSymbol_eq_aux u (by omega) (k + 1) (by omega)]
          cases hr : readNextSymbolAux (k + 1) u with
          | none => rfl
          | some r =>
            obtain ⟨s, t, fw2⟩ := r
            simp only
            by_cases hs : s = .Success
            · subst hs
              have := readNextSymbolAux_success _ u t fw2 (by omega) (by omega) hr
              rw [if_pos rfl, if_pos rfl,
                readLoopAux_fuel k (k + 1) fw2 (by omega) (by omega) (by omega)]
            · rw [if_neg hs, if_neg hs]

theorem readLoopAux_stops :
    ∀ (fuel : Nat) (fw : FileWrapper) (s : SymbolReadStatus) (fw' : FileWrapper),
      readLoopAux fuel fw = some (s, fw') → s ≠ .Success := by
  intro fuel
  induction fuel with
  | zero => intro fw s fw' h; simp [readLoopAux] at h
  | succ n ih =>
    intro fw s fw' h
    rw [readLoopAux_succ] at h
    split at h
    · simp at h
    · rename_i s1 b1 fw1 _
      by_cases hs : s1 = .Success
      · rw [if_pos hs] at h
        exact ih fw1 s fw' h
      · rw [if_neg hs] at h
        simp only [Option.some.injEq, Prod.mk.injEq] at h
        rw [← h.1]
        exact hs

/-- C18: from every state of a source (with the positive chunk size of the system and a
stored status that is not `EndOfLine`, which is never stored), the loop that calls
`readNextSymbol` while it returns `Success` stops on a status `s` other than `Success`,
and `skipCurrentLine` leaves the source in the very same state and returns `Success` when
`s` is `EndOfLine`, and `s` itself (`EndOfFile` or `Failure`) otherwise. -/
theorem C18_skip_is_read_loop (fw : FileWrapper) (hcs : 0 < fw.chunkSize)
    (hne : fw.m_currentStatus ≠ .EndOfLine) :
    ∃ s fw', readLoop fw = some (s, fw') ∧ s ≠ .Success ∧
      skipCurrentLine fw = some (if s = .EndOfLine then .Success else s, fw') ∧
      ((if s = .EndOfLine then SymbolReadStatus.Success else s) = .Success ↔ s = .EndOfLine) := by
  have heq := skipCurrentLineAux_eq_readLoopAux (fw.budget + 1) fw hcs hne (Nat.le_succ _)
  obtain ⟨r, hr⟩ := skipCurrentLine_total fw hcs
  unfold skipCurrentLine at hr
  rw [hr] at heq
  cases hl : readLoopAux (fw.budget + 1) fw with
  | none =>
    rw [hl] at heq
    simp at heq
  | some p =>
    obtain ⟨s, fw'⟩ := p
    have hs := readLoopAux_stops _ fw s fw' hl
    refine ⟨s, fw', hl, hs, ?_, ?_⟩
    · unfold skipCurrentLine
      rw [hr, heq, hl]
      simp [storedAfter]
    · by_cases he : s = .EndOfLine
      · simp [he]
      · simp [he, hs]

/-- C18 at the source opened on the file `ab`, CR, LF, `cd`. -/
theorem C18_skip_is_read_loop_witness :
    openFile [97, 98, CR, LF, 99, 100] 65536 =
      some ⟨[97, 98, CR, LF, 99, 100], 65536, 6, 65536, some 0, 0, 6, .Success⟩ ∧
    (0 < (⟨[97, 98, CR, LF, 99, 100], 65536, 6, 65536, some 0, 0, 6, .Success⟩ :
        FileWrapper).chunkSize ∧
      (⟨[97, 98, CR, LF, 99, 100], 65536, 6, 65536, some 0, 0, 6, .Success⟩ :
        FileWrapper).m_currentStatus ≠ .EndOfLine) ∧
    ∃ s fw', readLoop ⟨[97, 98, CR, LF, 99, 100], 65536, 6, 65536, some 0, 0, 6, .Success⟩ =
        some (s, fw') ∧ s ≠ .Success ∧
      skipCurrentLine ⟨[97, 98, CR, LF, 99, 100], 65536, 6, 65536, some 0, 0, 6, .Success⟩ =
        some (if s = .EndOfLine then .Success else s, fw') ∧
      ((if s = .EndOfLine then SymbolReadStatus.Success else s) = .Success ↔ s = .EndOfLine) :=
  ⟨rfl, ⟨by decide, by decide⟩,
    C18_skip_is_read_loop ⟨[97, 98, CR, LF, 99, 100], 65536, 6, 65536, some 0, 0, 6, .Success⟩
      (by decide) (by decide)⟩

theorem readNextSymbol_view (fw : FileWrapper) (hwf : fw.WellFormed)
    (hst : fw.m_currentStatus = .Success) :
    ∃ fw', readNextSymbol fw = some ((readSpec fw.unread).1, (readSpec fw.unread).2.1, fw') ∧
      fw'.WellFormed ∧ fw'.content = fw.content ∧
      fw'.m_currentStatus = storedAfter (readSpec fw.unread).1 ∧
      (fw'.m_currentStatus = .Success → fw'.unread = (readSpec fw.unread).2.2) :=
  readNextSymbolAux_view (fw.budget + 1) fw hwf hst (Nat.le_succ _)

theorem skipCurrentLine_view (fw : FileWrapper) (hwf : fw.WellFormed)
    (hst : fw.m_currentStatus = .Success) :
    ∃ fw', skipCurrentLine fw = some ((skipSpec fw.unread).1, fw') ∧
      fw'.WellFormed ∧ fw'.content = fw.content ∧
      fw'.m_currentStatus = (skipSpec fw.unread).1 ∧
      (fw'.m_currentStatus = .Success → fw'.unread = (skipSpec fw.unread).2) :=
  skipCurrentLineAux_view (fw.budget + 1) fw hwf hst (Nat.le_succ _)

theorem readNextSymbol_inert (fw : FileWrapper) (h : fw.m_currentStatus ≠ .Success) :
    readNextSymbol fw = some (fw.m_currentStatus, none, fw) := by
  unfold readNextSymbol
  rw [readNextSymbolAux_succ, if_pos h]

theorem skipCurrentLine_inert (fw : FileWrapper) (h : fw.m_currentStatus ≠ .Success) :
    skipCurrentLine fw = some (fw.m_currentStatus, fw) := by
  unfold skipCurrentLine
  rw [skipCurrentLineAux_succ, if_pos h]

theorem run_inert (call : SourceCall) (fw : FileWrapper)
    (h : fw.m_currentStatus ≠ .Success) :
    call.run fw = some (fw.m_currentStatus, none, fw) := by
  cases call with
  | readNextSymbol => exact readNextSymbol_inert fw h
  | skipCurrentLine => simp [SourceCall.run, skipCurrentLine_inert fw h]

theorem runCalls_inert (calls : List SourceCall) (fw : FileWrapper)
    (h : fw.m_currentStatus ≠ .Success) :
    runCalls calls fw = some (calls.map (fun _ => (fw.m_currentStatus, none)), fw) := by
  induction calls with
  | nil => rfl
  | cons call rest ih => simp [runCalls, run_inert call fw h, ih]

theorem run_wellFormed (call : SourceCall) (fw : FileWrapper) (hwf : fw.WellFormed) :
    ∃ s b fw1, call.run fw = some (s, b, fw1) ∧ fw1.WellFormed ∧ fw1.content = fw.content := by
  by_cases hst : fw.m_currentStatus = .Success
  · cases call with
    | readNextSymbol =>
      obtain ⟨fw1, h1, hwf1, hc1, _⟩ := readNextSymbol_view fw hwf hst
      exact ⟨_, _, fw1, h1, hwf1, hc1⟩
    | skipCurrentLine =>
      obtain ⟨fw1, h1, hwf1, hc1, _⟩ := skipCurrentLine_view fw hwf hst
      exact ⟨(skipSpec fw.unread).1, none, fw1, by simp [SourceCall.run, h1], hwf1, hc1⟩
  · exact ⟨_, _, fw, run_inert call fw hst, hwf, rfl⟩

theorem runCalls_wellFormed (calls : List SourceCall) :
    ∀ fw : FileWrapper, fw.WellFormed →
      ∃ out fw', runCalls calls fw = some (out, fw') ∧ fw'.WellFormed ∧
        fw'.content = fw.content := by
  induction calls with
  | nil => intro fw hwf; exact ⟨[], fw, rfl, hwf, rfl⟩
  | cons call rest ih =>
    intro fw hwf
    obtain ⟨s, b, fw1, h1, hwf1, hc1⟩ := run_wellFormed call fw hwf
    obtain ⟨out, fw2, h2, hwf2, hc2⟩ := ih fw1 hwf1
    exact ⟨(s, b) :: out, fw2, by simp [runCalls, h1, h2], hwf2, hc2.trans hc1⟩

theorem openFile_some (content : List Nat) (chunkSize : Nat) (hcs : 0 < chunkSize)
    (fw : FileWrapper) (h : openFile content chunkSize = some fw) :
    fw.WellFormed ∧ fw.m_currentStatus = .Success ∧ fw.content = content ∧
      fw.unread = content := by
  have hne : content ≠ [] := by
    intro hnil
    subst hnil
    simp [openFile] at h
  obtain ⟨fw0, h0, hwf, hst, hc, hu, _⟩ := openFile_wellFormed content chunkSize hcs hne
  rw [h0] at h
  simp only [Option.some.injEq] at h
  subst h
  exact ⟨hwf, hst, hc, hu⟩

/-- Every source reached from `openFile` by reads and skips is well formed. -/
theorem reached_wellFormed (content : List Nat) (chunkSize : Nat) (hcs : 0 < chunkSize)
    (fw0 : FileWrapper) (h0 : openFile content chunkSize = some fw0)
    (calls : List SourceCall) (out : List (SymbolReadStatus × Option Nat)) (fw : FileWrapper)
    (hr : runCalls calls fw0 = some (out, fw)) : fw.WellFormed ∧ fw.content = content := by
  obtain ⟨hwf0, _, hc0, _⟩ := openFile_some content chunkSize hcs fw0 h0
  obtain ⟨out', fw', h', hwf', hc'⟩ := runCalls_wellFormed calls fw0 hwf0
  rw [h'] at hr
  simp only [Option.some.injEq, Prod.mk.injEq] at hr
  rw [← hr.2]
  exact ⟨hwf', hc'.trans hc0⟩

theorem skipSpec_line (u r : List Nat) (hu : ∀ b ∈ u, b ≠ CR) :
    skipSpec (u ++ CR :: LF :: r) = (.Success, r) := by
  induction u with
  | nil => simp [skipSpec_cr]
  | cons a u ih =>
    rw [List.cons_append, skipSpec_byte _ _ (hu a (List.mem_cons_self _ _))]
    exact ih (fun b hb => hu b (List.mem_cons_of_mem _ hb))

/-- C11: on every source reached from `openFile` whose status is `Success` and whose
cursor stands before the terminator of a line (the bytes `u` up to the terminator hold no
carriage return), when that line ends with CR LF and the following line starts with a
byte `c` (a byte of a line, hence not a carriage return), `skipCurrentLine` returns
`Success` and the next `readNextSymbol` returns `Success` and delivers `c`. -/
theorem C11_skip_then_first_byte (content : List Nat) (chunkSize : Nat)
    (hcs : 0 < chunkSize) (fw0 : FileWrapper) (h0 : openFile content chunkSize = some fw0)
    (calls : List SourceCall) (out : List (SymbolReadStatus × Option Nat)) (fw : FileWrapper)
    (hr : runCalls calls fw0 = some (out, fw)) (hst : fw.m_currentStatus = .Success)
    (u : List Nat) (c : Nat) (tail : List Nat) (hu : ∀ b ∈ u, b ≠ CR) (hc : c ≠ CR)
    (hun : fw.unread = u ++ CR :: LF :: c :: tail) :
    ∃ fw1 fw2, skipCurrentLine fw = some (.Success, fw1) ∧
      fw1.m_currentStatus = .Success ∧
      readNextSymbol fw1 = some (.Success, some c, fw2) := by
  obtain ⟨hwf, _⟩ := reached_wellFormed content chunkSize hcs fw0 h0 calls out fw hr
  obtain ⟨fw1, h1, hwf1, _, hst1, hun1⟩ := skipCurrentLine_view fw hwf hst
  rw [hun, skipSpec_line u _ hu] at h1 hst1 hun1
  simp only at h1 hst1 hun1
  obtain ⟨fw2, h2, _⟩ := readNextSymbol_view fw1 hwf1 hst1
  rw [hun1 hst1, readSpec_byte _ _ hc] at h2
  exact ⟨fw1, fw2, h1, hst1, h2⟩

/-- C11 on the file `ab`, CR, LF, `cd` after one read: the cursor stands before `b`. -/
theorem C11_skip_then_first_byte_witness :
    (0 < 65536 ∧
      openFile [97, 98, CR, LF, 99, 100] 65536 =
        some ⟨[97, 98, CR, LF, 99, 100], 65536, 6, 65536, some 0, 0, 6, .Success⟩ ∧
      runCalls [.readNextSymbol]
          ⟨[97, 98, CR, LF, 99, 100], 65536, 6, 65536, some 0, 0, 6, .Success⟩ =
        some ([(.Success, some 97)],
          ⟨[97, 98, CR, LF, 99, 100], 65536, 6, 65536, some 0, 1, 6, .Success⟩) ∧
      (∀ b ∈ [98], b ≠ CR) ∧ 99 ≠ CR ∧
      (⟨[97, 98, CR, LF, 99, 100], 65536, 6, 65536, some 0, 1, 6, .Success⟩ :
        FileWrapper).unread = [98] ++ CR :: LF :: 99 :: [100]) ∧
    ∃ fw1 fw2,
      skipCurrentLine ⟨[97, 98, CR, LF, 99, 100], 65536, 6, 65536, some 0, 1, 6, .Success⟩ =
        some (.Success, fw1) ∧
      fw1.m_currentStatus = .Success ∧
      readNextSymbol fw1 = some (.Success, some 99, fw2) :=
  ⟨⟨by decide, rfl, rfl, by decide, by decide, rfl⟩,
    C11_skip_then_first_byte [97, 98, CR, LF, 99, 100] 65536 (by decide) _ rfl
      [.readNextSymbol] _ _ rfl rfl [98] 99 [100] (by decide) (by decide) rfl⟩

theorem skipSpec_lone (post : List Nat) (hl : post.head? ≠ some LF) (b : List Nat) :
    (skipSpec (b ++ CR :: post)).1 = .Failure ∨
      ((skipSpec (b ++ CR :: post)).1 = .Success ∧
        ∃ a' b', b = a' ++ b' ∧ (skipSpec (b ++ CR :: post)).2 = b' ++ CR :: post) := by
  induction b with
  | nil =>
    left
    rw [List.nil_append, skipSpec_cr, if_neg hl]
  | cons c b1 ih =>
    rw [List.cons_append]
    by_cases hc : c = CR
    · subst hc
      rw [skipSpec_cr]
      cases b1 with
      | nil =>
        left
        simp [CR, LF]
      | cons d b2 =>
        by_cases hd : d = LF
        · right
          subst hd
          refine ⟨by simp, [CR, LF], b2, rfl, by simp⟩
        · left
          simp [hd]
    · rw [skipSpec_byte _ _ hc]
      rcases ih with h | ⟨h, a', b', hb, hr⟩
      · exact Or.inl h
      · exact Or.inr ⟨h, c :: a', b', by rw [hb]; rfl, hr⟩

theorem delivered_inert (calls : List SourceCall) (s : SymbolReadStatus) :
    (calls.map (fun _ => ((s, none) : SymbolReadStatus × Option Nat))).filterMap Prod.snd =
      [] := by
  induction calls with
  | nil => rfl
  | cons c r ih => simp

theorem runCalls_cons (call : SourceCall) (rest : List SourceCall) (fw fw1 fw' : FileWrapper)
    (s : SymbolReadStatus) (b : Option Nat) (out1 : List (SymbolReadStatus × Option Nat))
    (h1 : call.run fw = some (s, b, fw1)) (h2 : runCalls rest fw1 = some (out1, fw')) :
    runCalls (call :: rest) fw = some ((s, b) :: out1, fw') := by
  simp [runCalls, h1, h2]

theorem runCalls_failed (rest : List SourceCall) (fw1 : FileWrapper)
    (h : fw1.m_currentStatus = .Failure) :
    runCalls rest fw1 = some (rest.map (fun _ => (SymbolReadStatus.Failure, none)), fw1) := by
  have := runCalls_inert rest fw1 (by simp [h])
  rwa [h] at this

theorem lone_cr_runs (post : List Nat) (hl : post.head? ≠ some LF) (calls : List SourceCall) :
    ∀ (fw : FileWrapper) (b : List Nat), fw.WellFormed → fw.m_currentStatus = .Success →
      fw.unread = b ++ CR :: post →
      ∃ out fw', runCalls calls fw = some (out, fw') ∧
        ((∃ r ∈ out, r.1 = .Failure) ∨
          (fw'.m_currentStatus = .Success ∧
            ∃ a' b', b = a' ++ b' ∧ fw'.unread = b' ++ CR :: post)) ∧
        (out.filterMap Prod.snd).Sublist b := by
  induction calls with
  | nil =>
    intro fw b _ hst hun
    exact ⟨[], fw, rfl, Or.inr ⟨hst, [], b, rfl, hun⟩, by simp⟩
  | cons call rest ih =>
    intro fw b hwf hst hun
    cases call with
    | readNextSymbol =>
      obtain ⟨fw1, h1, hwf1, _, hst1, hun1⟩ := readNextSymbol_view fw hwf hst
      rw [hun] at h1 hst1 hun1
      have hfail : (readSpec (b ++ CR :: post)) = (.Failure, none, []) →
          ∃ out fw', runCalls (.readNextSymbol :: rest) fw = some (out, fw') ∧
            ((∃ r ∈ out, r.1 = .Failure) ∨
              (fw'.m_currentStatus = .Success ∧
                ∃ a' b', b = a' ++ b' ∧ fw'.unread = b' ++ CR :: post)) ∧
            (out.filterMap Prod.snd).Sublist b := by
        intro hspec
        rw [hspec] at h1 hst1
        have hs1 : fw1.m_currentStatus = .Failure := by simpa [storedAfter] using hst1
        refine ⟨_, fw1, runCalls_cons .readNextSymbol rest fw fw1 fw1 .Failure none _ h1
          (runCalls_failed rest fw1 hs1), Or.inl ⟨_, List.mem_cons_self _ _, rfl⟩, ?_⟩
        simp [delivered_inert]
      cases b with
      | nil =>
        apply hfail
        rw [List.nil_append, readSpec_cr, if_neg hl]
      | cons c b1 =>
        by_cases hc : c = CR
        · subst hc
          rw [List.cons_append, readSpec_cr] at h1 hst1 hun1
          cases b1 with
          | nil =>
            apply hfail
            rw [List.cons_append, readSpec_cr]
            simp [CR, LF]
          | cons d b2 =>
            by_cases hd : d = LF
            · subst hd
              simp only [List.cons_append, List.head?_cons, if_true, List.tail_cons] at h1 hst1 hun1
              have hs1 : fw1.m_currentStatus = .Success := by simpa [storedAfter] using hst1
              obtain ⟨out1, fw', hr1, hdis, hsub⟩ := ih fw1 b2 hwf1 hs1 (hun1 hs1)
              refine ⟨_, fw', runCalls_cons .readNextSymbol rest fw fw1 fw' _ _ out1 h1 hr1,
                ?_, ?_⟩
              · rcases hdis with ⟨r, hr, hf⟩ | ⟨hs', a', b', hb, hu'⟩
                · exact Or.inl ⟨r, List.mem_cons_of_mem _ hr, hf⟩
                · exact Or.inr ⟨hs', CR :: LF :: a', b', by rw [hb]; rfl, hu'⟩
              · simp only [List.filterMap_cons]
                exact (hsub.cons LF).cons CR
            · apply hfail
              rw [List.cons_append, readSpec_cr]
              simp [hd]
        · rw [List.cons_append, readSpec_byte _ _ hc] at h1 hst1 hun1
          have hs1 : fw1.m_currentStatus = .Success := by simpa [storedAfter] using hst1
          obtain ⟨out1, fw', hr1, hdis, hsub⟩ := ih fw1 b1 hwf1 hs1 (hun1 hs1)
          refine ⟨_, fw', runCalls_cons .readNextSymbol rest fw fw1 fw' _ _ out1 h1 hr1,
            ?_, ?_⟩
          · rcases hdis with ⟨r, hr, hf⟩ | ⟨hs', a', b', hb, hu'⟩
            · exact Or.inl ⟨r, List.mem_cons_of_mem _ hr, hf⟩
            · exact Or.inr ⟨hs', c :: a', b', by rw [hb]; rfl, hu'⟩
          · simp only [List.filterMap_cons]
            exact hsub.cons₂ c
    | skipCurrentLine =>
      obtain ⟨fw1, h1, hwf1, _, hst1, hun1⟩ := skipCurrentLine_view fw hwf hst
      rw [hun] at h1 hst1 hun1
      rcases skipSpec_lone post hl b with hf | ⟨hs, a', b', hb, hr⟩
      · rw [hf] at h1 hst1
        have hrun : SourceCall.skipCurrentLine.run fw = some (.Failure, none, fw1) := by
          simp [SourceCall.run, h1]
        refine ⟨_, fw1, runCalls_cons .skipCurrentLine rest fw fw1 fw1 .Failure none _ hrun
          (runCalls_failed rest fw1 hst1), Or.inl ⟨_, List.mem_cons_self _ _, rfl⟩, ?_⟩
        simp [delivered_inert]
      · rw [hs] at h1 hst1
        rw [hr] at hun1
        obtain ⟨out1, fw', hr1, hdis, hsub⟩ := ih fw1 b' hwf1 hst1 (hun1 hst1)
        have hrun : SourceCall.skipCurrentLine.run fw = some (.Success, none, fw1) := by
          simp [SourceCall.run, h1]
        refine ⟨_, fw', runCalls_cons .skipCurrentLine rest fw fw1 fw' _ _ out1 hrun hr1,
          ?_, ?_⟩
        · rcases hdis with ⟨r, hr', hf⟩ | ⟨hs', a2, b2, hb2, hu'⟩
          · exact Or.inl ⟨r, List.mem_cons_of_mem _ hr', hf⟩
          · exact Or.inr ⟨hs', a' ++ a2, b2, by rw [hb, hb2, List.append_assoc], hu'⟩
        · simp only [List.filterMap_cons]
          rw [hb]
          exact hsub.trans (List.sublist_append_right _ _)

/-- C12: on a file that holds a carriage return not followed by a line feed (also as its
last byte), after any sequence of `readNextSymbol` and `skipCurrentLine` calls from
`openFile` either a call has returned `Failure` or that carriage return is still unread;
and the bytes delivered, in order, are bytes standing before that carriage return. -/
theorem C12_lone_cr_fails (pre post : List Nat) (hl : post.head? ≠ some LF)
    (chunkSize : Nat) (hcs : 0 < chunkSize) (calls : List SourceCall) :
    ∃ fw0 out fw, openFile (pre ++ CR :: post) chunkSize = some fw0 ∧
      runCalls calls fw0 = some (out, fw) ∧
      ((∃ r ∈ out, r.1 = .Failure) ∨
        (fw.m_currentStatus = .Success ∧
          ∃ a b, pre = a ++ b ∧ fw.unread = b ++ CR :: post)) ∧
      (out.filterMap Prod.snd).Sublist pre := by
  obtain ⟨fw0, h0, hwf, hst, _, hun, _⟩ :=
    openFile_wellFormed (pre ++ CR :: post) chunkSize hcs (by simp)
  obtain ⟨out, fw, hr, hdis, hsub⟩ := lone_cr_runs post hl calls fw0 pre hwf hst hun
  exact ⟨fw0, out, fw, h0, hr, hdis, hsub⟩

/-- C12 on the file `a`, CR, `b`, read three times. -/
theorem C12_lone_cr_witness :
    (([98] : List Nat).head? ≠ some LF ∧ 0 < 65536) ∧
    ∃ fw0 out fw, openFile ([97] ++ CR :: [98]) 65536 = some fw0 ∧
      runCalls [.readNextSymbol, .readNextSymbol, .readNextSymbol] fw0 = some (out, fw) ∧
      ((∃ r ∈ out, r.1 = .Failure) ∨
        (fw.m_currentStatus = .Success ∧
          ∃ a b, [97] = a ++ b ∧ fw.unread = b ++ CR :: [98])) ∧
      (out.filterMap Prod.snd).Sublist [97] :=
  ⟨⟨by decide, by decide⟩,
    C12_lone_cr_fails [97] [98] (by decide) 65536 (by decide)
      [.readNextSymbol, .readNextSymbol, .readNextSymbol]⟩

theorem readSpec_no_byte (l : List Nat) (h : (readSpec l).1 ≠ .Success) :
    (readSpec l).2.1 = none := by
  cases l with
  | nil => rfl
  | cons c r =>
    by_cases hc : c = CR
    · subst hc
      rw [readSpec_cr]
      split <;> rfl
    · rw [readSpec_byte _ _ hc] at h
      exact absurd rfl h

theorem readSpec_endOfLine (l : List Nat) (h : (readSpec l).1 = .EndOfLine) :
    ∃ r, l = CR :: LF :: r ∧ (readSpec l).2.2 = r := by
  cases l with
  | nil => simp [readSpec] at h
  | cons c r =>
    by_cases hc : c = CR
    · subst hc
      rw [readSpec_cr] at h ⊢
      cases r with
      | nil => simp at h
      | cons d r' =>
        by_cases hd : d = LF
        · subst hd
          exact ⟨r', rfl, by simp⟩
        · simp [hd] at h
    · rw [readSpec_byte _ _ hc] at h
      simp at h

theorem skipSpec_ne_endOfLine (l : List Nat) : (skipSpec l).1 ≠ .EndOfLine := by
  induction l with
  | nil => simp [skipSpec]
  | cons c r ih =>
    by_cases hc : c = CR
    · subst hc
      rw [skipSpec_cr]
      split <;> simp
    · rw [skipSpec_byte _ _ hc]
      exact ih

/-- C14: on every source reached from `openFile`, a call that returns `Failure` or
`EndOfFile` delivers no byte and stores that status, and every sequence of later calls
returns it again, delivers nothing and leaves the source as it is; a call that returns
`EndOfLine` delivers no byte and leaves the status `Success` stored, the bytes read being
the terminator CR LF, and the next `readNextSymbol` or `skipCurrentLine` works on the
bytes `r` after the terminator. -/
theorem C14_terminal_statuses_latch (content : List Nat) (chunkSize : Nat)
    (hcs : 0 < chunkSize) (fw0 : FileWrapper) (h0 : openFile content chunkSize = some fw0)
    (calls : List SourceCall) (out : List (SymbolReadStatus × Option Nat)) (fw : FileWrapper)
    (hr : runCalls calls fw0 = some (out, fw)) (call : SourceCall) (s : SymbolReadStatus)
    (b : Option Nat) (fw1 : FileWrapper) (hcall : call.run fw = some (s, b, fw1)) :
    ((s = .Failure ∨ s = .EndOfFile) →
      b = none ∧ fw1.m_currentStatus = s ∧
        ∀ later : List SourceCall,
          runCalls later fw1 = some (later.map (fun _ => (s, none)), fw1)) ∧
    (s = .EndOfLine →
      b = none ∧ fw1.m_currentStatus = .Success ∧
        ∃ r, fw.unread = CR :: LF :: r ∧ fw1.unread = r ∧
          (∃ fw2, readNextSymbol fw1 = some ((readSpec r).1, (readSpec r).2.1, fw2)) ∧
          (∃ fw2, skipCurrentLine fw1 = some ((skipSpec r).1, fw2))) := by
  obtain ⟨hwf, _⟩ := reached_wellFormed content chunkSize hcs fw0 h0 calls out fw hr
  have hlatch : ∀ (fw1 : FileWrapper) (s : SymbolReadStatus), fw1.m_currentStatus = s →
      (s = .Failure ∨ s = .EndOfFile) → ∀ later : List SourceCall,
        runCalls later fw1 = some (later.map (fun _ => (s, none)), fw1) := by
    intro fw1 s hs hterm later
    have hns : fw1.m_currentStatus ≠ .Success := by
      rw [hs]
      rcases hterm with rfl | rfl <;> simp
    have := runCalls_inert later fw1 hns
    rwa [hs] at this
  by_cases hst : fw.m_currentStatus = .Success
  · cases call with
    | readNextSymbol =>
      obtain ⟨fw', h1, hwf', _, hst', hun'⟩ := readNextSymbol_view fw hwf hst
      have heq : some ((readSpec fw.unread).1, (readSpec fw.unread).2.1, fw') =
          some (s, b, fw1) := h1.symm.trans hcall
      simp only [Option.some.injEq, Prod.mk.injEq] at heq
      obtain ⟨hs, hb, hfw⟩ := heq
      subst hfw
      constructor
      · intro hterm
        have hns : (readSpec fw.unread).1 ≠ .Success := by
          rw [hs]
          rcases hterm with rfl | rfl <;> simp
        have hstored : fw'.m_currentStatus = s := by
          rw [hst', hs]
          rcases hterm with rfl | rfl <;> simp [storedAfter]
        exact ⟨by rw [← hb]; exact readSpec_no_byte _ hns, hstored, hlatch fw' s hstored hterm⟩
      · intro heol
        have he : (readSpec fw.unread).1 = .EndOfLine := hs.trans heol
        obtain ⟨r, hr1, hr2⟩ := readSpec_endOfLine _ he
        have hsucc : fw'.m_currentStatus = .Success := by
          rw [hst', he]
          simp [storedAfter]
        have hunr : fw'.unread = r := (hun' hsucc).trans hr2
        obtain ⟨fw2, h2, _⟩ := readNextSymbol_view fw' hwf' hsucc
        obtain ⟨fw3, h3, _⟩ := skipCurrentLine_view fw' hwf' hsucc
        rw [hunr] at h2 h3
        refine ⟨?_, hsucc, r, hr1, hunr, ⟨fw2, h2⟩, ⟨fw3, h3⟩⟩
        rw [← hb]
        exact readSpec_no_byte _ (by rw [he]; simp)
    | skipCurrentLine =>
      obtain ⟨fw', h1, hwf', _, hst', hun'⟩ := skipCurrentLine_view fw hwf hst
      simp only [SourceCall.run, h1, Option.some.injEq, Prod.mk.injEq] at hcall
      obtain ⟨hs, hb, hfw⟩ := hcall
      subst hfw
      constructor
      · intro hterm
        exact ⟨hb.symm, hst'.trans hs, hlatch fw' s (hst'.trans hs) hterm⟩
      · intro heol
        exact absurd (hs.trans heol) (skipSpec_ne_endOfLine _)
  · rw [run_inert call fw hst] at hcall
    simp only [Option.some.injEq, Prod.mk.injEq] at hcall
    obtain ⟨hs, hb, hfw⟩ := hcall
    subst hfw
    constructor
    · intro hterm
      exact ⟨hb.symm, hs, hlatch fw s hs hterm⟩
    · intro heol
      exact absurd (hs.trans heol) hwf.2.2.1

/-- C14 on the file `a`, CR, LF, `c` after one read: the second read returns
`EndOfLine` and leaves the cursor before `c`. -/
theorem C14_terminal_statuses_witness :
    (0 < 65536 ∧
      openFile [97, CR, LF, 99] 65536 =
        some ⟨[97, CR, LF, 99], 65536, 4, 65536, some 0, 0, 4, .Success⟩ ∧
      runCalls [.readNextSymbol] ⟨[97, CR, LF, 99], 65536, 4, 65536, some 0, 0, 4, .Success⟩ =
        some ([(.Success, some 97)],
          ⟨[97, CR, LF, 99], 65536, 4, 65536, some 0, 1, 4, .Success⟩) ∧
      SourceCall.readNextSymbol.run
          ⟨[97, CR, LF, 99], 65536, 4, 65536, some 0, 1, 4, .Success⟩ =
        some (.EndOfLine, none,
          ⟨[97, CR, LF, 99], 65536, 4, 65536, some 0, 3, 4, .Success⟩)) ∧
    ((SymbolReadStatus.EndOfLine = .Failure ∨ SymbolReadStatus.EndOfLine = .EndOfFile) →
      (none : Option Nat) = none ∧
        (⟨[97, CR, LF, 99], 65536, 4, 65536, some 0, 3, 4, .Success⟩ :
          FileWrapper).m_currentStatus = .EndOfLine ∧
        ∀ later : List SourceCall,
          runCalls later ⟨[97, CR, LF, 99], 65536, 4, 65536, some 0, 3, 4, .Success⟩ =
            some (later.map (fun _ => (.EndOfLine, none)),
              ⟨[97, CR, LF, 99], 65536, 4, 65536, some 0, 3, 4, .Success⟩)) ∧
    (SymbolReadStatus.EndOfLine = .EndOfLine →
      (none : Option Nat) = none ∧
        (⟨[97, CR, LF, 99], 65536, 4, 65536, some 0, 3, 4, .Success⟩ :
          FileWrapper).m_currentStatus = .Success ∧
        ∃ r, (⟨[97, CR, LF, 99], 65536, 4, 65536, some 0, 1, 4, .Success⟩ :
            FileWrapper).unread = CR :: LF :: r ∧
          (⟨[97, CR, LF, 99], 65536, 4, 65536, some 0, 3, 4, .Success⟩ :
            FileWrapper).unread = r ∧
          (∃ fw2, readNextSymbol ⟨[97, CR, LF, 99], 65536, 4, 65536, some 0, 3, 4, .Success⟩ =
            some ((readSpec r).1, (readSpec r).2.1, fw2)) ∧
          (∃ fw2, skipCurrentLine ⟨[97, CR, LF, 99], 65536, 4, 65536, some 0, 3, 4, .Success⟩ =
            some ((skipSpec r).1, fw2))) :=
  ⟨⟨by decide, rfl, rfl, rfl⟩,
    C14_terminal_statuses_latch [97, CR, LF, 99] 65536 (by decide) _ rfl
      [.readNextSymbol] _ _ rfl .readNextSymbol .EndOfLine none _ rfl⟩


/-- C19 fails on the code: for the filter `*aa*` both active-state buffers are allocated
with 2 entries, and the history `a`, `a` leaves no session for `reset` to restore: its
second `processSymbol` call stores a third entry at index 2, outside the buffer, on the
freshly built session as well as on a candidate line that follows `reset` and an
earlier line. -/
theorem C19_history_lost_to_overrun :
    ∃ m m1, build [ASTERISK, 97, 97, ASTERISK] = some m ∧
      m.m_stateDoubleBuffer.1.buffer.length = 2 ∧ m.m_stateDoubleBuffer.2.buffer.length = 2 ∧
      processSymbol m 97 = .ok (.KeepGoing, m1) ∧
      processSymbol m1 97 = .error (.bufferOverrun 2 2) ∧
      feed m [97, 97] = .error (.bufferOverrun 2 2) ∧
      replay m [[98], [97, 97]] = .error (.bufferOverrun 2 2) :=
  ⟨_, _, rfl, rfl, rfl, rfl, rfl, rfl, rfl⟩

/-- C20 fails on the code: for the filter `*aa*` and the bytes `a`, `a` after `reset` the
three nodes 0, 1, 2 are to be active with status `KeepGoing`, node 2 being the persistent
node without a symbol, but the buffers are allocated with 2 entries: after the first
byte the current buffer is full with the nodes 0 and 1, and on the second byte the entry
of node 2 is stored at index 2, outside the buffer. -/
theorem C20_skip_node_stored_outside_buffer :
    ∃ m m1, build [ASTERISK, 97, 97, ASTERISK] = some m ∧
      m.m_stateDoubleBuffer.1.buffer.length = 2 ∧ m.m_stateDoubleBuffer.2.buffer.length = 2 ∧
      processSymbol (reset m) 97 = .ok (.KeepGoing, m1) ∧
      (m1.pack m1.m_currentStepStates).buffer = [some 0, some 1] ∧
      (m1.pack m1.m_currentStepStates).count = 2 ∧
      idealFeed m.chain (.active [0] false) [97, 97] = .active [0, 1, 2] false ∧
      isSkipNode m.chain 2 = true ∧
      processSymbol m1 97 = .error (.bufferOverrun 2 2) ∧
      feed (reset m) [97, 97] = .error (.bufferOverrun 2 2) :=
  ⟨_, _, rfl, rfl, rfl, rfl, rfl, rfl, rfl, rfl, rfl, rfl⟩

end LogReader
